import Mathlib

/-!
Project2: the BENSCHILLIBOWL bounded order queue

Shallow embedding of `src/Project2/BENSCHILLIBOWL.c` (with the constants of
`src/Project2/main.c`).

Modelling conventions.

* Every function of the queue runs its body while holding `bcb->mutex`, so a
  call is one atomic transition of the shared record, taken at the moment the
  call leaves its `while (...) pthread_cond_wait(...)` loop.  A call made in a
  state in which the loop condition holds (and the loop body does not return)
  cannot complete there: the functions below then yield `none`.
* The singly linked list `bcb->orders` (linked through `Order.next`) is a
  `List Order`, head first.
* C `int` fields are mathematical integers (`Int`); signed overflow is
  undefined behaviour in C and is outside the model.
-/

namespace BensChilliBowl

/-- Modelled from the spec: the header `BENSCHILLIBOWL.h` declaring `Order` is
not among the sources.  The fields are the ones the code reads and writes
(`menu_item`, `customer_id`, `order_number`); the `next` link is the list
structure itself. -/
structure Order where
  menu_item : String
  customer_id : Int
  order_number : Int
  deriving DecidableEq

/-- Modelled from the spec: the header `BENSCHILLIBOWL.h` declaring the
restaurant record is not among the sources.  The fields are the ones
`OpenRestaurant` initialises; the mutex and the two condition variables are
represented by the atomicity convention of this file. -/
structure BENSCHILLIBOWL where
  orders : List Order
  current_size : Int
  max_size : Int
  next_order_number : Int
  orders_handled : Int
  expected_num_orders : Int
  deriving DecidableEq

/-- Function `IsEmpty`: `bcb->current_size == 0`. -/
def IsEmpty (bcb : BENSCHILLIBOWL) : Bool :=
  bcb.current_size == 0

/-- Function `IsFull`: `bcb->current_size >= bcb->max_size`. -/
def IsFull (bcb : BENSCHILLIBOWL) : Bool :=
  decide (bcb.current_size ≥ bcb.max_size)

/-- Function `AddOrderToBack`: an empty queue gets the order as its head; otherwise the
list is walked to its last node and the order is linked behind it. -/
def AddOrderToBack : List Order → Order → List Order
  | [], order => [order]
  | current :: rest, order => current :: AddOrderToBack rest order

/-- Function `OpenRestaurant`: the returned pointer (`none` would be `NULL`) and the
record it points to.  The function performs no test on its arguments. -/
def OpenRestaurant (max_size expected_num_orders : Int) : Option BENSCHILLIBOWL :=
  some
    { orders := []
      current_size := 0
      max_size := max_size
      next_order_number := 1
      orders_handled := 0
      expected_num_orders := expected_num_orders }

/-- What `CloseRestaurant` lets an observer see: the warning written to
`stderr` (expected, handled), if any, and how many left-over orders the
clean-up loop released. -/
structure CloseReport where
  warning : Option (Int × Int)
  released : Nat
  deriving DecidableEq

/-- The clean-up loop of `CloseRestaurant`: one `free` per remaining node. -/
def freeRemaining : List Order → Nat
  | [] => 0
  | _ :: next => freeRemaining next + 1

/-- The clean-up loop of `CloseRestaurant`,
`while (bcb->orders != NULL) { temp = bcb->orders; bcb->orders = temp->next; free(temp); }`:
the value of `bcb->orders` when the loop ends, and the orders passed to `free`,
in this order. -/
def releaseLoop : List Order → List Order × List Order
  | [] => ([], [])
  | temp :: next =>
    let r := releaseLoop next
    (r.1, temp :: r.2)

/-- Function `CloseRestaurant`: the accounting check and the clean-up loop. -/
def CloseRestaurant (bcb : BENSCHILLIBOWL) : CloseReport :=
  { warning :=
      if bcb.orders_handled != bcb.expected_num_orders then
        some (bcb.expected_num_orders, bcb.orders_handled)
      else none
    released := freeRemaining bcb.orders }

/-- Function `AddOrder`, from `pthread_mutex_lock` to `pthread_mutex_unlock`.
Result `none`: the caller stays in `while (IsFull(bcb)) wait`.  Otherwise the
new record, the order as written by the call (its `order_number` assigned) and
the value `order->order_number` holds when the mutex is released.  The
statement `return order->order_number` comes after the unlock and reads the
field again: it yields this value as long as the order has not been freed
(`AddOrderCall` models the read). -/
def AddOrder (bcb : BENSCHILLIBOWL) (order : Order) :
    Option (BENSCHILLIBOWL × Order × Int) :=
  if IsFull bcb then none
  else
    let order1 : Order := { order with order_number := bcb.next_order_number }
    let bcb1 : BENSCHILLIBOWL := { bcb with next_order_number := bcb.next_order_number + 1 }
    let bcb2 : BENSCHILLIBOWL := { bcb1 with orders := AddOrderToBack bcb1.orders order1 }
    let bcb3 : BENSCHILLIBOWL := { bcb2 with current_size := bcb2.current_size + 1 }
    some (bcb3, order1, order1.order_number)

/-- Function `GetOrder`.  Result `none`: the caller stays in `while (IsEmpty(bcb)) ... wait`.
`some (bcb, none)`: the call returns `NULL`.  `some (bcb, some o)`: the call
returns the order `o`. -/
def GetOrder (bcb : BENSCHILLIBOWL) : Option (BENSCHILLIBOWL × Option Order) :=
  if IsEmpty bcb then
    if bcb.orders_handled ≥ bcb.expected_num_orders then some (bcb, none)
    else none
  else
    match bcb.orders with
    | [] => some (bcb, none)
    | order :: next =>
      let bcb1 : BENSCHILLIBOWL := { bcb with orders := next }
      let bcb2 : BENSCHILLIBOWL := { bcb1 with current_size := bcb1.current_size - 1 }
      let bcb3 : BENSCHILLIBOWL := { bcb2 with orders_handled := bcb2.orders_handled + 1 }
      some (bcb3, some order)

/-! ### Constants of `main.c` -/

def BENSCHILLIBOWL_SIZE : Int := 100
def NUM_CUSTOMERS : Int := 90
def NUM_COOKS : Int := 10
def ORDERS_PER_CUSTOMER : Int := 3
def EXPECTED_NUM_ORDERS : Int := NUM_CUSTOMERS * ORDERS_PER_CUSTOMER

/-! ### Traces of completed calls -/

/-- A call made by some thread on the shared queue. -/
inductive Call where
  | add (order : Order)
  | get
  deriving DecidableEq

/-- What a completed call did: `AddOrder` accepted an order (the order as
stored, and the number its `order_number` holds at the unlock, which the call
returns when the order is still allocated at its `return`), `GetOrder`
returned an order, or `GetOrder` returned `NULL`. -/
inductive Event where
  | accepted (order : Order) (ret : Int)
  | taken (order : Order)
  | endOfWork
  deriving DecidableEq

/-- One completed call; `none` when the call cannot complete in this state. -/
def call (bcb : BENSCHILLIBOWL) : Call → Option (BENSCHILLIBOWL × Event)
  | Call.add order =>
    match AddOrder bcb order with
    | none => none
    | some (bcb1, stored, ret) => some (bcb1, Event.accepted stored ret)
  | Call.get =>
    match GetOrder bcb with
    | none => none
    | some (bcb1, none) => some (bcb1, Event.endOfWork)
    | some (bcb1, some order) => some (bcb1, Event.taken order)

/-- The calls complete one after the other, in the order the mutex serialises
them; `none` when some call of the list cannot complete at its turn. -/
def run (bcb : BENSCHILLIBOWL) : List Call → Option (BENSCHILLIBOWL × List Event)
  | [] => some (bcb, [])
  | c :: cs =>
    match call bcb c with
    | none => none
    | some (bcb1, e) =>
      match run bcb1 cs with
      | none => none
      | some (bcb2, es) => some (bcb2, e :: es)

/-- A run on the queue returned by `OpenRestaurant max_size expected_num_orders`. -/
def session (max_size expected_num_orders : Int) (calls : List Call) :
    Option (BENSCHILLIBOWL × List Event) :=
  match OpenRestaurant max_size expected_num_orders with
  | none => none
  | some bcb => run bcb calls

/-- Orders accepted by `AddOrder`, oldest first (as stored in the queue). -/
def acceptedOrders : List Event → List Order
  | [] => []
  | Event.accepted order _ :: es => order :: acceptedOrders es
  | _ :: es => acceptedOrders es

/-- Third component of the `accepted` events, oldest first: the values the
completed `AddOrder` calls return when no order is freed before the `return`
of its call. -/
def addReturns : List Event → List Int
  | [] => []
  | Event.accepted _ ret :: es => ret :: addReturns es
  | _ :: es => addReturns es

/-- Orders returned by `GetOrder`, oldest first. -/
def takenOrders : List Event → List Order
  | [] => []
  | Event.taken order :: es => order :: takenOrders es
  | _ :: es => takenOrders es

/-- The numbers `first, first + 1, ..., first + n - 1`. -/
def countFrom (first : Int) : Nat → List Int
  | 0 => []
  | n + 1 => first :: countFrom (first + 1) n

/-- Sample order payloads. -/
def orderA : Order := { menu_item := "BensChilli", customer_id := 0, order_number := 0 }
def orderB : Order := { menu_item := "BensShake", customer_id := 1, order_number := 0 }

/-- Orders A and B as the queue stores them. -/
def storedA : Order := { orderA with order_number := 1 }
def storedB : Order := { orderB with order_number := 2 }

/-- A short session on a queue of capacity 2 expecting 2 orders: A and B are
submitted, A is taken. -/
def demoCalls : List Call := [Call.add orderA, Call.add orderB, Call.get]

/-- The record after `demoCalls`. -/
def demoState : BENSCHILLIBOWL :=
  { orders := [storedB]
    current_size := 1
    max_size := 2
    next_order_number := 3
    orders_handled := 1
    expected_num_orders := 2 }

/-- The events of `demoCalls`. -/
def demoEvents : List Event :=
  [Event.accepted storedA 1, Event.accepted storedB 2, Event.taken storedA]

/-- The order customer `i` hands to `AddOrder`. -/
def orderOf (i : Int) : Order :=
  { menu_item := "BensHotDog", customer_id := i, order_number := 0 }

/-- Scenario 3 of the specification (capacity 3, 10 expected orders): one
producer submits ten orders one after the other while consumers drain the
queue; the interleaving chosen here fills the queue three times. -/
def scenario3Calls : List Call :=
  [Call.add (orderOf 0), Call.add (orderOf 1), Call.add (orderOf 2),
   Call.get, Call.get, Call.get,
   Call.add (orderOf 3), Call.add (orderOf 4), Call.add (orderOf 5),
   Call.get, Call.get, Call.get,
   Call.add (orderOf 6), Call.add (orderOf 7), Call.add (orderOf 8),
   Call.get, Call.get, Call.get,
   Call.add (orderOf 9), Call.get]

/-- The record and the events scenario 3 ends with. -/
def scenario3End : BENSCHILLIBOWL × List Event :=
  (session 3 10 scenario3Calls).getD (demoState, [])

/-- The record after `demoCalls` on a queue of capacity 2 that was opened
expecting one order only: the expected order has been handled, B is pending. -/
def overState : BENSCHILLIBOWL :=
  { demoState with expected_num_orders := 1 }

/-- The record after `Call.add orderA` on a queue of capacity 1 expecting 2
orders: the queue is full. -/
def fullState : BENSCHILLIBOWL :=
  { orders := [storedA]
    current_size := 1
    max_size := 1
    next_order_number := 2
    orders_handled := 0
    expected_num_orders := 2 }

/-- The record after a third order (of customer 7) was submitted in `demoState`. -/
def demoAfterAdd : BENSCHILLIBOWL :=
  { demoState with
    orders := [storedB, { orderOf 7 with order_number := 3 }]
    current_size := 2
    next_order_number := 4 }

/-- Bookkeeping that ties the shared record to the history of completed
calls: the size counter is the length of the list, the accepted orders are the
taken ones followed by the pending ones, and the two counters count the
accepted and the taken orders. -/
structure Inv (bcb : BENSCHILLIBOWL) (hist : List Event) : Prop where
  size_eq : bcb.current_size = bcb.orders.length
  conserve : acceptedOrders hist = takenOrders hist ++ bcb.orders
  next_eq : bcb.next_order_number = (acceptedOrders hist).length + 1
  handled_eq : bcb.orders_handled = (takenOrders hist).length
  rets_eq : addReturns hist = countFrom 1 (acceptedOrders hist).length
  nums_eq : (acceptedOrders hist).map Order.order_number =
    countFrom 1 (acceptedOrders hist).length
  cap : 0 ≤ bcb.max_size → bcb.current_size ≤ bcb.max_size

/-! ### Mutex, condition variables and data accesses, statement by statement -/

/-- The two condition variables of the restaurant. -/
inductive Cond where
  | can_add_orders
  | can_get_orders
  deriving DecidableEq

/-- What one statement of `AddOrder` or `GetOrder` does with the mutex, the
condition variables and the data: `lock` is `pthread_mutex_lock`, `unlock` is
`pthread_mutex_unlock`, `wait cv` is `pthread_cond_wait(cv, mutex)` (the mutex
is given up while the thread sleeps and held again when the call returns),
`signal` and `broadcast` are the two wake-up calls, `queue` is a read or write
of a field of `*bcb` or of a node linked in `bcb->orders`, and `order` is a
read or write of a field of the order the caller handed to `AddOrder`. -/
inductive Action where
  | lock
  | unlock
  | wait (cv : Cond)
  | signal (cv : Cond)
  | broadcast (cv : Cond)
  | queue
  | order
  deriving DecidableEq

/-- The statements of `AddOrder` executed from a test of `IsFull(bcb)` in state
`bcb` up to the next `pthread_cond_wait` (flag `false`) or to the `return`
(flag `true`): the loop test; then either the wait, or `order->order_number =
bcb->next_order_number`, `bcb->next_order_number++`, `AddOrderToBack`
(`order->next = NULL`, the test of `*orders`, the link), `bcb->current_size++`,
the signal, the unlock and `return order->order_number`. -/
def AddOrderTurn (bcb : BENSCHILLIBOWL) : List Action × Bool :=
  if IsFull bcb then ([Action.queue, Action.wait Cond.can_add_orders], false)
  else
    ([Action.queue, Action.queue, Action.order, Action.queue, Action.order, Action.queue,
      Action.queue, Action.queue, Action.signal Cond.can_get_orders, Action.unlock,
      Action.order], true)

/-- The statements of `GetOrder` executed from a test of `IsEmpty(bcb)` in
state `bcb` up to the next `pthread_cond_wait` (flag `false`) or to the
`return` (flag `true`). -/
def GetOrderTurn (bcb : BENSCHILLIBOWL) : List Action × Bool :=
  if IsEmpty bcb then
    if bcb.orders_handled ≥ bcb.expected_num_orders then
      ([Action.queue, Action.queue, Action.broadcast Cond.can_get_orders, Action.unlock], true)
    else ([Action.queue, Action.queue, Action.wait Cond.can_get_orders], false)
  else
    match bcb.orders with
    | [] =>
      ([Action.queue, Action.queue, Action.broadcast Cond.can_get_orders, Action.unlock], true)
    | _ :: _ =>
      ([Action.queue, Action.queue, Action.queue, Action.queue, Action.queue, Action.queue,
        Action.signal Cond.can_add_orders, Action.unlock], true)

/-- The turns of a thread, one for every state it finds when it tests its loop
condition, in this order. -/
def callActionsFrom (turn : BENSCHILLIBOWL → List Action × Bool) :
    List BENSCHILLIBOWL → List Action
  | [] => []
  | bcb :: rest => (turn bcb).1 ++ callActionsFrom turn rest

/-- All statements of one call: `pthread_mutex_lock`, then one turn for every
state the thread finds when it tests its loop condition (on entry and after
each wake-up), in this order. -/
def callActions (turn : BENSCHILLIBOWL → List Action × Bool) (seen : List BENSCHILLIBOWL) :
    List Action :=
  Action.lock :: callActionsFrom turn seen

/-- The states `seen` describe a call that returns: in every state but the
last the thread goes to sleep, in the last one it runs to its `return`. -/
def Returns (turn : BENSCHILLIBOWL → List Action × Bool) (seen : List BENSCHILLIBOWL) : Prop :=
  ∃ waits last, seen = waits ++ [last] ∧ (∀ w ∈ waits, (turn w).2 = false) ∧
    (turn last).2 = true

/-- Scan of a statement sequence: `true` when every `queue` access and every
`wait` happens with the mutex held, every `lock` with the mutex not held and
every `unlock` with the mutex held; the flag says whether the thread holds the
mutex before the first statement. -/
def lockDiscipline : Bool → List Action → Bool
  | _, [] => true
  | held, Action.lock :: rest => !held && lockDiscipline true rest
  | held, Action.unlock :: rest => held && lockDiscipline false rest
  | held, Action.wait _ :: rest => held && lockDiscipline true rest
  | held, Action.queue :: rest => held && lockDiscipline held rest
  | held, _ :: rest => lockDiscipline held rest

/-- Whether the thread holds the mutex after a statement sequence. -/
def heldAfter : Bool → List Action → Bool
  | held, [] => held
  | _, Action.lock :: rest => heldAfter true rest
  | _, Action.unlock :: rest => heldAfter false rest
  | held, _ :: rest => heldAfter held rest

/-- The record after `Call.add orderA`, `Call.get` and a `NULL`-returning
`Call.get` on a queue of capacity 2 expecting one order. -/
def drainedState : BENSCHILLIBOWL :=
  { orders := []
    current_size := 0
    max_size := 2
    next_order_number := 2
    orders_handled := 1
    expected_num_orders := 1 }

/-- The record of a freshly opened queue of capacity 2 expecting one order: a
cook that finds it waits on `can_get_orders`. -/
def openedState : BENSCHILLIBOWL :=
  { orders := []
    current_size := 0
    max_size := 2
    next_order_number := 1
    orders_handled := 0
    expected_num_orders := 1 }

/-- The record `fullState` after a cook took order A: there is room again. -/
def roomState : BENSCHILLIBOWL :=
  { fullState with orders := [], current_size := 0, orders_handled := 1 }

/-- The loop of the thread function `BENSCHILLIBOWLCook` of `main.c`, for at
most `rounds` iterations: `GetOrder`, leave the loop at `NULL`, otherwise
`free(order)`.  The result is the record left and the orders passed to `free`,
oldest first.  Where `GetOrder` would have to wait, the cook has not got
further. -/
def BENSCHILLIBOWLCook : Nat → BENSCHILLIBOWL → BENSCHILLIBOWL × List Order
  | 0, bcb => (bcb, [])
  | rounds + 1, bcb =>
    match GetOrder bcb with
    | some (bcb1, some order) =>
      let r := BENSCHILLIBOWLCook rounds bcb1
      (r.1, order :: r.2)
    | _ => (bcb, [])

/-- A whole call of `AddOrder`, `return order->order_number` included, when a
cook thread runs `rounds` iterations of its loop between the
`pthread_mutex_unlock` of the call and its `return` statement.  The order the
call appended is the last node of the list at the unlock, so the cook has
passed it to `free` exactly when it freed as many orders as were pending then;
the `return` then reads freed memory and has no defined value (`none`).
Otherwise it reads the field `order_number` of the order.  Result: the record
left, the order as stored, the value returned. -/
def AddOrderCall (bcb : BENSCHILLIBOWL) (order : Order) (rounds : Nat) :
    Option (BENSCHILLIBOWL × Order × Option Int) :=
  match AddOrder bcb order with
  | none => none
  | some (bcb1, stored, _) =>
    let r := BENSCHILLIBOWLCook rounds bcb1
    some (r.1, stored,
      if r.2.length < bcb1.orders.length then some stored.order_number else none)

end BensChilliBowl

/-!
Lab 6: the scheduling simulator

Shallow embedding of `src/Lab 6: Scheduling Simulator/SchedSim/schedsim.c`.
The process array `plist[0..n-1]` is a `List ProcessType` and `n` is its
length; the work arrays (`rem_bt`, `completion_time`, `completed`) are lists of
the same length, read with `List.getD` and written with `List.set`.  The
`while` loops of the round-robin and the shortest-remaining-time functions run
on fuel: `none` means the fuel ran out before the loop ended.  `INT_MAX` is
the value of `<limits.h>` for a 32-bit `int`.  In `findWaitingTime` and
`findWaitingTimeSJF` `int` arithmetic is exact (`Int`), signed overflow being
undefined behaviour in C.  In `findWaitingTimeRR` every result of an addition
or subtraction is brought back into the range of a 32-bit `int` (`wrapInt`);
the functions with `Exact` in their name are the same loop with exact
arithmetic, to which the proofs compare it.
-/

namespace SchedSim

/-- Modelled from the spec: the header `process.h` declaring `ProcessType` is
not among the sources.  The fields are the six `int` fields that
`copyProcessList` copies or resets. -/
structure ProcessType where
  pid : Int
  bt : Int
  art : Int
  wt : Int
  tat : Int
  pri : Int
  deriving DecidableEq, Inhabited

/-- The constant of `<limits.h>`. -/
def INT_MAX : Int := 2147483647

/-- One stretch of CPU time given to the process at position `index`, from
time `start` to time `finish`.  The code keeps no such record; the model adds
it to the state so that what was executed when can be stated. -/
structure Slice where
  index : Nat
  start : Int
  finish : Int
  deriving DecidableEq

/-- The variables of `findWaitingTimeRR`, and the record of executed slices. -/
structure RRState where
  plist : List ProcessType
  rem_bt : List Int
  t : Int
  done : Bool
  log : List Slice
  deriving DecidableEq

/-- The constant `INT_MIN` of `<limits.h>`. -/
def INT_MIN : Int := -2147483648

/-- An exact result brought back into the range of a 32-bit `int` (two's
complement): a result outside the range, undefined behaviour in C, wraps
around. -/
def wrapInt (x : Int) : Int :=
  (x + 2147483648) % 4294967296 - 2147483648

/-- Body of the `for` loop of `findWaitingTimeRR` at index `i`; the second
branch sets `t` first and computes `wt` from the new `t`. -/
def rrStep (quantum : Int) (s : RRState) (i : Nat) : RRState :=
  if s.rem_bt.getD i 0 > 0 ∧ (s.plist.getD i default).art ≤ s.t then
    if s.rem_bt.getD i 0 > quantum then
      { s with
        done := false
        t := wrapInt (s.t + quantum)
        rem_bt := s.rem_bt.set i (wrapInt (s.rem_bt.getD i 0 - quantum))
        log := s.log ++ [{ index := i, start := s.t, finish := wrapInt (s.t + quantum) }] }
    else
      { s with
        done := false
        t := wrapInt (s.t + s.rem_bt.getD i 0)
        plist := s.plist.set i
          { s.plist.getD i default with
            wt := wrapInt (wrapInt (wrapInt (s.t + s.rem_bt.getD i 0)
              - (s.plist.getD i default).art) - (s.plist.getD i default).bt) }
        rem_bt := s.rem_bt.set i 0
        log := s.log ++
          [{ index := i, start := s.t, finish := wrapInt (s.t + s.rem_bt.getD i 0) }] }
  else s

/-- One pass `for (i = 0; i < n; i++)` of `findWaitingTimeRR`. -/
def rrPass (quantum : Int) (s : RRState) (n : Nat) : RRState :=
  (List.range n).foldl (rrStep quantum) s

/-- Body of the `min_arrival` loop of `findWaitingTimeRR` at index `i`. -/
def rrMinStep (s : RRState) (min_arrival : Int) (i : Nat) : Int :=
  if s.rem_bt.getD i 0 > 0 ∧ (s.plist.getD i default).art < min_arrival then
    (s.plist.getD i default).art
  else min_arrival

/-- The `min_arrival` loop of `findWaitingTimeRR`. -/
def rrMinArrival (s : RRState) (n : Nat) : Int :=
  (List.range n).foldl (rrMinStep s) INT_MAX

/-- The `while (!done)` loop of `findWaitingTimeRR`, entered with `done`
false; one unit of fuel per iteration. -/
def rrLoop (quantum : Int) (n : Nat) : Nat → RRState → Option RRState
  | 0, _ => none
  | fuel + 1, s =>
    let s1 := rrPass quantum { s with done := true } n
    if s1.done then
      let min_arrival := rrMinArrival s1 n
      if min_arrival ≠ INT_MAX ∧ min_arrival > s1.t then
        rrLoop quantum n fuel { s1 with t := min_arrival, done := false }
      else some s1
    else rrLoop quantum n fuel s1

/-- The variables of `findWaitingTimeRR` when the `while` loop is entered. -/
def rrInit (plist : List ProcessType) : RRState :=
  { plist := plist.map (fun p => { p with wt := 0 })
    rem_bt := plist.map (fun p => p.bt)
    t := 0
    done := false
    log := [] }

/-- Function `findWaitingTimeRR`: the state in which the `while` loop ends. -/
def findWaitingTimeRR (plist : List ProcessType) (quantum : Int) (fuel : Nat) :
    Option RRState :=
  rrLoop quantum plist.length fuel (rrInit plist)

/-- Body of the `for` loop of `findWaitingTimeRR` at index `i`, computed with
exact integers: what `rrStep` computes when no result leaves the `int` range. -/
def rrStepExact (quantum : Int) (s : RRState) (i : Nat) : RRState :=
  if s.rem_bt.getD i 0 > 0 ∧ (s.plist.getD i default).art ≤ s.t then
    if s.rem_bt.getD i 0 > quantum then
      { s with
        done := false
        t := s.t + quantum
        rem_bt := s.rem_bt.set i (s.rem_bt.getD i 0 - quantum)
        log := s.log ++ [{ index := i, start := s.t, finish := s.t + quantum }] }
    else
      { s with
        done := false
        t := s.t + s.rem_bt.getD i 0
        plist := s.plist.set i
          { s.plist.getD i default with
            wt := s.t + s.rem_bt.getD i 0 - (s.plist.getD i default).art
              - (s.plist.getD i default).bt }
        rem_bt := s.rem_bt.set i 0
        log := s.log ++
          [{ index := i, start := s.t, finish := s.t + s.rem_bt.getD i 0 }] }
  else s

/-- One pass `for (i = 0; i < n; i++)` of `findWaitingTimeRR`, with exact integers. -/
def rrPassExact (quantum : Int) (s : RRState) (n : Nat) : RRState :=
  (List.range n).foldl (rrStepExact quantum) s

/-- The `while (!done)` loop of `findWaitingTimeRR` with exact integers. -/
def rrLoopExact (quantum : Int) (n : Nat) : Nat → RRState → Option RRState
  | 0, _ => none
  | fuel + 1, s =>
    let s1 := rrPassExact quantum { s with done := true } n
    if s1.done then
      let min_arrival := rrMinArrival s1 n
      if min_arrival ≠ INT_MAX ∧ min_arrival > s1.t then
        rrLoopExact quantum n fuel { s1 with t := min_arrival, done := false }
      else some s1
    else rrLoopExact quantum n fuel s1

/-- Function `findWaitingTimeRR` with exact integers. -/
def findWaitingTimeRRExact (plist : List ProcessType) (quantum : Int) (fuel : Nat) :
    Option RRState :=
  rrLoopExact quantum plist.length fuel (rrInit plist)

/-- CPU time the log gives to position `k`. -/
def executed (k : Nat) : List Slice → Int
  | [] => 0
  | sl :: rest => (if sl.index = k then sl.finish - sl.start else 0) + executed k rest

/-- End of the last slice the log gives to position `k` (`none` if there is
no such slice): the completion time of a process that has run to its end. -/
def lastFinish (k : Nat) : List Slice → Option Int
  | [] => none
  | sl :: rest =>
    match lastFinish k rest with
    | some f => some f
    | none => if sl.index = k then some sl.finish else none

/-- Bookkeeping of `findWaitingTimeRR` with respect to the process list `P`
it was called on: only `wt` fields are rewritten; every remaining burst time
lies between 0 and the burst time and is the burst time minus the CPU time
logged so far; a process that has run for `x` units has done so after its
arrival, so the clock is at least arrival plus `x`; a process with nothing
left carries `wt = completion - arrival - burst`, its completion being the end
of its last slice; every slice starts at or after the arrival of its process,
is non-empty and ends at or before the clock; and the slices follow one
another in time. -/
structure RRInv (P : List ProcessType) (s : RRState) : Prop where
  len_p : s.plist.length = P.length
  len_r : s.rem_bt.length = P.length
  frame : ∀ k, k < P.length →
    s.plist.getD k default = { P.getD k default with wt := (s.plist.getD k default).wt }
  rem_lo : ∀ k, k < P.length → 0 ≤ s.rem_bt.getD k 0
  rem_hi : ∀ k, k < P.length → s.rem_bt.getD k 0 ≤ (P.getD k default).bt
  exec : ∀ k, k < P.length →
    executed k s.log = (P.getD k default).bt - s.rem_bt.getD k 0
  started : ∀ k, k < P.length → s.rem_bt.getD k 0 < (P.getD k default).bt →
    (P.getD k default).art + ((P.getD k default).bt - s.rem_bt.getD k 0) ≤ s.t
  finished : ∀ k, k < P.length → s.rem_bt.getD k 0 = 0 →
    ∃ C, lastFinish k s.log = some C ∧
      (s.plist.getD k default).wt = C - (P.getD k default).art - (P.getD k default).bt ∧
      (P.getD k default).art + (P.getD k default).bt ≤ C
  slices : ∀ sl ∈ s.log, sl.index < P.length ∧ (P.getD sl.index default).art ≤ sl.start ∧
    sl.start < sl.finish ∧ sl.finish ≤ s.t
  chrono : s.log.Pairwise (fun a b => a.finish ≤ b.start)

/-- End of the last slice of the log, 0 for the empty log: the time up to
which the CPU has been busy or accounted for. -/
def logEnd (log : List Slice) : Int :=
  (log.getLast?.map (fun sl => sl.finish)).getD 0

/-- Bookkeeping of the idle gaps of `findWaitingTimeRR`: either the clock is
at the end of the last slice, or it has been moved forward and no pending
process arrives before it; the first slice starts at time 0 or at the arrival
of its process; and every later slice starts where the previous one ended or
at the arrival of its process. -/
structure RRGap (P : List ProcessType) (s : RRState) : Prop where
  clock : s.t = logEnd s.log ∨
    ∀ k, k < P.length → s.rem_bt.getD k 0 > 0 → s.t ≤ (P.getD k default).art
  first : ∀ sl rest, s.log = sl :: rest →
    sl.start = 0 ∨ sl.start = (P.getD sl.index default).art
  chain : s.log.Chain'
    (fun a b => b.start = a.finish ∨ b.start = (P.getD b.index default).art)

/-- The run fits into `int`: the clock is not negative, the clock plus the
burst time still to be executed is at most `INT_MAX`, and so is every arrival
time plus the burst time still to be executed. -/
structure RRFits (P : List ProcessType) (s : RRState) : Prop where
  t_lo : 0 ≤ s.t
  t_hi : s.t + s.rem_bt.sum ≤ INT_MAX
  arr_hi : ∀ k, k < P.length → (P.getD k default).art + s.rem_bt.sum ≤ INT_MAX

/-- The variables of `findWaitingTimeSJF`. -/
structure SJFState where
  plist : List ProcessType
  rem_bt : List Int
  completion_time : List Int
  completed : List Bool
  current_time : Int
  completed_count : Int
  deriving DecidableEq

/-- Body of the selection loop of `findWaitingTimeSJF` at index `i`; the pair
is (`min_rem_bt`, `min_idx`). -/
def sjfSelectStep (s : SJFState) (acc : Int × Int) (i : Nat) : Int × Int :=
  if s.completed.getD i false = false ∧ (s.plist.getD i default).art ≤ s.current_time ∧
      s.rem_bt.getD i 0 < acc.1 then
    (s.rem_bt.getD i 0, (i : Int))
  else acc

/-- The selection loop of `findWaitingTimeSJF`. -/
def sjfSelect (s : SJFState) (n : Nat) : Int × Int :=
  (List.range n).foldl (sjfSelectStep s) (INT_MAX, -1)

/-- Body of the `next_arrival` loop of `findWaitingTimeSJF` at index `i`. -/
def sjfNextStep (s : SJFState) (next_arrival : Int) (i : Nat) : Int :=
  if s.completed.getD i false = false ∧ (s.plist.getD i default).art > s.current_time ∧
      (s.plist.getD i default).art < next_arrival then
    (s.plist.getD i default).art
  else next_arrival

/-- The `next_arrival` loop of `findWaitingTimeSJF`. -/
def sjfNextArrival (s : SJFState) (n : Nat) : Int :=
  (List.range n).foldl (sjfNextStep s) INT_MAX

/-- The part of the `while` body of `findWaitingTimeSJF` that runs the selected
process `idx` for one time unit. -/
def sjfRun (s : SJFState) (idx : Nat) : SJFState :=
  let s1 : SJFState := { s with rem_bt := s.rem_bt.set idx (s.rem_bt.getD idx 0 - 1) }
  let s2 : SJFState :=
    if s1.rem_bt.getD idx 0 = 0 then
      { s1 with
        completed := s1.completed.set idx true
        completed_count := s1.completed_count + 1
        completion_time := s1.completion_time.set idx (s1.current_time + 1)
        plist := s1.plist.set idx
          { s1.plist.getD idx default with
            wt := s1.current_time + 1 - (s1.plist.getD idx default).art
              - (s1.plist.getD idx default).bt } }
    else s1
  { s2 with current_time := s2.current_time + 1 }

/-- The `while (completed_count < n)` loop of `findWaitingTimeSJF`; one unit of
fuel per iteration. -/
def sjfLoop (n : Nat) : Nat → SJFState → Option SJFState
  | 0, _ => none
  | fuel + 1, s =>
    if s.completed_count < n then
      if (sjfSelect s n).2 = -1 then
        if sjfNextArrival s n ≠ INT_MAX then
          sjfLoop n fuel { s with current_time := sjfNextArrival s n }
        else sjfLoop n fuel { s with current_time := s.current_time + 1 }
      else sjfLoop n fuel (sjfRun s (sjfSelect s n).2.toNat)
    else some s

/-- The variables of `findWaitingTimeSJF` when the `while` loop is entered. -/
def sjfInit (plist : List ProcessType) : SJFState :=
  { plist := plist.map (fun p => { p with wt := 0 })
    rem_bt := plist.map (fun p => p.bt)
    completion_time := plist.map (fun _ => 0)
    completed := plist.map (fun _ => false)
    current_time := 0
    completed_count := 0 }

/-- Function `findWaitingTimeSJF`: the state in which the `while` loop ends. -/
def findWaitingTimeSJF (plist : List ProcessType) (fuel : Nat) : Option SJFState :=
  sjfLoop plist.length fuel (sjfInit plist)

/-- A process with the given burst and arrival times. -/
def proc (pid bt art : Int) : ProcessType :=
  { pid := pid, bt := bt, art := art, wt := 0, tat := 0, pri := 0 }

/-- Three processes: bursts 5, 3, 8 arriving at 0, 1, 20. -/
def sampleProcs : List ProcessType := [proc 1 5 0, proc 2 3 1, proc 3 8 20]

/-- The variables of `findWaitingTimeSJF` on the single process
`proc 1 INT_MAX 0` at time `t`, nothing executed yet. -/
def stuckState (t : Int) : SJFState :=
  { sjfInit [proc 1 INT_MAX 0] with current_time := t }

end SchedSim

/-!
Lab 8: the memory allocator simulator

Shallow embedding of `src/lab8/list.c` and of `allocate_memory` in
`src/lab8/mmu.c`.  A `list_t` (a chain of nodes, each pointing to a
`block_t`) is a `List Block`, head first.  The lists and blocks handed to the
functions exist (the `NULL` tests on `l` and `blk` never fire) and `malloc`
succeeds.
-/

namespace Mmu

/-- The record `block_t` of `list.h`; the field `end` is written `end_`. -/
structure Block where
  pid : Int
  start : Int
  end_ : Int
  deriving DecidableEq

/-- The expression `blk->end - blk->start + 1` used throughout `list.c`. -/
def Block.size (b : Block) : Int :=
  b.end_ - b.start + 1

/-- Function `list_add_to_front`. -/
def list_add_to_front (l : List Block) (blk : Block) : List Block :=
  blk :: l

/-- Function `list_add_to_back`: an empty list gets the block as its head;
otherwise the list is walked to its last node. -/
def list_add_to_back : List Block → Block → List Block
  | [], blk => [blk]
  | current :: rest, blk => current :: list_add_to_back rest blk

/-- Function `list_remove_from_front`: the returned block (`none` is `NULL`) and
the list left. -/
def list_remove_from_front : List Block → Option Block × List Block
  | [] => (none, [])
  | old_head :: rest => (some old_head, rest)

/-- The walk of `list_remove_at_index` from node `current` with `steps` moves
still allowed (`i < index - 1`): it stops at the end of the list (`NULL`
returned, list as it was) or removes the node after the one it reached.  The
result list starts with `current`. -/
def removeAfter : Nat → Block → List Block → Option Block × List Block
  | _, current, [] => (none, [current])
  | 0, current, target :: after => (some target, current :: after)
  | steps + 1, current, next :: after =>
    let r := removeAfter steps next after
    (r.1, current :: r.2)

/-- Function `list_remove_at_index`. -/
def list_remove_at_index (l : List Block) (index : Int) : Option Block × List Block :=
  match l with
  | [] => (none, [])
  | head :: rest =>
    if index < 0 then (none, head :: rest)
    else if index = 0 then list_remove_from_front (head :: rest)
    else removeAfter (index - 1).toNat head rest

/-- Function `list_is_in_by_size`: 1 is `true`, 0 is `false`. -/
def list_is_in_by_size : List Block → Int → Bool
  | [], _ => false
  | blk :: rest, size => if blk.size ≥ size then true else list_is_in_by_size rest size

/-- The loop of `list_get_index_of_by_Size` from a node on, `index` being the
position of that node. -/
def indexOfBySizeFrom : List Block → Int → Int → Int
  | [], _, _ => -1
  | blk :: rest, size, index =>
    if blk.size ≥ size then index else indexOfBySizeFrom rest size (index + 1)

/-- Function `list_get_index_of_by_Size`. -/
def list_get_index_of_by_Size (l : List Block) (size : Int) : Int :=
  indexOfBySizeFrom l size 0

/-- The walk of `list_add_ascending_by_address` behind node `current`: `rest` is
what follows `current`; the result is what follows `current` afterwards. -/
def insertByAddressAfter : List Block → Block → List Block
  | [], blk => [blk]
  | next :: rest, blk =>
    if next.start < blk.start then next :: insertByAddressAfter rest blk
    else blk :: next :: rest

/-- Function `list_add_ascending_by_address`. -/
def list_add_ascending_by_address : List Block → Block → List Block
  | [], blk => [blk]
  | head :: rest, blk =>
    if blk.start < head.start then blk :: head :: rest
    else head :: insertByAddressAfter rest blk

/-- The walk of `list_add_ascending_by_blocksize` behind node `current`. -/
def insertBySizeAscAfter : List Block → Block → List Block
  | [], blk => [blk]
  | next :: rest, blk =>
    if blk.size < next.size then blk :: next :: rest
    else next :: insertBySizeAscAfter rest blk

/-- Function `list_add_ascending_by_blocksize`. -/
def list_add_ascending_by_blocksize : List Block → Block → List Block
  | [], blk => [blk]
  | head :: rest, blk =>
    if blk.size < head.size then blk :: head :: rest
    else head :: insertBySizeAscAfter rest blk

/-- The walk of `list_add_descending_by_blocksize` behind node `current`. -/
def insertBySizeDescAfter : List Block → Block → List Block
  | [], blk => [blk]
  | next :: rest, blk =>
    if blk.size > next.size then blk :: next :: rest
    else next :: insertBySizeDescAfter rest blk

/-- Function `list_add_descending_by_blocksize`. -/
def list_add_descending_by_blocksize : List Block → Block → List Block
  | [], blk => [blk]
  | head :: rest, blk =>
    if blk.size > head.size then blk :: head :: rest
    else head :: insertBySizeDescAfter rest blk

/-- What a call of `allocate_memory` leaves behind: the two lists, and the
block count printed in `Error: Memory Allocation %d blocks`, if any. -/
structure AllocResult where
  freelist : List Block
  alloclist : List Block
  error : Option Int
  deriving DecidableEq

/-- Function `allocate_memory`.  Result `none`: `list_remove_at_index` returned
`NULL` and the code dereferences it. -/
def allocate_memory (freelist alloclist : List Block) (pid blocksize policy : Int) :
    Option AllocResult :=
  if list_is_in_by_size freelist blocksize = false then
    some { freelist := freelist, alloclist := alloclist, error := some blocksize }
  else
    let block_index := list_get_index_of_by_Size freelist blocksize
    match list_remove_at_index freelist block_index with
    | (none, _) => none
    | (some blk, freelist1) =>
      let original_end := blk.end_
      let blk1 : Block := { blk with pid := pid }
      let blk2 : Block := { blk1 with end_ := blk1.start + blocksize - 1 }
      let alloclist1 := list_add_ascending_by_address alloclist blk2
      if blk2.end_ < original_end then
        let fragment : Block := { pid := 0, start := blk2.end_ + 1, end_ := original_end }
        if policy = 1 then
          some { freelist := list_add_to_back freelist1 fragment
                 alloclist := alloclist1, error := none }
        else if policy = 2 then
          some { freelist := list_add_ascending_by_blocksize freelist1 fragment
                 alloclist := alloclist1, error := none }
        else if policy = 3 then
          some { freelist := list_add_descending_by_blocksize freelist1 fragment
                 alloclist := alloclist1, error := none }
        else some { freelist := freelist1, alloclist := alloclist1, error := none }
      else some { freelist := freelist1, alloclist := alloclist1, error := none }

/-- A free list of three blocks of sizes 10, 50 and 40. -/
def sampleFree : List Block :=
  [{ pid := 0, start := 0, end_ := 9 }, { pid := 0, start := 100, end_ := 149 },
   { pid := 0, start := 200, end_ := 239 }]

/-- An allocated list of two blocks. -/
def sampleAlloc : List Block :=
  [{ pid := 4, start := 10, end_ := 99 }, { pid := 5, start := 150, end_ := 199 }]

/-- Function `list_is_in_by_pid`: 1 is `true`, 0 is `false`. -/
def list_is_in_by_pid : List Block → Int → Bool
  | [], _ => false
  | blk :: rest, pid => if blk.pid = pid then true else list_is_in_by_pid rest pid

/-- The loop of `list_get_index_of_by_Pid` from a node on, `index` being the
position of that node. -/
def indexOfByPidFrom : List Block → Int → Int → Int
  | [], _, _ => -1
  | blk :: rest, pid, index =>
    if blk.pid = pid then index else indexOfByPidFrom rest pid (index + 1)

/-- Function `list_get_index_of_by_Pid`. -/
def list_get_index_of_by_Pid (l : List Block) (pid : Int) : Int :=
  indexOfByPidFrom l pid 0

/-- What a call of `deallocate_memory` leaves behind: the two lists, and the pid
printed in `Error: Can't locate Memory Used by PID: %d`, if any. -/
structure DeallocResult where
  alloclist : List Block
  freelist : List Block
  error : Option Int
  deriving DecidableEq

/-- Function `deallocate_memory`.  Result `none`: `list_remove_at_index` returned
`NULL` and the code dereferences it. -/
def deallocate_memory (alloclist freelist : List Block) (pid policy : Int) :
    Option DeallocResult :=
  if list_is_in_by_pid alloclist pid = false then
    some { alloclist := alloclist, freelist := freelist, error := some pid }
  else
    let block_index := list_get_index_of_by_Pid alloclist pid
    match list_remove_at_index alloclist block_index with
    | (none, _) => none
    | (some blk, alloclist1) =>
      let blk1 : Block := { blk with pid := 0 }
      if policy = 1 then
        some { alloclist := alloclist1, freelist := list_add_to_back freelist blk1
               error := none }
      else if policy = 2 then
        some { alloclist := alloclist1
               freelist := list_add_ascending_by_blocksize freelist blk1, error := none }
      else if policy = 3 then
        some { alloclist := alloclist1
               freelist := list_add_descending_by_blocksize freelist blk1, error := none }
      else some { alloclist := alloclist1, freelist := freelist, error := none }

/-- The loop of `list_coalese_nodes` standing at node `current`, the second
argument being the nodes behind it: an adjacent next block is merged into
`current` (which stays the current node), otherwise the loop moves on. -/
def coalesceFrom (current : Block) : List Block → List Block
  | [] => [current]
  | next :: rest =>
    if current.end_ + 1 = next.start then
      coalesceFrom { current with end_ := next.end_ } rest
    else current :: coalesceFrom next rest

/-- Function `list_coalese_nodes`. -/
def list_coalese_nodes : List Block → List Block
  | [] => []
  | head :: rest => coalesceFrom head rest

/-- The first loop of `coalese_memory`: every block is taken from the front of
`list` and inserted into `temp_list` by address. -/
def drainByAddress : List Block → List Block → List Block
  | [], temp_list => temp_list
  | blk :: rest, temp_list => drainByAddress rest (list_add_ascending_by_address temp_list blk)

/-- Function `coalese_memory`: the returned list (the argument list is left
empty). -/
def coalese_memory (list : List Block) : List Block :=
  list_coalese_nodes (drainByAddress list [])

/-- The two lists of `main`. -/
structure MmuState where
  FREE_LIST : List Block
  ALLOC_LIST : List Block
  deriving DecidableEq

/-- The C function `abs`. -/
def c_abs (x : Int) : Int :=
  if x < 0 then -x else x

/-- Body of the loop of `main` for one input line `(inputdata[i][0],
inputdata[i][1])` under the policy `Memory_Mgt_Policy`. -/
def mainStep (policy : Int) (st : MmuState) (line : Int × Int) : Option MmuState :=
  if line.1 ≠ -99999 ∧ line.1 > 0 then
    match allocate_memory st.FREE_LIST st.ALLOC_LIST line.1 line.2 policy with
    | none => none
    | some r => some { FREE_LIST := r.freelist, ALLOC_LIST := r.alloclist }
  else if line.1 ≠ -99999 ∧ line.1 < 0 then
    match deallocate_memory st.ALLOC_LIST st.FREE_LIST (c_abs line.1) policy with
    | none => none
    | some r => some { FREE_LIST := r.freelist, ALLOC_LIST := r.alloclist }
  else some { st with FREE_LIST := coalese_memory st.FREE_LIST }

/-- The loop of `main` over the input lines. -/
def mainLoop (policy : Int) : MmuState → List (Int × Int) → Option MmuState
  | st, [] => some st
  | st, line :: rest =>
    match mainStep policy st line with
    | none => none
    | some st1 => mainLoop policy st1 rest

/-- The state `main` starts its loop in: the free list holds the single
partition `[0, PARTITION_SIZE - 1]` (its `pid` field is never written by
`main`; `pid0` stands for its value), the allocated list is empty. -/
def mainInit (PARTITION_SIZE pid0 : Int) : MmuState :=
  { FREE_LIST := list_add_to_front [] { pid := pid0, start := 0, end_ := PARTITION_SIZE + 0 - 1 }
    ALLOC_LIST := [] }

/-- A call on the two lists: `allocate_memory`, `deallocate_memory` or
`coalese_memory` (applied to the free list), with any arguments. -/
inductive MemCall where
  | allocate (pid blocksize policy : Int)
  | deallocate (pid policy : Int)
  | coalesce
  deriving DecidableEq

/-- One call on the two lists; `none` if the call dereferences `NULL`. -/
def applyCall (st : MmuState) : MemCall → Option MmuState
  | MemCall.allocate pid blocksize policy =>
    match allocate_memory st.FREE_LIST st.ALLOC_LIST pid blocksize policy with
    | none => none
    | some r => some { FREE_LIST := r.freelist, ALLOC_LIST := r.alloclist }
  | MemCall.deallocate pid policy =>
    match deallocate_memory st.ALLOC_LIST st.FREE_LIST pid policy with
    | none => none
    | some r => some { FREE_LIST := r.freelist, ALLOC_LIST := r.alloclist }
  | MemCall.coalesce => some { st with FREE_LIST := coalese_memory st.FREE_LIST }

/-- A sequence of calls, one after the other. -/
def applyCalls : MmuState → List MemCall → Option MmuState
  | st, [] => some st
  | st, c :: rest =>
    match applyCall st c with
    | none => none
    | some st1 => applyCalls st1 rest

/-- The blocks `[0-49]`, `[50-99]`, `[100-149]` in each of their six orders. -/
def threeBlockOrders : List (List Block) :=
  [[{ pid := 0, start := 0, end_ := 49 }, { pid := 0, start := 50, end_ := 99 },
    { pid := 0, start := 100, end_ := 149 }],
   [{ pid := 0, start := 0, end_ := 49 }, { pid := 0, start := 100, end_ := 149 },
    { pid := 0, start := 50, end_ := 99 }],
   [{ pid := 0, start := 50, end_ := 99 }, { pid := 0, start := 0, end_ := 49 },
    { pid := 0, start := 100, end_ := 149 }],
   [{ pid := 0, start := 50, end_ := 99 }, { pid := 0, start := 100, end_ := 149 },
    { pid := 0, start := 0, end_ := 49 }],
   [{ pid := 0, start := 100, end_ := 149 }, { pid := 0, start := 0, end_ := 49 },
    { pid := 0, start := 50, end_ := 99 }],
   [{ pid := 0, start := 100, end_ := 149 }, { pid := 0, start := 50, end_ := 99 },
    { pid := 0, start := 0, end_ := 49 }]]

/-- A free list of three blocks, two of them adjacent: `[100-149] [0-58] [59-98]`. -/
def sampleHoles : List Block :=
  [{ pid := 0, start := 100, end_ := 149 }, { pid := 0, start := 0, end_ := 58 },
   { pid := 0, start := 59, end_ := 98 }]

/-- Input lines for a partition of 200: pid 1 takes 100 blocks, pid 2 asks for
-10 blocks (its block is `[100, 89]`), pid 3 takes the remaining 110, and pids
1 and 2 are freed. -/
def invertedLines : List (Int × Int) :=
  [(1, 100), (2, -10), (3, 110), (-1, 0), (-2, 0)]

/-- The free list after `invertedLines`: `[0-99]` and the block `[100, 89]`,
which covers no address. -/
def invertedHoles : List Block :=
  [{ pid := 0, start := 0, end_ := 99 }, { pid := 0, start := 100, end_ := 89 }]

/-- The addresses of a block: `x` lies in `[start, end]`. -/
def Block.covers (b : Block) (x : Int) : Prop :=
  b.start ≤ x ∧ x ≤ b.end_

/-- Input lines that fill a partition of 100 with three processes (50, 10, 40),
free the first and the third, and coalesce. -/
def bestfitLines : List (Int × Int) :=
  [(1, 50), (2, 10), (3, 40), (-1, 0), (-3, 0), (-99999, 0)]

/-- Input lines that fill a partition of 100 with three processes (40, 10, 50),
free the first and the third, and coalesce. -/
def worstfitLines : List (Int × Int) :=
  [(1, 40), (2, 10), (3, 50), (-1, 0), (-3, 0), (-99999, 0)]

end Mmu

/-!
Lab 4: the integer list

Shallow embedding of `list_add_at_index` in
`src/Lab 4: Simple Client Server using TCP Sockets/list.c`.  Its `list.h` is
not among the sources; `elem` is printed with `%d`, so a list is a
`List Int`, head first.  The list handed to the function exists and `malloc`
succeeds.
-/

namespace Lab4List

/-- Function `list_add_to_front`. -/
def list_add_to_front (l : List Int) (value : Int) : List Int :=
  value :: l

/-- The `while (cur != NULL && pos < index - 1)` loop of `list_add_at_index`
and what follows it, from node `cur` on: the first argument is
`index - 1 - pos`, the list is the one starting at `cur` (empty for `NULL`).
With `cur == NULL` nothing is inserted. -/
def walkInsert : Nat → List Int → Int → List Int
  | _, [], _ => []
  | 0, cur :: next, value => cur :: value :: next
  | steps + 1, cur :: next, value => cur :: walkInsert steps next value

/-- Function `list_add_at_index` (1-based index). -/
def list_add_at_index (l : List Int) (value : Int) (index : Int) : List Int :=
  if index < 1 then l
  else if index = 1 then list_add_to_front l value
  else
    match l with
    | [] => if index = 1 then list_add_to_front [] value else []
    | head :: rest => walkInsert (index - 1 - 1).toNat (head :: rest) value

end Lab4List

namespace BensChilliBowl

/-! ### Basic facts about the definitions -/

theorem AddOrderToBack_eq_append (orders : List Order) (order : Order) :
    AddOrderToBack orders order = orders ++ [order] := by
  induction orders with
  | nil => rfl
  | cons c rest ih => simp [AddOrderToBack, ih]

theorem AddOrder_eq_some (bcb bcb1 : BENSCHILLIBOWL) (order stored : Order) (ret : Int) :
    AddOrder bcb order = some (bcb1, stored, ret) ↔
      bcb.current_size < bcb.max_size ∧
      stored = { order with order_number := bcb.next_order_number } ∧
      ret = bcb.next_order_number ∧
      bcb1 = { bcb with
        orders := bcb.orders ++ [{ order with order_number := bcb.next_order_number }]
        current_size := bcb.current_size + 1
        next_order_number := bcb.next_order_number + 1 } := by
  unfold AddOrder IsFull
  by_cases h : bcb.current_size ≥ bcb.max_size
  · simp [h]
  · simp only [h, decide_False, Bool.false_eq_true, if_false, AddOrderToBack_eq_append,
      Option.some.injEq, Prod.mk.injEq]
    constructor
    · rintro ⟨rfl, rfl, rfl⟩
      exact ⟨by omega, rfl, rfl, rfl⟩
    · rintro ⟨-, rfl, rfl, rfl⟩
      exact ⟨rfl, rfl, rfl⟩

theorem AddOrder_eq_none (bcb : BENSCHILLIBOWL) (order : Order) :
    AddOrder bcb order = none ↔ bcb.max_size ≤ bcb.current_size := by
  unfold AddOrder IsFull
  by_cases h : bcb.current_size ≥ bcb.max_size
  · simp [h]
  · simp [h]

theorem GetOrder_eq_none (bcb : BENSCHILLIBOWL) :
    GetOrder bcb = none ↔
      bcb.current_size = 0 ∧ bcb.orders_handled < bcb.expected_num_orders := by
  unfold GetOrder IsEmpty
  by_cases h : bcb.current_size = 0
  · by_cases h2 : bcb.orders_handled ≥ bcb.expected_num_orders
    · simp [h, h2]
    · simp [h, h2]
      omega
  · cases hq : bcb.orders <;> simp [h]

theorem GetOrder_eq_null (bcb bcb1 : BENSCHILLIBOWL) :
    GetOrder bcb = some (bcb1, none) ↔
      bcb1 = bcb ∧
      ((bcb.current_size = 0 ∧ bcb.expected_num_orders ≤ bcb.orders_handled) ∨
        (bcb.current_size ≠ 0 ∧ bcb.orders = [])) := by
  unfold GetOrder IsEmpty
  by_cases h : bcb.current_size = 0
  · by_cases h2 : bcb.orders_handled ≥ bcb.expected_num_orders
    · simp only [h, beq_self_eq_true, if_true, h2, Option.some.injEq, Prod.mk.injEq, and_true]
      constructor
      · rintro rfl
        simp [h2]
      · rintro ⟨rfl, -⟩
        rfl
    · simp [h, h2]
  · cases hq : bcb.orders with
    | nil =>
      simp only [beq_iff_eq, h, if_false, Option.some.injEq, Prod.mk.injEq, and_true]
      constructor
      · rintro rfl
        simp [h]
      · rintro ⟨rfl, -⟩
        rfl
    | cons o next => simp [h]

theorem GetOrder_eq_order (bcb bcb1 : BENSCHILLIBOWL) (order : Order) :
    GetOrder bcb = some (bcb1, some order) ↔
      bcb.current_size ≠ 0 ∧ bcb.orders.head? = some order ∧
      bcb1 = { bcb with
        orders := bcb.orders.tail
        current_size := bcb.current_size - 1
        orders_handled := bcb.orders_handled + 1 } := by
  unfold GetOrder IsEmpty
  by_cases h : bcb.current_size = 0
  · by_cases h2 : bcb.orders_handled ≥ bcb.expected_num_orders
    · simp [h, h2]
    · simp [h, h2]
  · cases hq : bcb.orders with
    | nil => simp [h]
    | cons o next =>
      simp only [beq_iff_eq, h, if_false, Option.some.injEq, Prod.mk.injEq, List.head?_cons,
        List.tail_cons, ne_eq, not_false_eq_true, true_and, Bool.false_eq_true]
      constructor
      · rintro ⟨rfl, rfl⟩
        exact ⟨rfl, rfl⟩
      · rintro ⟨rfl, rfl⟩
        exact ⟨rfl, rfl⟩

theorem call_add_eq_some (bcb bcb1 : BENSCHILLIBOWL) (order : Order) (e : Event) :
    call bcb (Call.add order) = some (bcb1, e) ↔
      bcb.current_size < bcb.max_size ∧
      e = Event.accepted { order with order_number := bcb.next_order_number }
            bcb.next_order_number ∧
      bcb1 = { bcb with
        orders := bcb.orders ++ [{ order with order_number := bcb.next_order_number }]
        current_size := bcb.current_size + 1
        next_order_number := bcb.next_order_number + 1 } := by
  cases h : AddOrder bcb order with
  | none =>
    simp only [call, h]
    rw [AddOrder_eq_none] at h
    simp only [reduceCtorEq, false_iff, not_and]
    intro h1
    omega
  | some r =>
    obtain ⟨b, stored, ret⟩ := r
    simp only [call, h]
    rw [AddOrder_eq_some] at h
    obtain ⟨h1, rfl, rfl, rfl⟩ := h
    simp only [Option.some.injEq, Prod.mk.injEq, h1, true_and]
    constructor
    · rintro ⟨rfl, rfl⟩
      exact ⟨rfl, rfl⟩
    · rintro ⟨rfl, rfl⟩
      exact ⟨rfl, rfl⟩

theorem call_get_eq_some (bcb bcb1 : BENSCHILLIBOWL) (e : Event) :
    call bcb Call.get = some (bcb1, e) ↔
      (e = Event.endOfWork ∧ GetOrder bcb = some (bcb1, none)) ∨
      (∃ order, e = Event.taken order ∧ GetOrder bcb = some (bcb1, some order)) := by
  cases h : GetOrder bcb with
  | none => simp [call, h]
  | some r =>
    obtain ⟨b, o⟩ := r
    cases o with
    | none =>
      simp only [call, h, Option.some.injEq, Prod.mk.injEq, reduceCtorEq, and_false,
        exists_const, or_false, and_true]
      constructor
      · rintro ⟨rfl, rfl⟩
        exact Or.inl ⟨rfl, rfl⟩
      · rintro (⟨rfl, rfl⟩ | ⟨_, hf⟩)
        · exact ⟨rfl, rfl⟩
        · exact hf.elim
    | some o =>
      simp only [call, h, Option.some.injEq, Prod.mk.injEq, reduceCtorEq, and_false, false_or]
      constructor
      · rintro ⟨rfl, rfl⟩
        exact ⟨o, rfl, rfl, rfl⟩
      · rintro ⟨o1, rfl, rfl, rfl⟩
        exact ⟨rfl, rfl⟩

theorem run_cons_eq_some (bcb bcb2 : BENSCHILLIBOWL) (c : Call) (cs : List Call)
    (evs : List Event) :
    run bcb (c :: cs) = some (bcb2, evs) ↔
      ∃ bcb1 e es, call bcb c = some (bcb1, e) ∧ run bcb1 cs = some (bcb2, es) ∧
        evs = e :: es := by
  cases h : call bcb c with
  | none => simp [run, h]
  | some r =>
    obtain ⟨b1, e⟩ := r
    cases h2 : run b1 cs with
    | none =>
      simp only [run, h, h2, reduceCtorEq, false_iff, not_exists, not_and]
      rintro b1x ex esx h3 h4
      simp only [Option.some.injEq, Prod.mk.injEq] at h3
      rw [← h3.1, h2] at h4
      exact absurd h4 (by simp)
    | some r2 =>
      obtain ⟨b2, es⟩ := r2
      simp only [run, h, h2, Option.some.injEq, Prod.mk.injEq]
      constructor
      · rintro ⟨rfl, rfl⟩
        exact ⟨b1, e, es, ⟨rfl, rfl⟩, by simp [h2], rfl⟩
      · rintro ⟨b1x, ex, esx, ⟨rfl, rfl⟩, h3, rfl⟩
        rw [h2] at h3
        simp only [Option.some.injEq, Prod.mk.injEq] at h3
        exact ⟨h3.1, by rw [h3.2]⟩

theorem acceptedOrders_append (h1 h2 : List Event) :
    acceptedOrders (h1 ++ h2) = acceptedOrders h1 ++ acceptedOrders h2 := by
  induction h1 with
  | nil => rfl
  | cons e es ih => cases e <;> simp [acceptedOrders, ih]

theorem addReturns_append (h1 h2 : List Event) :
    addReturns (h1 ++ h2) = addReturns h1 ++ addReturns h2 := by
  induction h1 with
  | nil => rfl
  | cons e es ih => cases e <;> simp [addReturns, ih]

theorem takenOrders_append (h1 h2 : List Event) :
    takenOrders (h1 ++ h2) = takenOrders h1 ++ takenOrders h2 := by
  induction h1 with
  | nil => rfl
  | cons e es ih => cases e <;> simp [takenOrders, ih]

theorem countFrom_length (first : Int) (n : Nat) : (countFrom first n).length = n := by
  induction n generalizing first with
  | zero => rfl
  | succ n ih => simp [countFrom, ih]

theorem countFrom_succ (first : Int) (n : Nat) :
    countFrom first (n + 1) = countFrom first n ++ [first + n] := by
  induction n generalizing first with
  | zero => simp [countFrom]
  | succ n ih =>
    rw [countFrom, ih (first + 1)]
    simp only [countFrom, List.cons_append, Nat.cast_add, Nat.cast_one]
    congr 2
    rw [List.cons.injEq]
    exact ⟨by omega, rfl⟩

theorem countFrom_getElem? (first : Int) (n k : Nat) (hk : k < n) :
    (countFrom first n)[k]? = some (first + k) := by
  induction n generalizing first k with
  | zero => omega
  | succ n ih =>
    cases k with
    | zero => simp [countFrom]
    | succ k =>
      simp only [countFrom, List.getElem?_cons_succ]
      rw [ih (first + 1) k (by omega)]
      simp only [Nat.cast_add, Nat.cast_one, Option.some.injEq]
      omega

/-! ### The invariant along traces -/

theorem Inv_call (bcb bcb1 : BENSCHILLIBOWL) (hist : List Event) (c : Call) (e : Event)
    (hinv : Inv bcb hist) (hc : call bcb c = some (bcb1, e)) : Inv bcb1 (hist ++ [e]) := by
  obtain ⟨h1, h2, h3, h4, h5, h6, h7⟩ := hinv
  cases c with
  | add order =>
    rw [call_add_eq_some] at hc
    obtain ⟨hlt, rfl, rfl⟩ := hc
    refine ⟨?_, ?_, ?_, ?_, ?_, ?_, ?_⟩
    · simp [h1]
    · simp [acceptedOrders_append, takenOrders_append, acceptedOrders, takenOrders, h2]
    · simp [acceptedOrders_append, acceptedOrders, h3]
    · simp [takenOrders_append, takenOrders, h4]
    · simp only [addReturns_append, acceptedOrders_append, addReturns, acceptedOrders,
        List.length_append, List.length_singleton, countFrom_succ, h5, h3]
      congr 2
      omega
    · simp only [acceptedOrders_append, acceptedOrders, List.map_append, List.map_cons,
        List.map_nil, List.length_append, List.length_singleton, countFrom_succ, h6, h3]
      congr 2
      omega
    · intro _
      show bcb.current_size + 1 ≤ bcb.max_size
      omega
  | get =>
    rw [call_get_eq_some] at hc
    rcases hc with ⟨rfl, hg⟩ | ⟨order, rfl, hg⟩
    · rw [GetOrder_eq_null] at hg
      obtain ⟨rfl, -⟩ := hg
      refine ⟨h1, ?_, ?_, ?_, ?_, ?_, h7⟩
      · simp [acceptedOrders_append, takenOrders_append, acceptedOrders, takenOrders, h2]
      · simp [acceptedOrders_append, acceptedOrders, h3]
      · simp [takenOrders_append, takenOrders, h4]
      · simp [addReturns_append, acceptedOrders_append, addReturns, acceptedOrders, h5]
      · simp [acceptedOrders_append, acceptedOrders, h6]
    · rw [GetOrder_eq_order] at hg
      obtain ⟨hne, hhead, rfl⟩ := hg
      cases hq : bcb.orders with
      | nil => simp [hq] at hhead
      | cons o next =>
        rw [hq] at hhead h1 h2
        simp only [List.head?_cons, Option.some.injEq] at hhead
        subst hhead
        simp only [List.length_cons, Nat.cast_add, Nat.cast_one] at h1
        refine ⟨?_, ?_, ?_, ?_, ?_, ?_, ?_⟩
        · show bcb.current_size - 1 = (next.length : Int)
          omega
        · simp [acceptedOrders_append, takenOrders_append, acceptedOrders, takenOrders, h2]
        · simp [acceptedOrders_append, acceptedOrders, h3]
        · simp [takenOrders_append, takenOrders, h4]
        · simp [addReturns_append, acceptedOrders_append, addReturns, acceptedOrders, h5]
        · simp [acceptedOrders_append, acceptedOrders, h6]
        · intro h0
          have := h7 h0
          show bcb.current_size - 1 ≤ bcb.max_size
          omega

theorem Inv_run (cs : List Call) (bcb bcb2 : BENSCHILLIBOWL) (hist evs : List Event)
    (hinv : Inv bcb hist) (hr : run bcb cs = some (bcb2, evs)) : Inv bcb2 (hist ++ evs) := by
  induction cs generalizing bcb hist evs with
  | nil =>
    simp only [run, Option.some.injEq, Prod.mk.injEq] at hr
    obtain ⟨rfl, rfl⟩ := hr
    simpa using hinv
  | cons c cs ih =>
    rw [run_cons_eq_some] at hr
    obtain ⟨bcb1, e, es, hc, hr1, rfl⟩ := hr
    have h1 := ih bcb1 (hist ++ [e]) es (Inv_call bcb bcb1 hist c e hinv hc) hr1
    simpa using h1

theorem call_frame (bcb bcb1 : BENSCHILLIBOWL) (c : Call) (e : Event)
    (hc : call bcb c = some (bcb1, e)) :
    bcb1.max_size = bcb.max_size ∧ bcb1.expected_num_orders = bcb.expected_num_orders := by
  cases c with
  | add order =>
    rw [call_add_eq_some] at hc
    obtain ⟨-, -, rfl⟩ := hc
    exact ⟨rfl, rfl⟩
  | get =>
    rw [call_get_eq_some] at hc
    rcases hc with ⟨-, hg⟩ | ⟨order, -, hg⟩
    · rw [GetOrder_eq_null] at hg
      obtain ⟨rfl, -⟩ := hg
      exact ⟨rfl, rfl⟩
    · rw [GetOrder_eq_order] at hg
      obtain ⟨-, -, rfl⟩ := hg
      exact ⟨rfl, rfl⟩

theorem run_frame (cs : List Call) (bcb bcb2 : BENSCHILLIBOWL) (evs : List Event)
    (hr : run bcb cs = some (bcb2, evs)) :
    bcb2.max_size = bcb.max_size ∧ bcb2.expected_num_orders = bcb.expected_num_orders := by
  induction cs generalizing bcb evs with
  | nil =>
    simp only [run, Option.some.injEq, Prod.mk.injEq] at hr
    obtain ⟨rfl, rfl⟩ := hr
    exact ⟨rfl, rfl⟩
  | cons c cs ih =>
    rw [run_cons_eq_some] at hr
    obtain ⟨bcb1, e, es, hc, hr1, rfl⟩ := hr
    have h1 := ih bcb1 es hr1
    have h2 := call_frame bcb bcb1 c e hc
    exact ⟨h1.1.trans h2.1, h1.2.trans h2.2⟩

theorem Inv_open (max_size expected_num_orders : Int) (bcb : BENSCHILLIBOWL)
    (ho : OpenRestaurant max_size expected_num_orders = some bcb) :
    Inv bcb [] ∧ bcb.max_size = max_size ∧ bcb.expected_num_orders = expected_num_orders := by
  simp only [OpenRestaurant, Option.some.injEq] at ho
  subst ho
  exact ⟨⟨rfl, rfl, rfl, rfl, rfl, rfl, fun h => h⟩, rfl, rfl⟩

theorem session_eq_some (max_size expected_num_orders : Int) (cs : List Call)
    (bcb : BENSCHILLIBOWL) (evs : List Event) :
    session max_size expected_num_orders cs = some (bcb, evs) ↔
      ∃ bcb0, OpenRestaurant max_size expected_num_orders = some bcb0 ∧
        run bcb0 cs = some (bcb, evs) := by
  simp [session, OpenRestaurant]

theorem session_inv (max_size expected_num_orders : Int) (cs : List Call)
    (bcb : BENSCHILLIBOWL) (evs : List Event)
    (hs : session max_size expected_num_orders cs = some (bcb, evs)) :
    Inv bcb evs ∧ bcb.max_size = max_size ∧ bcb.expected_num_orders = expected_num_orders := by
  rw [session_eq_some] at hs
  obtain ⟨bcb0, ho, hr⟩ := hs
  obtain ⟨hi, hm, he⟩ := Inv_open max_size expected_num_orders bcb0 ho
  have h1 := Inv_run cs bcb0 bcb [] evs hi hr
  have h2 := run_frame cs bcb0 bcb evs hr
  exact ⟨by simpa using h1, h2.1.trans hm, h2.2.trans he⟩

theorem run_no_taken (cs : List Call) (bcb bcb2 : BENSCHILLIBOWL) (evs : List Event)
    (hr : run bcb cs = some (bcb2, evs)) (hno : takenOrders evs = []) :
    bcb2.current_size = bcb.current_size + (acceptedOrders evs).length ∧
      (acceptedOrders evs ≠ [] → bcb2.current_size ≤ bcb.max_size) := by
  induction cs generalizing bcb evs with
  | nil =>
    simp only [run, Option.some.injEq, Prod.mk.injEq] at hr
    obtain ⟨rfl, rfl⟩ := hr
    simp [acceptedOrders]
  | cons c cs ih =>
    rw [run_cons_eq_some] at hr
    obtain ⟨bcb1, e, es, hc, hr1, rfl⟩ := hr
    cases c with
    | add order =>
      rw [call_add_eq_some] at hc
      obtain ⟨hlt, rfl, rfl⟩ := hc
      simp only [takenOrders] at hno
      obtain ⟨h1, h2⟩ := ih _ es hr1 hno
      simp only at h1 h2
      simp only [acceptedOrders, List.length_cons, Nat.cast_add, Nat.cast_one, ne_eq,
        reduceCtorEq, not_false_eq_true, true_implies]
      refine ⟨by omega, ?_⟩
      by_cases hes : acceptedOrders es = []
      · rw [hes] at h1
        simp only [List.length_nil, Nat.cast_zero] at h1
        omega
      · exact h2 hes
    | get =>
      rw [call_get_eq_some] at hc
      rcases hc with ⟨rfl, hg⟩ | ⟨order, rfl, hg⟩
      · rw [GetOrder_eq_null] at hg
        obtain ⟨rfl, -⟩ := hg
        simp only [takenOrders] at hno
        simpa [acceptedOrders] using ih _ es hr1 hno
      · simp [takenOrders] at hno

theorem countFrom_lower (first : Int) (n : Nat) : ∀ x ∈ countFrom first n, first ≤ x := by
  induction n generalizing first with
  | zero => simp [countFrom]
  | succ n ih =>
    intro x hx
    simp only [countFrom, List.mem_cons] at hx
    rcases hx with rfl | hx
    · exact le_refl _
    · have := ih (first + 1) x hx
      omega

theorem countFrom_pairwise (first : Int) (n : Nat) :
    List.Pairwise (fun a b => a < b) (countFrom first n) := by
  induction n generalizing first with
  | zero => simp [countFrom]
  | succ n ih =>
    simp only [countFrom, List.pairwise_cons]
    refine ⟨?_, ih (first + 1)⟩
    intro x hx
    have := countFrom_lower (first + 1) n x hx
    omega

theorem countFrom_nodup (first : Int) (n : Nat) : (countFrom first n).Nodup :=
  (countFrom_pairwise first n).imp (fun h => ne_of_lt h)

theorem Inv.accepted_number {bcb : BENSCHILLIBOWL} {hist : List Event} (hinv : Inv bcb hist)
    (k : Nat) (a : Order) (hk : (acceptedOrders hist)[k]? = some a) :
    a.order_number = 1 + k := by
  have hlt : k < (acceptedOrders hist).length := (List.getElem?_eq_some.1 hk).1
  have h1 : ((acceptedOrders hist).map Order.order_number)[k]? = some a.order_number := by
    rw [List.getElem?_map, hk]
    rfl
  rw [hinv.nums_eq, countFrom_getElem? 1 _ k hlt] at h1
  simp only [Option.some.injEq] at h1
  exact h1.symm

theorem Inv.accepted_nodup {bcb : BENSCHILLIBOWL} {hist : List Event} (hinv : Inv bcb hist) :
    (acceptedOrders hist).Nodup := by
  apply List.Nodup.of_map Order.order_number
  rw [hinv.nums_eq]
  exact countFrom_nodup 1 _

theorem Inv.taken_getElem? {bcb : BENSCHILLIBOWL} {hist : List Event} (hinv : Inv bcb hist)
    (k : Nat) (hk : k < (takenOrders hist).length) :
    (takenOrders hist)[k]? = (acceptedOrders hist)[k]? := by
  rw [hinv.conserve, List.getElem?_append_left hk]

theorem run_idle (cs : List Call) (bcb bcb2 : BENSCHILLIBOWL) (evs : List Event)
    (hnull : GetOrder bcb = some (bcb, none))
    (hr : run bcb cs = some (bcb2, evs)) (hno : acceptedOrders evs = []) :
    bcb2 = bcb ∧ evs = List.replicate cs.length Event.endOfWork := by
  induction cs generalizing evs with
  | nil =>
    simp only [run, Option.some.injEq, Prod.mk.injEq] at hr
    obtain ⟨rfl, rfl⟩ := hr
    exact ⟨rfl, rfl⟩
  | cons c cs ih =>
    rw [run_cons_eq_some] at hr
    obtain ⟨bcb1, e, es, hc, hr1, rfl⟩ := hr
    cases c with
    | add order =>
      rw [call_add_eq_some] at hc
      obtain ⟨-, rfl, -⟩ := hc
      simp [acceptedOrders] at hno
    | get =>
      rw [call_get_eq_some, hnull] at hc
      simp only [Option.some.injEq, Prod.mk.injEq, and_true, reduceCtorEq, and_false,
        exists_const, or_false] at hc
      rcases hc with ⟨rfl, rfl⟩ | ⟨_, hf⟩
      swap
      · exact hf.elim
      simp only [acceptedOrders] at hno
      obtain ⟨h1, h2⟩ := ih es hr1 hno
      exact ⟨h1, by rw [h2]; rfl⟩

theorem run_gets_null (n : Nat) (bcb : BENSCHILLIBOWL)
    (hnull : GetOrder bcb = some (bcb, none)) :
    run bcb (List.replicate n Call.get) = some (bcb, List.replicate n Event.endOfWork) := by
  induction n with
  | zero => rfl
  | succ n ih =>
    rw [List.replicate_succ, run_cons_eq_some]
    exact ⟨bcb, Event.endOfWork, _, by simp [call, hnull], ih, rfl⟩

theorem run_full (cs : List Call) (bcb bcb2 : BENSCHILLIBOWL) (evs : List Event)
    (hfull : bcb.max_size ≤ bcb.current_size) (hr : run bcb cs = some (bcb2, evs))
    (i : Nat) (order : Order) (ret : Int) (hi : evs[i]? = some (Event.accepted order ret)) :
    ∃ j taken, j < i ∧ evs[j]? = some (Event.taken taken) := by
  induction cs generalizing evs i with
  | nil =>
    simp only [run, Option.some.injEq, Prod.mk.injEq] at hr
    obtain ⟨rfl, rfl⟩ := hr
    simp at hi
  | cons c cs ih =>
    rw [run_cons_eq_some] at hr
    obtain ⟨bcb1, e, es, hc, hr1, rfl⟩ := hr
    cases c with
    | add o =>
      rw [call_add_eq_some] at hc
      omega
    | get =>
      rw [call_get_eq_some] at hc
      rcases hc with ⟨rfl, hg⟩ | ⟨o, rfl, hg⟩
      · rw [GetOrder_eq_null] at hg
        obtain ⟨rfl, -⟩ := hg
        cases i with
        | zero => simp at hi
        | succ i =>
          simp only [List.getElem?_cons_succ] at hi
          obtain ⟨j, t, hj, ht⟩ := ih es hr1 i hi
          exact ⟨j + 1, t, by omega, by simpa using ht⟩
      · cases i with
        | zero => simp at hi
        | succ i => exact ⟨0, o, by omega, by simp⟩

/-! ## The claims -/

/-- C1 (capacity invariant).  On a queue opened with `max_size >= 1`, after any
sequence of completed `AddOrder` / `GetOrder` calls the size counter is the
number of pending orders and lies between `0` and `max_size`.  Moreover, from a
state with `max_size - 1` pending orders, a first `AddOrder` is accepted, a
second one made right after it cannot complete, and in any continuation in
which no `GetOrder` returns an order at most one `AddOrder` is accepted. -/
theorem C1_capacity_invariant (max_size expected_num_orders : Int) (cs : List Call)
    (bcb : BENSCHILLIBOWL) (evs : List Event) (hmax : 1 ≤ max_size)
    (hs : session max_size expected_num_orders cs = some (bcb, evs)) :
    (0 ≤ bcb.current_size ∧ bcb.current_size ≤ bcb.max_size ∧
      bcb.current_size = bcb.orders.length ∧ bcb.max_size = max_size) ∧
    (bcb.current_size = bcb.max_size - 1 →
      (∀ o1 o2 : Order, ∃ bcb1 stored ret,
        AddOrder bcb o1 = some (bcb1, stored, ret) ∧ AddOrder bcb1 o2 = none) ∧
      (∀ (more : List Call) (bcb2 : BENSCHILLIBOWL) (evs2 : List Event),
        run bcb more = some (bcb2, evs2) → takenOrders evs2 = [] →
          (acceptedOrders evs2).length ≤ 1)) := by
  obtain ⟨hinv, hm, -⟩ := session_inv max_size expected_num_orders cs bcb evs hs
  have hsz := hinv.size_eq
  have hcap := hinv.cap (by omega)
  refine ⟨⟨by omega, hcap, hsz, hm⟩, ?_⟩
  intro hlast
  constructor
  · intro o1 o2
    refine ⟨_, _, _, (AddOrder_eq_some bcb _ o1 _ _).2 ⟨by omega, rfl, rfl, rfl⟩, ?_⟩
    rw [AddOrder_eq_none]
    show bcb.max_size ≤ bcb.current_size + 1
    omega
  · intro more bcb2 evs2 hr hno
    obtain ⟨h1, h2⟩ := run_no_taken more bcb bcb2 evs2 hr hno
    by_cases hes : acceptedOrders evs2 = []
    · simp [hes]
    · have := h2 hes
      omega

/-- Witness for C1: capacity 2, A and B submitted, A taken; one slot is free. -/
theorem C1_capacity_invariant_witness :
    (1 : Int) ≤ 2 ∧ session 2 2 demoCalls = some (demoState, demoEvents) ∧
    ((0 ≤ demoState.current_size ∧ demoState.current_size ≤ demoState.max_size ∧
      demoState.current_size = demoState.orders.length ∧ demoState.max_size = 2) ∧
    (demoState.current_size = demoState.max_size - 1 →
      (∀ o1 o2 : Order, ∃ bcb1 stored ret,
        AddOrder demoState o1 = some (bcb1, stored, ret) ∧ AddOrder bcb1 o2 = none) ∧
      (∀ (more : List Call) (bcb2 : BENSCHILLIBOWL) (evs2 : List Event),
        run demoState more = some (bcb2, evs2) → takenOrders evs2 = [] →
          (acceptedOrders evs2).length ≤ 1))) :=
  ⟨by decide, by decide,
    C1_capacity_invariant 2 2 demoCalls demoState demoEvents (by decide) (by decide)⟩

/-- C2 (FIFO).  After any sequence of completed calls on an opened queue, the
orders returned by `GetOrder` are a prefix of the orders accepted by
`AddOrder`: the k-th order returned is the k-th order accepted.  Hence if `a`
was accepted before `b` (positions `i < j` among the accepted orders) and both
have been returned, `a` was returned by an earlier `GetOrder` than `b`. -/
theorem C2_fifo (max_size expected_num_orders : Int) (cs : List Call)
    (bcb : BENSCHILLIBOWL) (evs : List Event)
    (hs : session max_size expected_num_orders cs = some (bcb, evs)) :
    takenOrders evs <+: acceptedOrders evs ∧
    (∀ k, k < (takenOrders evs).length →
      (takenOrders evs)[k]? = (acceptedOrders evs)[k]?) ∧
    (∀ (i j i1 j1 : Nat) (a b : Order), i < j →
      (acceptedOrders evs)[i]? = some a → (acceptedOrders evs)[j]? = some b →
      (takenOrders evs)[i1]? = some a → (takenOrders evs)[j1]? = some b → i1 < j1) := by
  obtain ⟨hinv, -, -⟩ := session_inv max_size expected_num_orders cs bcb evs hs
  refine ⟨⟨bcb.orders, hinv.conserve.symm⟩, hinv.taken_getElem?, ?_⟩
  intro i j i1 j1 a b hij hai hbj hai1 hbj1
  have hi1 : i1 < (takenOrders evs).length := (List.getElem?_eq_some.1 hai1).1
  have hj1 : j1 < (takenOrders evs).length := (List.getElem?_eq_some.1 hbj1).1
  rw [hinv.taken_getElem? i1 hi1] at hai1
  rw [hinv.taken_getElem? j1 hj1] at hbj1
  have e1 := hinv.accepted_number i a hai
  have e2 := hinv.accepted_number i1 a hai1
  have e3 := hinv.accepted_number j b hbj
  have e4 := hinv.accepted_number j1 b hbj1
  omega

/-- Witness for C2: A and B submitted, A taken. -/
theorem C2_fifo_witness :
    session 2 2 demoCalls = some (demoState, demoEvents) ∧
    (takenOrders demoEvents <+: acceptedOrders demoEvents ∧
    (∀ k, k < (takenOrders demoEvents).length →
      (takenOrders demoEvents)[k]? = (acceptedOrders demoEvents)[k]?) ∧
    (∀ (i j i1 j1 : Nat) (a b : Order), i < j →
      (acceptedOrders demoEvents)[i]? = some a → (acceptedOrders demoEvents)[j]? = some b →
      (takenOrders demoEvents)[i1]? = some a → (takenOrders demoEvents)[j1]? = some b →
      i1 < j1)) :=
  ⟨by decide, C2_fifo 2 2 demoCalls demoState demoEvents (by decide)⟩

/-- Numbers assigned under the mutex.  On a queue freshly created by
`OpenRestaurant`, after any sequence of completed calls in which `n` orders
were accepted, the k-th accepted order carries `order_number = k`, the numbers
held at the unlock are `1, 2, ..., n` in this order, strictly increasing and
pairwise distinct, and the next number to hand out is `n + 1`; `GetOrder`
calls interleaved in the sequence play no part. -/
theorem assigned_sequence_numbers (max_size expected_num_orders : Int) (cs : List Call)
    (bcb : BENSCHILLIBOWL) (evs : List Event)
    (hs : session max_size expected_num_orders cs = some (bcb, evs)) :
    addReturns evs = countFrom 1 (acceptedOrders evs).length ∧
    (acceptedOrders evs).map Order.order_number = countFrom 1 (acceptedOrders evs).length ∧
    (∀ k, k < (acceptedOrders evs).length →
      (addReturns evs)[k]? = some ((k : Int) + 1) ∧
      ((acceptedOrders evs)[k]?).map Order.order_number = some ((k : Int) + 1)) ∧
    List.Pairwise (fun a b => a < b) (addReturns evs) ∧
    (addReturns evs).Nodup ∧
    bcb.next_order_number = (acceptedOrders evs).length + 1 := by
  obtain ⟨hinv, -, -⟩ := session_inv max_size expected_num_orders cs bcb evs hs
  refine ⟨hinv.rets_eq, hinv.nums_eq, ?_, ?_, ?_, hinv.next_eq⟩
  · intro k hk
    constructor
    · rw [hinv.rets_eq, countFrom_getElem? 1 _ k hk]
      simp only [Option.some.injEq]
      omega
    · rw [← List.getElem?_map, hinv.nums_eq, countFrom_getElem? 1 _ k hk]
      simp only [Option.some.injEq]
      omega
  · rw [hinv.rets_eq]
    exact countFrom_pairwise 1 _
  · rw [hinv.rets_eq]
    exact countFrom_nodup 1 _

/-- C3, the code breaks the claim for the returned value.  On the queue
returned by `OpenRestaurant 2 1`, the first `AddOrder` stores order A with
`order_number = 1`.  If a cook completes one round of its loop (`GetOrder`,
`free(order)`) between the unlock of the call and its `return
order->order_number`, the order read by the `return` has been freed: the call
has no defined return value, where the claim says it returns 1.  With no cook
in between the call returns 1.  In every state and for every number of cook
rounds, the order is stored with the next sequence number, and the call
returns either that number or, the order freed, no defined value; with no cook
round in between it returns the number held at the unlock. -/
theorem C3_return_read_after_free :
    (OpenRestaurant 2 1).bind (fun bcb => AddOrderCall bcb orderA 1) =
      some (drainedState, storedA, none) ∧
    (OpenRestaurant 2 1).bind (fun bcb => AddOrderCall bcb orderA 0) =
      some ({ openedState with orders := [storedA], current_size := 1, next_order_number := 2 },
        storedA, some 1) ∧
    (∀ (bcb : BENSCHILLIBOWL) (order : Order) (rounds : Nat),
      AddOrderCall bcb order rounds = none ∨
      ∃ left ret, AddOrderCall bcb order rounds =
          some (left, { order with order_number := bcb.next_order_number }, ret) ∧
        (ret = none ∨ ret = some bcb.next_order_number)) ∧
    (∀ (bcb : BENSCHILLIBOWL) (order : Order),
      AddOrderCall bcb order 0 =
        (AddOrder bcb order).map (fun r => (r.1, r.2.1, some r.2.2))) := by
  refine ⟨by decide, by decide, ?_, ?_⟩
  · intro bcb order rounds
    by_cases hf : IsFull bcb = true
    · left
      simp [AddOrderCall, AddOrder, hf]
    · right
      simp only [AddOrderCall, AddOrder, hf]
      refine ⟨_, _, rfl, ?_⟩
      split_ifs
      · exact Or.inr rfl
      · exact Or.inl rfl
  · intro bcb order
    by_cases hf : IsFull bcb = true
    · simp [AddOrderCall, AddOrder, hf]
    · simp [AddOrderCall, AddOrder, hf, BENSCHILLIBOWLCook, AddOrderToBack_eq_append]

/-- C4 (no loss, no duplication).  After any sequence of completed calls on an
opened queue, the orders accepted so far are exactly the orders returned so far
followed by the pending orders, and no order occurs twice among them.  So when
nothing is pending, the orders taken are the orders submitted, each once, and
their sequence numbers are `1, ..., n`; for ten submissions they are
`1, ..., 10`. -/
theorem C4_no_loss_no_duplication (max_size expected_num_orders : Int) (cs : List Call)
    (bcb : BENSCHILLIBOWL) (evs : List Event)
    (hs : session max_size expected_num_orders cs = some (bcb, evs)) :
    acceptedOrders evs = takenOrders evs ++ bcb.orders ∧
    (acceptedOrders evs).Nodup ∧
    (bcb.orders = [] →
      takenOrders evs = acceptedOrders evs ∧
      (takenOrders evs).Nodup ∧
      (takenOrders evs).map Order.order_number = countFrom 1 (acceptedOrders evs).length ∧
      ((acceptedOrders evs).length = 10 →
        (takenOrders evs).map Order.order_number = [1, 2, 3, 4, 5, 6, 7, 8, 9, 10])) := by
  obtain ⟨hinv, -, -⟩ := session_inv max_size expected_num_orders cs bcb evs hs
  refine ⟨hinv.conserve, hinv.accepted_nodup, ?_⟩
  intro hempty
  have heq : takenOrders evs = acceptedOrders evs := by
    rw [hinv.conserve, hempty, List.append_nil]
  refine ⟨heq, heq ▸ hinv.accepted_nodup, ?_, ?_⟩
  · rw [heq]
    exact hinv.nums_eq
  · intro h10
    rw [heq, hinv.nums_eq, h10]
    rfl

/-- Witness for C4: scenario 3, ten orders submitted and all ten taken. -/
theorem C4_no_loss_no_duplication_witness :
    session 3 10 scenario3Calls = some (scenario3End.1, scenario3End.2) ∧
    scenario3End.1.orders = [] ∧ (acceptedOrders scenario3End.2).length = 10 ∧
    (acceptedOrders scenario3End.2 = takenOrders scenario3End.2 ++ scenario3End.1.orders ∧
    (acceptedOrders scenario3End.2).Nodup ∧
    (scenario3End.1.orders = [] →
      takenOrders scenario3End.2 = acceptedOrders scenario3End.2 ∧
      (takenOrders scenario3End.2).Nodup ∧
      (takenOrders scenario3End.2).map Order.order_number =
        countFrom 1 (acceptedOrders scenario3End.2).length ∧
      ((acceptedOrders scenario3End.2).length = 10 →
        (takenOrders scenario3End.2).map Order.order_number =
          [1, 2, 3, 4, 5, 6, 7, 8, 9, 10]))) :=
  ⟨by decide, by decide, by decide,
    C4_no_loss_no_duplication 3 10 scenario3Calls scenario3End.1 scenario3End.2 (by decide)⟩

/-- C5 (no early end of work).  In every state reached by completed calls on an
opened queue: a `GetOrder` that returns `NULL` does so with nothing pending and
`orders_handled >= expected_num_orders`; while
`orders_handled < expected_num_orders` no `GetOrder` returns `NULL` (with
nothing pending the call stays waiting, otherwise it returns an order); and
every order `GetOrder` returns is one that `AddOrder` accepted. -/
theorem C5_null_only_at_end (max_size expected_num_orders : Int) (cs : List Call)
    (bcb : BENSCHILLIBOWL) (evs : List Event)
    (hs : session max_size expected_num_orders cs = some (bcb, evs)) :
    (∀ bcb1, GetOrder bcb = some (bcb1, none) →
      bcb.orders = [] ∧ bcb.expected_num_orders ≤ bcb.orders_handled) ∧
    (bcb.orders_handled < bcb.expected_num_orders →
      (∀ bcb1, GetOrder bcb ≠ some (bcb1, none)) ∧
      (bcb.orders = [] → GetOrder bcb = none) ∧
      (bcb.orders ≠ [] → ∃ bcb1 order, GetOrder bcb = some (bcb1, some order))) ∧
    (∀ bcb1 order, GetOrder bcb = some (bcb1, some order) → order ∈ acceptedOrders evs) := by
  obtain ⟨hinv, -, -⟩ := session_inv max_size expected_num_orders cs bcb evs hs
  have hsz := hinv.size_eq
  have hnull : ∀ bcb1, GetOrder bcb = some (bcb1, none) →
      bcb.orders = [] ∧ bcb.expected_num_orders ≤ bcb.orders_handled := by
    intro bcb1 hg
    rw [GetOrder_eq_null] at hg
    rcases hg with ⟨-, ⟨h0, hge⟩ | ⟨hne, hnil⟩⟩
    · rw [h0] at hsz
      exact ⟨List.length_eq_zero.1 (by exact_mod_cast hsz.symm), hge⟩
    · rw [hnil] at hsz
      exact absurd hsz hne
  refine ⟨hnull, ?_, ?_⟩
  · intro hlt
    refine ⟨?_, ?_, ?_⟩
    · intro bcb1 hg
      have := (hnull bcb1 hg).2
      omega
    · intro hnil
      rw [GetOrder_eq_none]
      rw [hnil] at hsz
      exact ⟨hsz, hlt⟩
    · intro hne
      cases hq : bcb.orders with
      | nil => exact absurd hq hne
      | cons o next =>
        refine ⟨_, o, (GetOrder_eq_order bcb _ o).2 ⟨?_, by rw [hq]; rfl, rfl⟩⟩
        rw [hsz, hq]
        simp only [List.length_cons, Nat.cast_add, Nat.cast_one, ne_eq]
        omega
  · intro bcb1 order hg
    rw [GetOrder_eq_order] at hg
    obtain ⟨-, hhead, -⟩ := hg
    rw [hinv.conserve]
    exact List.mem_append_right _ (List.mem_of_mem_head? hhead)

/-- Witness for C5: A and B submitted, A taken, one of two expected orders
handled. -/
theorem C5_null_only_at_end_witness :
    session 2 2 demoCalls = some (demoState, demoEvents) ∧
    demoState.orders_handled < demoState.expected_num_orders ∧
    GetOrder demoState = some ({ demoState with
      orders := [], current_size := 0, orders_handled := 2 }, some storedB) ∧
    ((∀ bcb1, GetOrder demoState = some (bcb1, none) →
      demoState.orders = [] ∧ demoState.expected_num_orders ≤ demoState.orders_handled) ∧
    (demoState.orders_handled < demoState.expected_num_orders →
      (∀ bcb1, GetOrder demoState ≠ some (bcb1, none)) ∧
      (demoState.orders = [] → GetOrder demoState = none) ∧
      (demoState.orders ≠ [] → ∃ bcb1 order, GetOrder demoState = some (bcb1, some order))) ∧
    (∀ bcb1 order, GetOrder demoState = some (bcb1, some order) →
      order ∈ acceptedOrders demoEvents)) :=
  ⟨by decide, by decide, by decide,
    C5_null_only_at_end 2 2 demoCalls demoState demoEvents (by decide)⟩

/-- C6, the claim as stated fails: on a queue of capacity 2 opened with
`expected_num_orders = 1`, after A and B were submitted and A taken,
`orders_handled == expected_num_orders` holds, yet `GetOrder` returns the order
B (not `NULL`) and changes the record. -/
theorem C6_counterexample :
    session 2 1 demoCalls = some (overState, demoEvents) ∧
    overState.orders_handled = overState.expected_num_orders ∧
    GetOrder overState =
      some ({ overState with orders := [], current_size := 0, orders_handled := 2 },
        some storedB) ∧
    GetOrder overState ≠ some (overState, none) := by
  decide

/-- C6 (termination, amended).  In every state reached by completed calls on an
opened queue in which `orders_handled == expected_num_orders` and nothing is
pending (which is the case as soon as no more than `expected_num_orders` orders
have been submitted), `GetOrder` returns `NULL` and leaves the record
unchanged; so do any number of `GetOrder` calls in a row, and in any
continuation without a further accepted `AddOrder` every call is a `GetOrder`
returning `NULL` and the record stays the same. -/
theorem C6_termination (max_size expected_num_orders : Int) (cs : List Call)
    (bcb : BENSCHILLIBOWL) (evs : List Event)
    (hs : session max_size expected_num_orders cs = some (bcb, evs))
    (hdone : bcb.orders_handled = bcb.expected_num_orders)
    (hpending : bcb.orders = [] ∨
      ((acceptedOrders evs).length : Int) ≤ expected_num_orders) :
    bcb.orders = [] ∧
    GetOrder bcb = some (bcb, none) ∧
    (∀ n, run bcb (List.replicate n Call.get)
      = some (bcb, List.replicate n Event.endOfWork)) ∧
    (∀ (more : List Call) (bcb2 : BENSCHILLIBOWL) (evs2 : List Event),
      run bcb more = some (bcb2, evs2) → acceptedOrders evs2 = [] →
        bcb2 = bcb ∧ evs2 = List.replicate more.length Event.endOfWork) := by
  obtain ⟨hinv, -, he⟩ := session_inv max_size expected_num_orders cs bcb evs hs
  have hempty : bcb.orders = [] := by
    rcases hpending with h | h
    · exact h
    · have h1 := congrArg List.length hinv.conserve
      have h2 := hinv.handled_eq
      rw [List.length_append] at h1
      apply List.length_eq_zero.1
      omega
  have hsz := hinv.size_eq
  rw [hempty] at hsz
  have hnull : GetOrder bcb = some (bcb, none) :=
    (GetOrder_eq_null bcb bcb).2 ⟨rfl, Or.inl ⟨hsz, by omega⟩⟩
  exact ⟨hempty, hnull, fun n => run_gets_null n bcb hnull,
    fun more bcb2 evs2 hr hno => run_idle more bcb bcb2 evs2 hnull hr hno⟩

/-- Witness for C6: the end of scenario 3, ten of ten expected orders handled. -/
theorem C6_termination_witness :
    session 3 10 scenario3Calls = some (scenario3End.1, scenario3End.2) ∧
    scenario3End.1.orders_handled = scenario3End.1.expected_num_orders ∧
    (scenario3End.1.orders = [] ∨ ((acceptedOrders scenario3End.2).length : Int) ≤ 10) ∧
    (scenario3End.1.orders = [] ∧
    GetOrder scenario3End.1 = some (scenario3End.1, none) ∧
    (∀ n, run scenario3End.1 (List.replicate n Call.get)
      = some (scenario3End.1, List.replicate n Event.endOfWork)) ∧
    (∀ (more : List Call) (bcb2 : BENSCHILLIBOWL) (evs2 : List Event),
      run scenario3End.1 more = some (bcb2, evs2) → acceptedOrders evs2 = [] →
        bcb2 = scenario3End.1 ∧ evs2 = List.replicate more.length Event.endOfWork)) :=
  ⟨by decide, by decide, by decide,
    C6_termination 3 10 scenario3Calls scenario3End.1 scenario3End.2
      (by decide) (by decide) (by decide)⟩

/-- C7 (accounting at shutdown).  Suppose the orders submitted over a whole
run number exactly `expected_num_orders` (as in `main`, 90 customers times 3
orders with 270 expected).  If at some point of the run a `GetOrder` call
returns `NULL`, then at that point `orders_handled == expected_num_orders`,
nothing is pending and every order of the whole run has already been taken;
the record does not change afterwards, and `CloseRestaurant` on the final
record prints no warning and finds no left-over order. -/
theorem C7_accounting_at_shutdown (max_size expected_num_orders : Int)
    (cs1 cs2 : List Call) (bcb1 bcb2 bcbn : BENSCHILLIBOWL) (evs1 evs2 : List Event)
    (hs : session max_size expected_num_orders cs1 = some (bcb1, evs1))
    (hr : run bcb1 cs2 = some (bcb2, evs2))
    (htotal : ((acceptedOrders (evs1 ++ evs2)).length : Int) = expected_num_orders)
    (hnull : GetOrder bcb1 = some (bcbn, none)) :
    bcb1.orders_handled = bcb1.expected_num_orders ∧
    bcb1.orders_handled = expected_num_orders ∧
    bcb1.orders = [] ∧
    takenOrders evs1 = acceptedOrders (evs1 ++ evs2) ∧
    bcb2 = bcb1 ∧
    CloseRestaurant bcb2 = { warning := none, released := 0 } ∧
    EXPECTED_NUM_ORDERS = 270 := by
  obtain ⟨hinv, -, he⟩ := session_inv max_size expected_num_orders cs1 bcb1 evs1 hs
  have hsz := hinv.size_eq
  have hh := hinv.handled_eq
  have hc := congrArg List.length hinv.conserve
  rw [acceptedOrders_append, List.length_append] at htotal
  rw [List.length_append] at hc
  rw [GetOrder_eq_null] at hnull
  obtain ⟨-, hcase⟩ := hnull
  have hfacts : bcb1.orders = [] ∧ bcb1.expected_num_orders ≤ bcb1.orders_handled := by
    rcases hcase with ⟨h0, hge⟩ | ⟨hne, hnil⟩
    · rw [h0] at hsz
      exact ⟨List.length_eq_zero.1 (by exact_mod_cast hsz.symm), hge⟩
    · rw [hnil] at hsz
      exact absurd hsz hne
  obtain ⟨hempty, hge⟩ := hfacts
  rw [hempty] at hc hsz
  simp only [List.length_nil, Nat.add_zero] at hc
  push_cast at htotal
  have hno : acceptedOrders evs2 = [] := List.length_eq_zero.1 (by omega)
  have hdone : bcb1.orders_handled = bcb1.expected_num_orders := by omega
  have hnull1 : GetOrder bcb1 = some (bcb1, none) :=
    (GetOrder_eq_null bcb1 bcb1).2 ⟨rfl, Or.inl ⟨hsz, hge⟩⟩
  obtain ⟨hsame, -⟩ := run_idle cs2 bcb1 bcb2 evs2 hnull1 hr hno
  refine ⟨hdone, by omega, hempty, ?_, hsame, ?_, by decide⟩
  · rw [acceptedOrders_append, hno, List.append_nil, hinv.conserve, hempty, List.append_nil]
  · rw [hsame]
    simp [CloseRestaurant, hdone, hempty, freeRemaining]

/-- Witness for C7: scenario 3 (ten orders submitted, ten expected), followed
by two more cooks observing `NULL`. -/
theorem C7_accounting_at_shutdown_witness :
    session 3 10 scenario3Calls = some (scenario3End.1, scenario3End.2) ∧
    run scenario3End.1 [Call.get, Call.get]
      = some (scenario3End.1, [Event.endOfWork, Event.endOfWork]) ∧
    ((acceptedOrders (scenario3End.2 ++ [Event.endOfWork, Event.endOfWork])).length : Int)
      = 10 ∧
    GetOrder scenario3End.1 = some (scenario3End.1, none) ∧
    (scenario3End.1.orders_handled = scenario3End.1.expected_num_orders ∧
    scenario3End.1.orders_handled = 10 ∧
    scenario3End.1.orders = [] ∧
    takenOrders scenario3End.2
      = acceptedOrders (scenario3End.2 ++ [Event.endOfWork, Event.endOfWork]) ∧
    scenario3End.1 = scenario3End.1 ∧
    CloseRestaurant scenario3End.1 = { warning := none, released := 0 } ∧
    EXPECTED_NUM_ORDERS = 270) :=
  ⟨by decide, by decide, by decide, by decide,
    C7_accounting_at_shutdown 3 10 scenario3Calls [Call.get, Call.get]
      scenario3End.1 scenario3End.1 scenario3End.1 scenario3End.2
      [Event.endOfWork, Event.endOfWork] (by decide) (by decide) (by decide) (by decide)⟩

/-- C8 (backpressure).  In a state with `current_size == max_size` (or more) no
`AddOrder` call can complete, and in every continuation of completed calls an
accepted `AddOrder` is preceded by a `GetOrder` that returned an order.  With
capacity 1 and 2 expected orders: submitting A returns 1; B cannot be accepted
right after A; once a `GetOrder` has returned A, B is accepted and gets 2. -/
theorem C8_backpressure (bcb : BENSCHILLIBOWL) (hfull : bcb.max_size ≤ bcb.current_size) :
    (∀ order, AddOrder bcb order = none) ∧
    (∀ (cs : List Call) (bcb2 : BENSCHILLIBOWL) (evs : List Event),
      run bcb cs = some (bcb2, evs) →
      ∀ (i : Nat) (order : Order) (ret : Int), evs[i]? = some (Event.accepted order ret) →
        ∃ j taken, j < i ∧ evs[j]? = some (Event.taken taken)) ∧
    session 1 2 [Call.add orderA] = some (fullState, [Event.accepted storedA 1]) ∧
    session 1 2 [Call.add orderA, Call.add orderB] = none ∧
    (session 1 2 [Call.add orderA, Call.get, Call.add orderB]).map Prod.snd
      = some [Event.accepted storedA 1, Event.taken storedA, Event.accepted storedB 2] := by
  refine ⟨fun order => (AddOrder_eq_none bcb order).2 hfull, ?_, by decide, by decide,
    by decide⟩
  intro cs bcb2 evs hr i order ret hi
  exact run_full cs bcb bcb2 evs hfull hr i order ret hi

/-- Witness for C8: the queue of capacity 1 holding A. -/
theorem C8_backpressure_witness :
    fullState.max_size ≤ fullState.current_size ∧
    ((∀ order, AddOrder fullState order = none) ∧
    (∀ (cs : List Call) (bcb2 : BENSCHILLIBOWL) (evs : List Event),
      run fullState cs = some (bcb2, evs) →
      ∀ (i : Nat) (order : Order) (ret : Int), evs[i]? = some (Event.accepted order ret) →
        ∃ j taken, j < i ∧ evs[j]? = some (Event.taken taken)) ∧
    session 1 2 [Call.add orderA] = some (fullState, [Event.accepted storedA 1]) ∧
    session 1 2 [Call.add orderA, Call.add orderB] = none ∧
    (session 1 2 [Call.add orderA, Call.get, Call.add orderB]).map Prod.snd
      = some [Event.accepted storedA 1, Event.taken storedA, Event.accepted storedB 2]) :=
  ⟨by decide, C8_backpressure fullState (by decide)⟩

/-- C9 (nothing expected).  On a queue opened with `expected_num_orders = 0`,
whatever the capacity, and with no submission, the first `GetOrder` call
completes, returns `NULL` and leaves the record as `OpenRestaurant` made it:
`current_size = 0`, `orders_handled = 0`, `next_order_number = 1`. -/
theorem C9_nothing_expected (max_size : Int) :
    ∃ bcb, OpenRestaurant max_size 0 = some bcb ∧
      GetOrder bcb = some (bcb, none) ∧
      session max_size 0 [Call.get] = some (bcb, [Event.endOfWork]) ∧
      bcb.orders = [] ∧ bcb.current_size = 0 ∧ bcb.orders_handled = 0 ∧
      bcb.next_order_number = 1 ∧ bcb.max_size = max_size := by
  refine ⟨_, rfl, ?_, ?_, rfl, rfl, rfl, rfl, rfl⟩
  · rfl
  · rfl

/-- C10, the claim as stated fails: `OpenRestaurant 5 0` returns a queue, not
an error, and the queue works: it accepts the order A and hands it out again.
`OpenRestaurant 0 0` and `OpenRestaurant (-1) 5` return a queue as well. -/
theorem C10_counterexample :
    OpenRestaurant 5 0 ≠ none ∧
    (session 5 0 [Call.add orderA, Call.get]).map Prod.snd
      = some [Event.accepted storedA 1, Event.taken storedA] ∧
    OpenRestaurant 0 0 ≠ none ∧ OpenRestaurant (-1) 5 ≠ none := by
  decide

/-- C10 (construction, amended).  `OpenRestaurant` tests nothing: for all
arguments, non-positive ones included, it returns an empty queue whose
`max_size` and `expected_num_orders` are the arguments as given (never
clamped), with `current_size = 0`, `orders_handled = 0` and
`next_order_number = 1`. -/
theorem C10_open_restaurant (max_size expected_num_orders : Int) :
    OpenRestaurant max_size expected_num_orders =
      some { orders := []
             current_size := 0
             max_size := max_size
             next_order_number := 1
             orders_handled := 0
             expected_num_orders := expected_num_orders } := by
  rfl

/-- C11 (effect and frame of submit).  An accepted `AddOrder` stores the order
with `order_number` set to the old `next_order_number` (all other fields of
the order as handed in) and returns that number; `next_order_number` and
`current_size` grow by exactly 1; the order becomes the last pending one, the
earlier pending orders staying as they were and in their order;
`orders_handled`, `expected_num_orders` and `max_size` do not change.  Such a
call is accepted exactly when `current_size < max_size`. -/
theorem C11_submit_effect (bcb bcb1 : BENSCHILLIBOWL) (order stored : Order) (ret : Int)
    (hadd : AddOrder bcb order = some (bcb1, stored, ret)) :
    stored.order_number = bcb.next_order_number ∧ ret = bcb.next_order_number ∧
    stored.menu_item = order.menu_item ∧ stored.customer_id = order.customer_id ∧
    bcb1.next_order_number = bcb.next_order_number + 1 ∧
    bcb1.current_size = bcb.current_size + 1 ∧
    bcb1.orders = bcb.orders ++ [stored] ∧
    bcb1.orders.getLast? = some stored ∧
    bcb1.orders.take bcb.orders.length = bcb.orders ∧
    bcb1.orders_handled = bcb.orders_handled ∧
    bcb1.expected_num_orders = bcb.expected_num_orders ∧
    bcb1.max_size = bcb.max_size ∧
    bcb.current_size < bcb.max_size ∧
    (∀ other : Order, bcb.current_size < bcb.max_size → (AddOrder bcb other).isSome) := by
  rw [AddOrder_eq_some] at hadd
  obtain ⟨hlt, rfl, rfl, rfl⟩ := hadd
  refine ⟨rfl, rfl, rfl, rfl, rfl, rfl, rfl, by simp, by simp, rfl, rfl, rfl, hlt, ?_⟩
  intro other _
  rw [Option.isSome_iff_exists]
  exact ⟨_, (AddOrder_eq_some bcb _ other _ _).2 ⟨hlt, rfl, rfl, rfl⟩⟩

/-- Witness for C11: a third order submitted to the queue holding B. -/
theorem C11_submit_effect_witness :
    AddOrder demoState (orderOf 7) = some (demoAfterAdd, { orderOf 7 with order_number := 3 }, 3) ∧
    (({ orderOf 7 with order_number := 3 } : Order).order_number = demoState.next_order_number ∧
    (3 : Int) = demoState.next_order_number ∧
    ({ orderOf 7 with order_number := 3 } : Order).menu_item = (orderOf 7).menu_item ∧
    ({ orderOf 7 with order_number := 3 } : Order).customer_id = (orderOf 7).customer_id ∧
    demoAfterAdd.next_order_number = demoState.next_order_number + 1 ∧
    demoAfterAdd.current_size = demoState.current_size + 1 ∧
    demoAfterAdd.orders = demoState.orders ++ [{ orderOf 7 with order_number := 3 }] ∧
    demoAfterAdd.orders.getLast? = some { orderOf 7 with order_number := 3 } ∧
    demoAfterAdd.orders.take demoState.orders.length = demoState.orders ∧
    demoAfterAdd.orders_handled = demoState.orders_handled ∧
    demoAfterAdd.expected_num_orders = demoState.expected_num_orders ∧
    demoAfterAdd.max_size = demoState.max_size ∧
    demoState.current_size < demoState.max_size ∧
    (∀ other : Order, demoState.current_size < demoState.max_size →
      (AddOrder demoState other).isSome)) :=
  ⟨by decide,
    C11_submit_effect demoState demoAfterAdd (orderOf 7) { orderOf 7 with order_number := 3 } 3
      (by decide)⟩

/-- C12 (effect of a successful take).  In every state reached by completed
calls on an opened queue in which some order is pending, `GetOrder` completes
and returns the order at the front of the pending list; the new pending list
is the old one without its first element, `orders_handled` grows by exactly 1,
`current_size` shrinks by exactly 1, and `next_order_number`,
`expected_num_orders` and `max_size` do not change. -/
theorem C12_take_effect (max_size expected_num_orders : Int) (cs : List Call)
    (bcb : BENSCHILLIBOWL) (evs : List Event) (front : Order) (rest : List Order)
    (hs : session max_size expected_num_orders cs = some (bcb, evs))
    (hpending : bcb.orders = front :: rest) :
    ∃ bcb1, GetOrder bcb = some (bcb1, some front) ∧
      bcb1.orders = rest ∧ bcb1.orders = bcb.orders.tail ∧
      bcb1.orders_handled = bcb.orders_handled + 1 ∧
      bcb1.current_size = bcb.current_size - 1 ∧
      bcb1.next_order_number = bcb.next_order_number ∧
      bcb1.expected_num_orders = bcb.expected_num_orders ∧
      bcb1.max_size = bcb.max_size := by
  obtain ⟨hinv, -, -⟩ := session_inv max_size expected_num_orders cs bcb evs hs
  have hsz := hinv.size_eq
  rw [hpending] at hsz
  simp only [List.length_cons, Nat.cast_add, Nat.cast_one] at hsz
  refine ⟨_, (GetOrder_eq_order bcb _ front).2 ⟨by omega, by rw [hpending]; rfl, rfl⟩,
    ?_, rfl, rfl, rfl, rfl, rfl, rfl⟩
  show bcb.orders.tail = rest
  rw [hpending]
  rfl

/-- Witness for C12: A and B submitted, A taken; B is at the front. -/
theorem C12_take_effect_witness :
    session 2 2 demoCalls = some (demoState, demoEvents) ∧
    demoState.orders = storedB :: [] ∧
    (∃ bcb1, GetOrder demoState = some (bcb1, some storedB) ∧
      bcb1.orders = [] ∧ bcb1.orders = demoState.orders.tail ∧
      bcb1.orders_handled = demoState.orders_handled + 1 ∧
      bcb1.current_size = demoState.current_size - 1 ∧
      bcb1.next_order_number = demoState.next_order_number ∧
      bcb1.expected_num_orders = demoState.expected_num_orders ∧
      bcb1.max_size = demoState.max_size) :=
  ⟨by decide, by decide,
    C12_take_effect 2 2 demoCalls demoState demoEvents storedB [] (by decide) (by decide)⟩

/-- C13, the claim as stated fails: on a queue of capacity 2 opened with
`expected_num_orders = 1`, after A and B were submitted and both taken,
`orders_handled` is 2, above `expected_num_orders`. -/
theorem C13_counterexample :
    (session 2 1 [Call.add orderA, Call.add orderB, Call.get, Call.get]).map
        (fun s => (s.1.orders_handled, s.1.expected_num_orders)) = some (2, 1) ∧
    ¬ ((2 : Int) ≤ 1) := by
  decide

/-- C13 (handled count, amended).  In every state reached by completed calls on
an opened queue, `orders_handled` is the number of orders `GetOrder` has
returned, it is at least 0 and at most the number of orders accepted so far;
so `orders_handled <= expected_num_orders` holds as long as no more than
`expected_num_orders` orders have been accepted. -/
theorem C13_handled_bound (max_size expected_num_orders : Int) (cs : List Call)
    (bcb : BENSCHILLIBOWL) (evs : List Event)
    (hs : session max_size expected_num_orders cs = some (bcb, evs)) :
    bcb.orders_handled = (takenOrders evs).length ∧
    0 ≤ bcb.orders_handled ∧
    bcb.orders_handled ≤ (acceptedOrders evs).length ∧
    (((acceptedOrders evs).length : Int) ≤ expected_num_orders →
      bcb.orders_handled ≤ bcb.expected_num_orders) := by
  obtain ⟨hinv, -, he⟩ := session_inv max_size expected_num_orders cs bcb evs hs
  have h1 := hinv.handled_eq
  have h2 := congrArg List.length hinv.conserve
  rw [List.length_append] at h2
  refine ⟨h1, by omega, by omega, ?_⟩
  intro h3
  omega

/-- Witness for C13: A and B submitted, A taken, two orders expected. -/
theorem C13_handled_bound_witness :
    session 2 2 demoCalls = some (demoState, demoEvents) ∧
    ((acceptedOrders demoEvents).length : Int) ≤ 2 ∧
    (demoState.orders_handled = (takenOrders demoEvents).length ∧
    0 ≤ demoState.orders_handled ∧
    demoState.orders_handled ≤ (acceptedOrders demoEvents).length ∧
    (((acceptedOrders demoEvents).length : Int) ≤ 2 →
      demoState.orders_handled ≤ demoState.expected_num_orders)) :=
  ⟨by decide, by decide, C13_handled_bound 2 2 demoCalls demoState demoEvents (by decide)⟩

/-- C14 (close).  `CloseRestaurant` prints the accounting warning exactly when
`orders_handled != expected_num_orders` (the warning then shows both numbers),
and in either case its clean-up loop runs to the end: it releases every order
still pending, one `free` per order, and leaves the pending list empty. -/
theorem C14_close (bcb : BENSCHILLIBOWL) :
    ((CloseRestaurant bcb).warning ≠ none ↔
      bcb.orders_handled ≠ bcb.expected_num_orders) ∧
    (bcb.orders_handled ≠ bcb.expected_num_orders →
      (CloseRestaurant bcb).warning = some (bcb.expected_num_orders, bcb.orders_handled)) ∧
    (bcb.orders_handled = bcb.expected_num_orders → (CloseRestaurant bcb).warning = none) ∧
    (CloseRestaurant bcb).released = bcb.orders.length ∧
    releaseLoop bcb.orders = ([], bcb.orders) := by
  have hfree : ∀ l : List Order, freeRemaining l = l.length := by
    intro l
    induction l with
    | nil => rfl
    | cons o next ih => simp [freeRemaining, ih]
  have hloop : ∀ l : List Order, releaseLoop l = ([], l) := by
    intro l
    induction l with
    | nil => rfl
    | cons o next ih => simp [releaseLoop, ih]
  by_cases h : bcb.orders_handled = bcb.expected_num_orders
  · simp [CloseRestaurant, h, hfree, hloop]
  · simp [CloseRestaurant, h, hfree, hloop]

/-- C27 (end of work is not final).  On a queue of capacity 2 expecting one
order: A is submitted and taken, a further `GetOrder` returns `NULL`, and then
B is still accepted, so two orders have been submitted where one was expected.
B stays pending: a consumer that stopped at `NULL` never gets it, while a later
`GetOrder` returns B as a real order. -/
theorem C27_end_of_work_not_final :
    session 2 1 [Call.add orderA, Call.get, Call.get] =
      some (drainedState,
        [Event.accepted storedA 1, Event.taken storedA, Event.endOfWork]) ∧
    GetOrder drainedState = some (drainedState, none) ∧
    AddOrder drainedState orderB =
      some ({ drainedState with
              orders := [storedB], current_size := 1, next_order_number := 3 },
        storedB, 2) ∧
    session 2 1 [Call.add orderA, Call.get, Call.get, Call.add orderB] =
      some ({ drainedState with
              orders := [storedB], current_size := 1, next_order_number := 3 },
        [Event.accepted storedA 1, Event.taken storedA, Event.endOfWork,
          Event.accepted storedB 2]) ∧
    ((acceptedOrders [Event.accepted storedA 1, Event.taken storedA, Event.endOfWork,
        Event.accepted storedB 2]).length : Int) > 1 ∧
    GetOrder { drainedState with
        orders := [storedB], current_size := 1, next_order_number := 3 } =
      some ({ drainedState with
              orders := [], current_size := 0, next_order_number := 3, orders_handled := 2 },
        some storedB) := by
  decide

/-! ### Signals and the mutex -/

theorem callActionsFrom_append (turn : BENSCHILLIBOWL → List Action × Bool)
    (l1 l2 : List BENSCHILLIBOWL) :
    callActionsFrom turn (l1 ++ l2) = callActionsFrom turn l1 ++ callActionsFrom turn l2 := by
  induction l1 with
  | nil => rfl
  | cons b rest ih => simp [callActionsFrom, ih]

theorem AddOrderTurn_wait (bcb : BENSCHILLIBOWL) (h : (AddOrderTurn bcb).2 = false) :
    (AddOrderTurn bcb).1 = [Action.queue, Action.wait Cond.can_add_orders] := by
  by_cases hf : IsFull bcb = true
  · simp only [AddOrderTurn, hf, if_true]
  · simp [AddOrderTurn, hf] at h

theorem AddOrderTurn_return (bcb : BENSCHILLIBOWL) (h : (AddOrderTurn bcb).2 = true) :
    (AddOrder bcb orderA).isSome = true ∧
    (AddOrderTurn bcb).1 =
      [Action.queue, Action.queue, Action.order, Action.queue, Action.order, Action.queue,
        Action.queue, Action.queue, Action.signal Cond.can_get_orders, Action.unlock,
        Action.order] := by
  by_cases hf : IsFull bcb = true
  · simp [AddOrderTurn, hf] at h
  · refine ⟨?_, ?_⟩
    · simp [AddOrder, hf]
    · simp only [AddOrderTurn, hf]
      rfl

theorem GetOrderTurn_wait (bcb : BENSCHILLIBOWL) (h : (GetOrderTurn bcb).2 = false) :
    (GetOrderTurn bcb).1 = [Action.queue, Action.queue, Action.wait Cond.can_get_orders] := by
  by_cases he : IsEmpty bcb = true
  · by_cases hh : bcb.orders_handled ≥ bcb.expected_num_orders
    · simp [GetOrderTurn, he, hh] at h
    · simp only [GetOrderTurn, he, hh, if_true, if_false]
  · cases hq : bcb.orders <;> simp [GetOrderTurn, he, hq] at h

theorem GetOrderTurn_return (bcb : BENSCHILLIBOWL) (h : (GetOrderTurn bcb).2 = true) :
    ((∃ bcb1, GetOrder bcb = some (bcb1, none)) ∧
      (GetOrderTurn bcb).1 =
        [Action.queue, Action.queue, Action.broadcast Cond.can_get_orders, Action.unlock]) ∨
    ((∃ bcb1 o, GetOrder bcb = some (bcb1, some o)) ∧
      (GetOrderTurn bcb).1 =
        [Action.queue, Action.queue, Action.queue, Action.queue, Action.queue, Action.queue,
          Action.signal Cond.can_add_orders, Action.unlock]) := by
  by_cases he : IsEmpty bcb = true
  · by_cases hh : bcb.orders_handled ≥ bcb.expected_num_orders
    · left
      refine ⟨⟨bcb, ?_⟩, ?_⟩
      · simp [GetOrder, he, hh]
      · simp only [GetOrderTurn, he, hh, if_true]
    · simp [GetOrderTurn, he, hh] at h
  · cases hq : bcb.orders with
    | nil =>
      left
      refine ⟨⟨bcb, ?_⟩, ?_⟩
      · simp [GetOrder, he, hq]
      · simp only [GetOrderTurn, he, hq]
        rfl
    | cons o rest =>
      right
      refine ⟨?_, ?_⟩
      · simp [GetOrder, he, hq]
      · simp only [GetOrderTurn, he, hq]
        rfl

theorem waits_scan (turn : BENSCHILLIBOWL → List Action × Bool) (waits : List BENSCHILLIBOWL)
    (hw : ∀ w ∈ waits, ∀ a ∈ (turn w).1, a = Action.queue ∨ ∃ cv, a = Action.wait cv)
    (rest : List Action) :
    lockDiscipline true (callActionsFrom turn waits ++ rest) = lockDiscipline true rest ∧
    heldAfter true (callActionsFrom turn waits ++ rest) = heldAfter true rest ∧
    ∀ a : Action, a ≠ Action.queue → (∀ cv, a ≠ Action.wait cv) →
      (callActionsFrom turn waits ++ rest).count a = rest.count a := by
  have seg : ∀ (l : List Action),
      (∀ a ∈ l, a = Action.queue ∨ ∃ cv, a = Action.wait cv) → ∀ rest0 : List Action,
      lockDiscipline true (l ++ rest0) = lockDiscipline true rest0 ∧
      heldAfter true (l ++ rest0) = heldAfter true rest0 ∧
      ∀ a : Action, a ≠ Action.queue → (∀ cv, a ≠ Action.wait cv) →
        (l ++ rest0).count a = rest0.count a := by
    intro l
    induction l with
    | nil => exact fun _ _ => ⟨rfl, rfl, fun _ _ _ => rfl⟩
    | cons x xs ih =>
      intro hl rest0
      obtain ⟨i1, i2, i3⟩ := ih (fun a ha => hl a (List.mem_cons_of_mem _ ha)) rest0
      rcases hl x (List.mem_cons_self _ _) with rfl | ⟨cv, rfl⟩
      · refine ⟨by simp [lockDiscipline, i1], by simp [heldAfter, i2], ?_⟩
        intro a h1 h2
        rw [List.cons_append, List.count_cons_of_ne h1]
        exact i3 a h1 h2
      · refine ⟨by simp [lockDiscipline, i1], by simp [heldAfter, i2], ?_⟩
        intro a h1 h2
        rw [List.cons_append, List.count_cons_of_ne (h2 cv)]
        exact i3 a h1 h2
  induction waits generalizing rest with
  | nil => exact ⟨rfl, rfl, fun _ _ _ => rfl⟩
  | cons w ws ih =>
    obtain ⟨j1, j2, j3⟩ := ih (fun w2 hw2 => hw w2 (List.mem_cons_of_mem _ hw2)) rest
    obtain ⟨k1, k2, k3⟩ := seg (turn w).1 (hw w (List.mem_cons_self _ _))
      (callActionsFrom turn ws ++ rest)
    simp only [callActionsFrom, List.append_assoc]
    exact ⟨k1.trans j1, k2.trans j2, fun a h1 h2 => (k3 a h1 h2).trans (j3 a h1 h2)⟩

theorem AddOrder_waits (waits : List BENSCHILLIBOWL)
    (h : ∀ w ∈ waits, (AddOrderTurn w).2 = false) :
    ∀ w ∈ waits, ∀ a ∈ (AddOrderTurn w).1, a = Action.queue ∨ ∃ cv, a = Action.wait cv := by
  intro w hw a ha
  rw [AddOrderTurn_wait w (h w hw)] at ha
  simp only [List.mem_cons, List.mem_singleton, List.not_mem_nil, or_false] at ha
  rcases ha with rfl | rfl
  · exact Or.inl rfl
  · exact Or.inr ⟨_, rfl⟩

theorem GetOrder_waits (waits : List BENSCHILLIBOWL)
    (h : ∀ w ∈ waits, (GetOrderTurn w).2 = false) :
    ∀ w ∈ waits, ∀ a ∈ (GetOrderTurn w).1, a = Action.queue ∨ ∃ cv, a = Action.wait cv := by
  intro w hw a ha
  rw [GetOrderTurn_wait w (h w hw)] at ha
  simp only [List.mem_cons, List.mem_singleton, List.not_mem_nil, or_false] at ha
  rcases ha with rfl | rfl | rfl
  · exact Or.inl rfl
  · exact Or.inl rfl
  · exact Or.inr ⟨_, rfl⟩

/-- C28 (wake policy).  For every call that returns, whatever states it found at
its loop tests: an accepted `AddOrder` issues exactly one signal on
`can_get_orders` (and no other signal or broadcast); a `GetOrder` that returns
an order issues exactly one signal on `can_add_orders` and no broadcast; a
`GetOrder` that returns `NULL`, from the wait loop or from the safety check,
issues exactly one broadcast on `can_get_orders`, and that broadcast is
directly followed by the only unlock of the call. -/
theorem C28_wake_policy (seen : List BENSCHILLIBOWL) :
    (Returns AddOrderTurn seen →
      (callActions AddOrderTurn seen).count (Action.signal Cond.can_get_orders) = 1 ∧
      (callActions AddOrderTurn seen).count (Action.signal Cond.can_add_orders) = 0 ∧
      ∀ cv, (callActions AddOrderTurn seen).count (Action.broadcast cv) = 0) ∧
    (Returns GetOrderTurn seen →
      ∃ last, seen.getLast? = some last ∧
        ((∃ bcb1 o, GetOrder last = some (bcb1, some o)) ∧
          (callActions GetOrderTurn seen).count (Action.signal Cond.can_add_orders) = 1 ∧
          (callActions GetOrderTurn seen).count (Action.signal Cond.can_get_orders) = 0 ∧
          (∀ cv, (callActions GetOrderTurn seen).count (Action.broadcast cv) = 0) ∨
         (∃ bcb1, GetOrder last = some (bcb1, none)) ∧
          (callActions GetOrderTurn seen).count (Action.broadcast Cond.can_get_orders) = 1 ∧
          (∀ cv, (callActions GetOrderTurn seen).count (Action.signal cv) = 0) ∧
          ∃ pre, callActions GetOrderTurn seen =
              pre ++ [Action.broadcast Cond.can_get_orders, Action.unlock] ∧
            pre.count Action.unlock = 0)) := by
  constructor
  · rintro ⟨waits, last, rfl, hw, hl⟩
    obtain ⟨-, -, hc⟩ := waits_scan AddOrderTurn waits (AddOrder_waits waits hw)
      (AddOrderTurn last).1
    obtain ⟨-, hacts⟩ := AddOrderTurn_return last hl
    have hcall : callActions AddOrderTurn (waits ++ [last]) =
        Action.lock :: (callActionsFrom AddOrderTurn waits ++ (AddOrderTurn last).1) := by
      simp [callActions, callActionsFrom_append, callActionsFrom]
    rw [hcall]
    refine ⟨?_, ?_, fun cv => ?_⟩
    · rw [List.count_cons_of_ne (by decide), hc _ (by decide) (by intro cv; cases cv <;> decide),
        hacts]
      decide
    · rw [List.count_cons_of_ne (by decide), hc _ (by decide) (by intro cv; cases cv <;> decide),
        hacts]
      decide
    · rw [List.count_cons_of_ne (by cases cv <;> decide),
        hc _ (by cases cv <;> decide) (by intro c2; cases cv <;> cases c2 <;> decide), hacts]
      cases cv <;> decide
  · rintro ⟨waits, last, rfl, hw, hl⟩
    obtain ⟨-, -, hc⟩ := waits_scan GetOrderTurn waits (GetOrder_waits waits hw)
      (GetOrderTurn last).1
    have hcall : callActions GetOrderTurn (waits ++ [last]) =
        Action.lock :: (callActionsFrom GetOrderTurn waits ++ (GetOrderTurn last).1) := by
      simp [callActions, callActionsFrom_append, callActionsFrom]
    refine ⟨last, by simp, ?_⟩
    rw [hcall]
    rcases GetOrderTurn_return last hl with ⟨hnull, hacts⟩ | ⟨hord, hacts⟩
    · right
      refine ⟨hnull, ?_, fun cv => ?_, ?_⟩
      · rw [List.count_cons_of_ne (by decide),
          hc _ (by decide) (by intro cv; cases cv <;> decide), hacts]
        decide
      · rw [List.count_cons_of_ne (by cases cv <;> decide),
          hc _ (by cases cv <;> decide) (by intro c2; cases cv <;> cases c2 <;> decide), hacts]
        cases cv <;> decide
      · refine ⟨Action.lock :: (callActionsFrom GetOrderTurn waits ++
          [Action.queue, Action.queue]), ?_, ?_⟩
        · rw [hacts]
          simp
        · rw [List.count_cons_of_ne (by decide),
            (waits_scan GetOrderTurn waits (GetOrder_waits waits hw)
              [Action.queue, Action.queue]).2.2 _ (by decide) (by intro cv; cases cv <;> decide)]
          decide
    · left
      refine ⟨hord, ?_, ?_, fun cv => ?_⟩
      · rw [List.count_cons_of_ne (by decide),
          hc _ (by decide) (by intro cv; cases cv <;> decide), hacts]
        decide
      · rw [List.count_cons_of_ne (by decide),
          hc _ (by decide) (by intro cv; cases cv <;> decide), hacts]
        decide
      · rw [List.count_cons_of_ne (by cases cv <;> decide),
          hc _ (by cases cv <;> decide) (by intro c2; cases cv <;> cases c2 <;> decide), hacts]
        cases cv <;> decide

theorem C28_wake_policy_witness :
    Returns AddOrderTurn [fullState, roomState] ∧
    (callActions AddOrderTurn [fullState, roomState]).count
      (Action.signal Cond.can_get_orders) = 1 ∧
    Returns GetOrderTurn [openedState, drainedState] ∧
    GetOrder drainedState = some (drainedState, none) ∧
    ∃ last, [openedState, drainedState].getLast? = some last ∧
      ((∃ bcb1 o, GetOrder last = some (bcb1, some o)) ∧
        (callActions GetOrderTurn [openedState, drainedState]).count
          (Action.signal Cond.can_add_orders) = 1 ∧
        (callActions GetOrderTurn [openedState, drainedState]).count
          (Action.signal Cond.can_get_orders) = 0 ∧
        (∀ cv, (callActions GetOrderTurn [openedState, drainedState]).count
          (Action.broadcast cv) = 0) ∨
       (∃ bcb1, GetOrder last = some (bcb1, none)) ∧
        (callActions GetOrderTurn [openedState, drainedState]).count
          (Action.broadcast Cond.can_get_orders) = 1 ∧
        (∀ cv, (callActions GetOrderTurn [openedState, drainedState]).count
          (Action.signal cv) = 0) ∧
        ∃ pre, callActions GetOrderTurn [openedState, drainedState] =
            pre ++ [Action.broadcast Cond.can_get_orders, Action.unlock] ∧
          pre.count Action.unlock = 0) :=
  have hA : Returns AddOrderTurn [fullState, roomState] :=
    ⟨[fullState], roomState, rfl, by decide, by decide⟩
  have hG : Returns GetOrderTurn [openedState, drainedState] :=
    ⟨[openedState], drainedState, rfl, by decide, by decide⟩
  ⟨hA, ((C28_wake_policy [fullState, roomState]).1 hA).1, hG, by decide,
    (C28_wake_policy [openedState, drainedState]).2 hG⟩

/-- C30 (the submitted order is read after the unlock).  In every state, a turn
of `AddOrder` either waits or ends with `pthread_mutex_unlock` directly followed
by a read of the order (`return order->order_number`); a call that waited on a
full queue and then found room ends in the same two statements, and the order
it appended is the one a `GetOrder` running right after the unlock hands to a
cook. -/
theorem C30_order_read_after_unlock :
    (∀ bcb : BENSCHILLIBOWL, (AddOrderTurn bcb).2 = false ∨
      ∃ pre, (AddOrderTurn bcb).1 = pre ++ [Action.unlock, Action.order]) ∧
    callActions AddOrderTurn [fullState, roomState] =
      [Action.lock, Action.queue, Action.wait Cond.can_add_orders,
        Action.queue, Action.queue, Action.order, Action.queue, Action.order, Action.queue,
        Action.queue, Action.queue, Action.signal Cond.can_get_orders, Action.unlock,
        Action.order] ∧
    (AddOrder roomState orderB).bind (fun r => (GetOrder r.1).map (fun g => (g.2, r.2.1))) =
      some (some { orderB with order_number := 2 }, { orderB with order_number := 2 }) := by
  refine ⟨fun bcb => ?_, by decide, by decide⟩
  cases h : (AddOrderTurn bcb).2 with
  | false => exact Or.inl rfl
  | true =>
    right
    rw [(AddOrderTurn_return bcb h).2]
    exact ⟨[Action.queue, Action.queue, Action.order, Action.queue, Action.order, Action.queue,
      Action.queue, Action.queue, Action.signal Cond.can_get_orders], rfl⟩

end BensChilliBowl

namespace SchedSim

/-! ### First come, first served -/

theorem sjfLoop_stuck_step (fuel : Nat) (t : Int) (ht : 0 ≤ t) :
    sjfLoop 1 (fuel + 1) (stuckState t) = sjfLoop 1 fuel (stuckState (t + 1)) := by
  have hsel : sjfSelect (stuckState t) 1 = (INT_MAX, -1) := by
    simp [sjfSelect, sjfSelectStep, stuckState, sjfInit, proc, INT_MAX, List.range_succ]
  have hnext : sjfNextArrival (stuckState t) 1 = INT_MAX := by
    have h : ¬ (0 : Int) > t := by omega
    simp [sjfNextArrival, sjfNextStep, stuckState, sjfInit, proc, List.range_succ, h]
  have hcount : (stuckState t).completed_count < ((1 : Nat) : Int) := by
    simp [stuckState, sjfInit]
  rw [sjfLoop]
  simp only [hcount, if_true, hsel, hnext, ne_eq, not_true_eq_false, if_false]
  rfl

theorem sjfLoop_stuck (fuel : Nat) (t : Int) (ht : 0 ≤ t) :
    sjfLoop 1 fuel (stuckState t) = none := by
  induction fuel generalizing t with
  | zero => rfl
  | succ fuel ih =>
    rw [sjfLoop_stuck_step fuel t ht]
    exact ih (t + 1) (by omega)

/-- C16, the code breaks the claim: for the single process with burst time
`INT_MAX` (which is `>= 1`) arriving at time 0, the selection loop of
`findWaitingTimeSJF` never selects the process (`rem_bt[0] < INT_MAX` is
false), no later arrival exists, and the loop only advances `current_time` by
one, for ever: whatever the fuel, the function does not finish, and the process
is never completed.  On an ordinary input (the three sample processes) the
function finishes, with waiting times 3, 0, 0. -/
theorem C16_srtf_never_completes :
    (1 : Int) ≤ (proc 1 INT_MAX 0).bt ∧ (0 : Int) ≤ (proc 1 INT_MAX 0).art ∧
    sjfSelect (sjfInit [proc 1 INT_MAX 0]) 1 = (INT_MAX, -1) ∧
    sjfNextArrival (sjfInit [proc 1 INT_MAX 0]) 1 = INT_MAX ∧
    (∀ fuel, findWaitingTimeSJF [proc 1 INT_MAX 0] fuel = none) ∧
    (findWaitingTimeSJF sampleProcs 40).map
        (fun s => (s.plist.map (fun p => p.wt), s.rem_bt, s.completed, s.current_time))
      = some ([3, 0, 0], [0, 0, 0], [true, true, true], 28) := by
  refine ⟨by decide, by decide, by decide, by decide, ?_, by decide⟩
  intro fuel
  exact sjfLoop_stuck fuel 0 (le_refl 0)

/-! ### Round robin -/

theorem getD_set_eq {α : Type} (l : List α) (i : Nat) (v d : α) (hi : i < l.length) :
    (l.set i v).getD i d = v := by
  rw [List.getD_eq_getElem?_getD, List.getElem?_set_self (by simpa using hi)]
  rfl

theorem getD_set_ne {α : Type} (l : List α) (i k : Nat) (v d : α) (h : i ≠ k) :
    (l.set i v).getD k d = l.getD k d := by
  rw [List.getD_eq_getElem?_getD, List.getD_eq_getElem?_getD, List.getElem?_set_ne h]

theorem sum_set_getD (l : List Int) (i : Nat) (v : Int) (hi : i < l.length) :
    (l.set i v).sum = l.sum - l.getD i 0 + v := by
  induction l generalizing i with
  | nil => simp at hi
  | cons a rest ih =>
    cases i with
    | zero =>
      simp only [List.set_cons_zero, List.sum_cons, List.getD_cons_zero]
      omega
    | succ i =>
      have hi2 : i < rest.length := by
        simp only [List.length_cons] at hi
        omega
      simp only [List.set_cons_succ, List.sum_cons, List.getD_cons_succ, ih i hi2]
      omega

theorem sum_nonneg_getD (l : List Int) (h : ∀ k, k < l.length → 0 ≤ l.getD k 0) :
    0 ≤ l.sum := by
  induction l with
  | nil => simp
  | cons a rest ih =>
    have h0 := h 0 (by simp)
    have hrest : ∀ k, k < rest.length → 0 ≤ rest.getD k 0 := by
      intro k hk
      have := h (k + 1) (by simp only [List.length_cons]; omega)
      simpa using this
    have := ih hrest
    simp only [List.getD_cons_zero] at h0
    simp only [List.sum_cons]
    omega

theorem executed_append (k : Nat) (l1 l2 : List Slice) :
    executed k (l1 ++ l2) = executed k l1 + executed k l2 := by
  induction l1 with
  | nil => simp [executed]
  | cons sl rest ih =>
    simp only [List.cons_append, executed, List.append_eq, ih]
    omega

theorem lastFinish_append_single (k : Nat) (l : List Slice) (sl : Slice) :
    lastFinish k (l ++ [sl]) = if sl.index = k then some sl.finish else lastFinish k l := by
  induction l with
  | nil =>
    simp only [List.nil_append, lastFinish]
  | cons a rest ih =>
    by_cases h : sl.index = k
    · simp only [h, if_true] at ih
      simp only [List.cons_append, lastFinish, List.append_eq, ih, h, if_true]
    · simp only [h, if_false] at ih
      simp only [List.cons_append, lastFinish, List.append_eq, ih, h, if_false]

theorem RRInv_run (P : List ProcessType) (s : RRState) (i : Nat) (d : Int)
    (pl : List ProcessType) (b : Bool) (h : RRInv P s) (hi : i < P.length)
    (hd1 : 1 ≤ d) (hd2 : d ≤ s.rem_bt.getD i 0) (harr : (P.getD i default).art ≤ s.t)
    (hlen : pl.length = P.length)
    (hframe : ∀ k, k < P.length →
      pl.getD k default = { P.getD k default with wt := (pl.getD k default).wt })
    (hother : ∀ k, i ≠ k → (pl.getD k default).wt = (s.plist.getD k default).wt)
    (hwt : s.rem_bt.getD i 0 - d = 0 →
      (pl.getD i default).wt = s.t + d - (P.getD i default).art - (P.getD i default).bt) :
    RRInv P
      { plist := pl
        rem_bt := s.rem_bt.set i (s.rem_bt.getD i 0 - d)
        t := s.t + d
        done := b
        log := s.log ++ [{ index := i, start := s.t, finish := s.t + d }] } := by
  have hir : i < s.rem_bt.length := by rw [h.len_r]; exact hi
  have hlo := h.rem_lo i hi
  have hhi := h.rem_hi i hi
  have hst := h.started i hi
  refine ⟨hlen, by simp [h.len_r], hframe, ?_, ?_, ?_, ?_, ?_, ?_, ?_⟩
  · intro k hk
    show 0 ≤ (s.rem_bt.set i (s.rem_bt.getD i 0 - d)).getD k 0
    by_cases hik : i = k
    · subst hik
      rw [getD_set_eq _ _ _ _ hir]
      omega
    · rw [getD_set_ne _ _ _ _ _ hik]
      exact h.rem_lo k hk
  · intro k hk
    show (s.rem_bt.set i (s.rem_bt.getD i 0 - d)).getD k 0 ≤ _
    by_cases hik : i = k
    · subst hik
      rw [getD_set_eq _ _ _ _ hir]
      omega
    · rw [getD_set_ne _ _ _ _ _ hik]
      exact h.rem_hi k hk
  · intro k hk
    show executed k (s.log ++ [{ index := i, start := s.t, finish := s.t + d }])
      = _ - (s.rem_bt.set i (s.rem_bt.getD i 0 - d)).getD k 0
    have he := h.exec k hk
    rw [executed_append]
    by_cases hik : i = k
    · subst hik
      rw [getD_set_eq _ _ _ _ hir]
      simp only [executed, if_true]
      omega
    · rw [getD_set_ne _ _ _ _ _ hik]
      simp only [executed, hik, if_false]
      omega
  · intro k hk
    show (s.rem_bt.set i (s.rem_bt.getD i 0 - d)).getD k 0 < _ →
      _ + (_ - (s.rem_bt.set i (s.rem_bt.getD i 0 - d)).getD k 0) ≤ s.t + d
    by_cases hik : i = k
    · subst hik
      rw [getD_set_eq _ _ _ _ hir]
      intro _
      by_cases hfull : s.rem_bt.getD i 0 < (P.getD i default).bt
      · have := hst hfull
        omega
      · omega
    · rw [getD_set_ne _ _ _ _ _ hik]
      intro hlt
      have := h.started k hk hlt
      omega
  · intro k hk
    show (s.rem_bt.set i (s.rem_bt.getD i 0 - d)).getD k 0 = 0 →
      ∃ C, lastFinish k (s.log ++ [{ index := i, start := s.t, finish := s.t + d }]) = some C ∧
        (pl.getD k default).wt = C - (P.getD k default).art - (P.getD k default).bt ∧
        (P.getD k default).art + (P.getD k default).bt ≤ C
    rw [lastFinish_append_single]
    by_cases hik : i = k
    · subst hik
      rw [getD_set_eq _ _ _ _ hir]
      intro hz
      refine ⟨s.t + d, by simp, hwt hz, ?_⟩
      by_cases hfull : s.rem_bt.getD i 0 < (P.getD i default).bt
      · have := hst hfull
        omega
      · omega
    · rw [getD_set_ne _ _ _ _ _ hik]
      intro hz
      obtain ⟨C, h1, h2, h3⟩ := h.finished k hk hz
      refine ⟨C, by simp only [hik, if_false]; exact h1, ?_, h3⟩
      rw [hother k hik]
      exact h2
  · intro sl hsl
    show _ ∧ _ ∧ _ ∧ sl.finish ≤ s.t + d
    rw [List.mem_append, List.mem_singleton] at hsl
    rcases hsl with hsl | rfl
    · obtain ⟨h1, h2, h3, h4⟩ := h.slices sl hsl
      exact ⟨h1, h2, h3, by omega⟩
    · exact ⟨hi, harr, by show s.t < s.t + d; omega, le_refl _⟩
  · show List.Pairwise (fun a b => a.finish ≤ b.start)
      (s.log ++ [({ index := i, start := s.t, finish := s.t + d } : Slice)])
    rw [List.pairwise_append]
    refine ⟨h.chrono, List.pairwise_singleton _ _, ?_⟩
    intro a ha b0 hb
    rw [List.mem_singleton] at hb
    subst hb
    exact (h.slices a ha).2.2.2

theorem rrStep_of_not (quantum : Int) (s : RRState) (i : Nat)
    (h : ¬ (s.rem_bt.getD i 0 > 0 ∧ (s.plist.getD i default).art ≤ s.t)) :
    rrStepExact quantum s i = s := by
  simp only [rrStepExact, h, if_false]

theorem rrStep_done (quantum : Int) (s : RRState) (i : Nat)
    (h : s.rem_bt.getD i 0 > 0 ∧ (s.plist.getD i default).art ≤ s.t) :
    (rrStepExact quantum s i).done = false := by
  simp only [rrStepExact, h, and_self, if_true]
  split_ifs <;> rfl

theorem rrStep_done_sticky (quantum : Int) (s : RRState) (i : Nat) (h : s.done = false) :
    (rrStepExact quantum s i).done = false := by
  by_cases hc : s.rem_bt.getD i 0 > 0 ∧ (s.plist.getD i default).art ≤ s.t
  · exact rrStep_done quantum s i hc
  · rw [rrStep_of_not quantum s i hc]
    exact h

theorem rrStep_sum (quantum : Int) (s : RRState) (i : Nat) (hq : 1 ≤ quantum)
    (hi : i < s.rem_bt.length) :
    (rrStepExact quantum s i).rem_bt.sum ≤ s.rem_bt.sum ∧
    ((s.rem_bt.getD i 0 > 0 ∧ (s.plist.getD i default).art ≤ s.t) →
      (rrStepExact quantum s i).rem_bt.sum ≤ s.rem_bt.sum - 1) := by
  by_cases hc : s.rem_bt.getD i 0 > 0 ∧ (s.plist.getD i default).art ≤ s.t
  · by_cases hgt : s.rem_bt.getD i 0 > quantum
    · have h1 : (rrStepExact quantum s i).rem_bt
          = s.rem_bt.set i (s.rem_bt.getD i 0 - quantum) := by
        simp only [rrStepExact, hc, and_self, if_true, hgt]
      rw [h1, sum_set_getD _ _ _ hi]
      exact ⟨by omega, fun _ => by omega⟩
    · have h1 : (rrStepExact quantum s i).rem_bt = s.rem_bt.set i 0 := by
        simp only [rrStepExact, hc, and_self, if_true, hgt, if_false]
      rw [h1, sum_set_getD _ _ _ hi]
      have := hc.1
      exact ⟨by omega, fun _ => by omega⟩
  · rw [rrStep_of_not quantum s i hc]
    exact ⟨le_refl _, fun h => absurd h hc⟩

theorem rrStep_inv (P : List ProcessType) (quantum : Int) (s : RRState) (i : Nat)
    (hq : 1 ≤ quantum) (hi : i < P.length) (h : RRInv P s) :
    RRInv P (rrStepExact quantum s i) := by
  by_cases hc : s.rem_bt.getD i 0 > 0 ∧ (s.plist.getD i default).art ≤ s.t
  · have hart : (s.plist.getD i default).art = (P.getD i default).art := by
      rw [h.frame i hi]
    have hbt : (s.plist.getD i default).bt = (P.getD i default).bt := by
      rw [h.frame i hi]
    have hip : i < s.plist.length := by rw [h.len_p]; exact hi
    by_cases hgt : s.rem_bt.getD i 0 > quantum
    · have h1 : rrStepExact quantum s i =
          { plist := s.plist
            rem_bt := s.rem_bt.set i (s.rem_bt.getD i 0 - quantum)
            t := s.t + quantum
            done := false
            log := s.log ++ [{ index := i, start := s.t, finish := s.t + quantum }] } := by
        simp only [rrStepExact, hc, and_self, if_true, hgt]
      rw [h1]
      exact RRInv_run P s i quantum s.plist false h hi hq (by omega) (by rw [← hart]; exact hc.2)
        h.len_p h.frame (fun _ _ => rfl) (fun hz => by omega)
    · have h1 : rrStepExact quantum s i =
          { plist := s.plist.set i
              { s.plist.getD i default with
                wt := s.t + s.rem_bt.getD i 0 - (s.plist.getD i default).art
                  - (s.plist.getD i default).bt }
            rem_bt := s.rem_bt.set i (s.rem_bt.getD i 0 - s.rem_bt.getD i 0)
            t := s.t + s.rem_bt.getD i 0
            done := false
            log := s.log ++
              [{ index := i, start := s.t, finish := s.t + s.rem_bt.getD i 0 }] } := by
        simp only [rrStepExact, hc, and_self, if_true, hgt, if_false, sub_self]
      rw [h1]
      refine RRInv_run P s i (s.rem_bt.getD i 0) _ false h hi (by have := hc.1; omega)
        (le_refl _) (by rw [← hart]; exact hc.2) (by simp [h.len_p]) ?_ ?_ ?_
      · intro k hk
        by_cases hik : i = k
        · subst hik
          rw [getD_set_eq _ _ _ _ hip, h.frame i hi]
        · rw [getD_set_ne _ _ _ _ _ hik]
          exact h.frame k hk
      · intro k hik
        rw [getD_set_ne _ _ _ _ _ hik]
      · intro _
        rw [getD_set_eq _ _ _ _ hip, hart, hbt]
  · rw [rrStep_of_not quantum s i hc]
    exact h

theorem rrFold_inv (P : List ProcessType) (quantum : Int) (hq : 1 ≤ quantum)
    (is : List Nat) (his : ∀ i ∈ is, i < P.length) (s : RRState) (h : RRInv P s) :
    RRInv P (is.foldl (rrStepExact quantum) s) ∧
    (is.foldl (rrStepExact quantum) s).rem_bt.sum ≤ s.rem_bt.sum ∧
    ((is.foldl (rrStepExact quantum) s).done = true →
      is.foldl (rrStepExact quantum) s = s ∧
      ∀ i ∈ is, ¬ (s.rem_bt.getD i 0 > 0 ∧ (s.plist.getD i default).art ≤ s.t)) ∧
    ((is.foldl (rrStepExact quantum) s).done = false →
      s.done = false ∨ (is.foldl (rrStepExact quantum) s).rem_bt.sum ≤ s.rem_bt.sum - 1) := by
  induction is generalizing s with
  | nil =>
    refine ⟨h, le_refl _, fun _ => ⟨rfl, fun i hi => absurd hi (List.not_mem_nil i)⟩, ?_⟩
    intro hd
    exact Or.inl hd
  | cons i rest ih =>
    have hi : i < P.length := his i (List.mem_cons_self _ _)
    have hrest : ∀ j ∈ rest, j < P.length := fun j hj => his j (List.mem_cons_of_mem _ hj)
    have hstep := rrStep_inv P quantum s i hq hi h
    have hsum := rrStep_sum quantum s i hq (by rw [h.len_r]; exact hi)
    obtain ⟨h1, h2, h3, h4⟩ := ih hrest (rrStepExact quantum s i) hstep
    simp only [List.foldl_cons]
    refine ⟨h1, le_trans h2 hsum.1, ?_, ?_⟩
    · intro hd
      obtain ⟨heq, hno⟩ := h3 hd
      have hnc : ¬ (s.rem_bt.getD i 0 > 0 ∧ (s.plist.getD i default).art ≤ s.t) := by
        intro hc
        have := rrStep_done quantum s i hc
        rw [heq] at hd
        rw [hd] at this
        exact Bool.noConfusion this
      have hs : rrStepExact quantum s i = s := rrStep_of_not quantum s i hnc
      rw [hs] at hno
      refine ⟨heq.trans hs, ?_⟩
      intro j hj
      rw [List.mem_cons] at hj
      rcases hj with rfl | hj
      · exact hnc
      · exact hno j hj
    · intro hd
      by_cases hc : s.rem_bt.getD i 0 > 0 ∧ (s.plist.getD i default).art ≤ s.t
      · right
        have := hsum.2 hc
        omega
      · have hs : rrStepExact quantum s i = s := rrStep_of_not quantum s i hc
        rcases h4 hd with h5 | h5
        · left
          rw [hs] at h5
          exact h5
        · right
          have h6 : (rrStepExact quantum s i).rem_bt.sum = s.rem_bt.sum := by rw [hs]
          omega

theorem rrMinFold (s : RRState) (is : List Nat) (m0 : Int) :
    is.foldl (rrMinStep s) m0 ≤ m0 ∧
    (∀ i ∈ is, s.rem_bt.getD i 0 > 0 →
      is.foldl (rrMinStep s) m0 ≤ (s.plist.getD i default).art) ∧
    (is.foldl (rrMinStep s) m0 = m0 ∨
      ∃ i ∈ is, s.rem_bt.getD i 0 > 0 ∧
        (s.plist.getD i default).art = is.foldl (rrMinStep s) m0) := by
  induction is generalizing m0 with
  | nil => simp
  | cons i rest ih =>
    simp only [List.foldl_cons]
    obtain ⟨h1, h2, h3⟩ := ih (rrMinStep s m0 i)
    have hstep : rrMinStep s m0 i ≤ m0 := by
      unfold rrMinStep
      split_ifs with hc
      · exact le_of_lt hc.2
      · exact le_refl _
    refine ⟨le_trans h1 hstep, ?_, ?_⟩
    · intro j hj hpos
      rw [List.mem_cons] at hj
      rcases hj with rfl | hj
      · refine le_trans h1 ?_
        unfold rrMinStep
        split_ifs with hc
        · exact le_refl _
        · have : ¬ (s.plist.getD j default).art < m0 := fun hlt => hc ⟨hpos, hlt⟩
          omega
      · exact h2 j hj hpos
    · rcases h3 with h3 | ⟨j, hj, hpos, heq⟩
      · by_cases hc : s.rem_bt.getD i 0 > 0 ∧ (s.plist.getD i default).art < m0
        · right
          refine ⟨i, List.mem_cons_self _ _, hc.1, ?_⟩
          rw [h3]
          simp only [rrMinStep, hc, and_self, if_true]
        · left
          rw [h3]
          simp only [rrMinStep, hc, if_false]
      · exact Or.inr ⟨j, List.mem_cons_of_mem _ hj, hpos, heq⟩

theorem RRInv_advance (P : List ProcessType) (s : RRState) (t1 : Int) (b : Bool)
    (h : RRInv P s) (ht : s.t ≤ t1) : RRInv P { s with t := t1, done := b } := by
  refine ⟨h.len_p, h.len_r, h.frame, h.rem_lo, h.rem_hi, h.exec, ?_, h.finished, ?_, h.chrono⟩
  · intro k hk hlt
    have := h.started k hk hlt
    exact le_trans this ht
  · intro sl hsl
    obtain ⟨h1, h2, h3, h4⟩ := h.slices sl hsl
    exact ⟨h1, h2, h3, le_trans h4 ht⟩

theorem rrLoop_continue (quantum : Int) (n fuel : Nat) (s : RRState)
    (hd : (rrPassExact quantum { s with done := true } n).done = false) :
    rrLoopExact quantum n (fuel + 1) s
      = rrLoopExact quantum n fuel (rrPassExact quantum { s with done := true } n) := by
  rw [rrLoopExact]
  simp only [hd, Bool.false_eq_true, if_false]

theorem rrLoop_jump (quantum : Int) (n fuel : Nat) (s : RRState)
    (hd : (rrPassExact quantum { s with done := true } n).done = true)
    (hj : rrMinArrival (rrPassExact quantum { s with done := true } n) n ≠ INT_MAX ∧
      rrMinArrival (rrPassExact quantum { s with done := true } n) n
        > (rrPassExact quantum { s with done := true } n).t) :
    rrLoopExact quantum n (fuel + 1) s
      = rrLoopExact quantum n fuel
          { rrPassExact quantum { s with done := true } n with
            t := rrMinArrival (rrPassExact quantum { s with done := true } n) n
            done := false } := by
  rw [rrLoopExact]
  simp only [hd, if_true, hj, ne_eq, not_false_eq_true, and_self]

theorem rrLoop_exit (quantum : Int) (n fuel : Nat) (s : RRState)
    (hd : (rrPassExact quantum { s with done := true } n).done = true)
    (hj : ¬ (rrMinArrival (rrPassExact quantum { s with done := true } n) n ≠ INT_MAX ∧
      rrMinArrival (rrPassExact quantum { s with done := true } n) n
        > (rrPassExact quantum { s with done := true } n).t)) :
    rrLoopExact quantum n (fuel + 1) s = some (rrPassExact quantum { s with done := true } n) := by
  rw [rrLoopExact]
  simp only [hd, if_true, hj, if_false]

theorem rrLoop_mono (quantum : Int) (n fuel : Nat) (s r : RRState)
    (h : rrLoopExact quantum n fuel s = some r) : rrLoopExact quantum n (fuel + 1) s = some r := by
  induction fuel generalizing s with
  | zero => simp [rrLoopExact] at h
  | succ fuel ih =>
    by_cases hd : (rrPassExact quantum { s with done := true } n).done = true
    · by_cases hj : rrMinArrival (rrPassExact quantum { s with done := true } n) n ≠ INT_MAX ∧
          rrMinArrival (rrPassExact quantum { s with done := true } n) n
            > (rrPassExact quantum { s with done := true } n).t
      · rw [rrLoop_jump quantum n fuel s hd hj] at h
        rw [rrLoop_jump quantum n (fuel + 1) s hd hj]
        exact ih _ h
      · rw [rrLoop_exit quantum n fuel s hd hj] at h
        rw [rrLoop_exit quantum n (fuel + 1) s hd hj]
        exact h
    · have hd2 : (rrPassExact quantum { s with done := true } n).done = false := by
        simpa using hd
      rw [rrLoop_continue quantum n fuel s hd2] at h
      rw [rrLoop_continue quantum n (fuel + 1) s hd2]
      exact ih _ h

theorem rrLoop_mono_add (quantum : Int) (n fuel more : Nat) (s r : RRState)
    (h : rrLoopExact quantum n fuel s = some r) : rrLoopExact quantum n (fuel + more) s = some r := by
  induction more with
  | zero => exact h
  | succ more ih => exact rrLoop_mono quantum n (fuel + more) s r ih

theorem logEnd_append_single (l : List Slice) (sl : Slice) :
    logEnd (l ++ [sl]) = sl.finish := by
  simp [logEnd]

theorem rrStep_eq_run (quantum : Int) (s : RRState) (i : Nat) (hq : 1 ≤ quantum)
    (hc : s.rem_bt.getD i 0 > 0 ∧ (s.plist.getD i default).art ≤ s.t) :
    ∃ d pl rem, 1 ≤ d ∧
      rrStepExact quantum s i =
        { plist := pl, rem_bt := rem, t := s.t + d, done := false
          log := s.log ++ [{ index := i, start := s.t, finish := s.t + d }] } := by
  by_cases hgt : s.rem_bt.getD i 0 > quantum
  · exact ⟨quantum, s.plist, s.rem_bt.set i (s.rem_bt.getD i 0 - quantum), hq,
      by simp only [rrStepExact, hc, and_self, if_true, hgt]⟩
  · exact ⟨s.rem_bt.getD i 0,
      s.plist.set i
        { s.plist.getD i default with
          wt := s.t + s.rem_bt.getD i 0 - (s.plist.getD i default).art
            - (s.plist.getD i default).bt },
      s.rem_bt.set i 0, by have := hc.1; omega,
      by simp only [rrStepExact, hc, and_self, if_true, hgt, if_false]⟩

theorem rrStep_gap (P : List ProcessType) (quantum : Int) (s : RRState) (i : Nat)
    (hq : 1 ≤ quantum) (hi : i < P.length) (h : RRInv P s) (hg : RRGap P s) :
    RRGap P (rrStepExact quantum s i) := by
  by_cases hc : s.rem_bt.getD i 0 > 0 ∧ (s.plist.getD i default).art ≤ s.t
  · have hart : (s.plist.getD i default).art = (P.getD i default).art := by
      rw [h.frame i hi]
    obtain ⟨d, pl, rem, hd, heq⟩ := rrStep_eq_run quantum s i hq hc
    rw [heq]
    have hstart : s.t = logEnd s.log ∨ s.t = (P.getD i default).art := by
      rcases hg.clock with h1 | h1
      · exact Or.inl h1
      · right
        have := h1 i hi hc.1
        have := hc.2
        omega
    refine ⟨Or.inl (logEnd_append_single s.log
      { index := i, start := s.t, finish := s.t + d }).symm, ?_, ?_⟩
    · intro sl rest hlog
      cases hl : s.log with
      | nil =>
        rw [hl] at hlog hstart
        simp only [List.nil_append, List.cons.injEq] at hlog
        obtain ⟨rfl, -⟩ := hlog
        exact hstart
      | cons a rest2 =>
        rw [hl] at hlog
        simp only [List.cons_append, List.cons.injEq] at hlog
        obtain ⟨rfl, -⟩ := hlog
        exact hg.first a rest2 hl
    · show List.Chain' _ (s.log ++ [({ index := i, start := s.t, finish := s.t + d } : Slice)])
      rw [List.chain'_append]
      refine ⟨hg.chain, List.chain'_singleton _, ?_⟩
      intro x hx y hy
      simp only [List.head?_cons, Option.mem_def, Option.some.injEq] at hy
      subst hy
      rcases hstart with h1 | h1
      · left
        show s.t = x.finish
        rw [h1]
        simp only [logEnd]
        rw [Option.mem_def] at hx
        rw [hx]
        rfl
      · exact Or.inr h1
  · rw [rrStep_of_not quantum s i hc]
    exact hg

theorem rrFold_gap (P : List ProcessType) (quantum : Int) (hq : 1 ≤ quantum)
    (is : List Nat) (his : ∀ i ∈ is, i < P.length) (s : RRState) (h : RRInv P s)
    (hg : RRGap P s) : RRGap P (is.foldl (rrStepExact quantum) s) := by
  induction is generalizing s with
  | nil => exact hg
  | cons i rest ih =>
    have hi : i < P.length := his i (List.mem_cons_self _ _)
    exact ih (fun j hj => his j (List.mem_cons_of_mem _ hj)) _
      (rrStep_inv P quantum s i hq hi h) (rrStep_gap P quantum s i hq hi h hg)

theorem rrPass_gap (P : List ProcessType) (quantum : Int) (hq : 1 ≤ quantum) (s : RRState)
    (h : RRInv P s) (hg : RRGap P s) :
    RRGap P (rrPassExact quantum { s with done := true } P.length) :=
  rrFold_gap P quantum hq (List.range P.length) (fun _ hi => List.mem_range.1 hi)
    { s with done := true } (RRInv_advance P s s.t true h (le_refl _))
    ⟨hg.clock, hg.first, hg.chain⟩

theorem RRInv.sum_nonneg {P : List ProcessType} {s : RRState} (h : RRInv P s) :
    0 ≤ s.rem_bt.sum :=
  sum_nonneg_getD _ (fun k hk => h.rem_lo k (by rw [← h.len_r]; exact hk))

theorem rrPass_spec (P : List ProcessType) (quantum : Int) (hq : 1 ≤ quantum) (s : RRState)
    (h : RRInv P s) :
    RRInv P (rrPassExact quantum { s with done := true } P.length) ∧
    ((rrPassExact quantum { s with done := true } P.length).done = true →
      (rrPassExact quantum { s with done := true } P.length).rem_bt = s.rem_bt ∧
      (rrPassExact quantum { s with done := true } P.length).plist = s.plist ∧
      (rrPassExact quantum { s with done := true } P.length).t = s.t ∧
      ∀ i, i < P.length →
        ¬ (s.rem_bt.getD i 0 > 0 ∧ (s.plist.getD i default).art ≤ s.t)) ∧
    ((rrPassExact quantum { s with done := true } P.length).done = false →
      (rrPassExact quantum { s with done := true } P.length).rem_bt.sum ≤ s.rem_bt.sum - 1) := by
  have hrange : ∀ i ∈ List.range P.length, i < P.length := fun i hi => List.mem_range.1 hi
  have hinv0 : RRInv P { s with done := true } := RRInv_advance P s s.t true h (le_refl _)
  obtain ⟨f1, -, f3, f4⟩ :=
    rrFold_inv P quantum hq (List.range P.length) hrange { s with done := true } hinv0
  unfold rrPassExact
  refine ⟨f1, ?_, ?_⟩
  · intro hd
    obtain ⟨heq, hno⟩ := f3 hd
    rw [heq]
    exact ⟨rfl, rfl, rfl, fun i hi => hno i (List.mem_range.2 hi)⟩
  · intro hd
    rcases f4 hd with h5 | h5
    · exact Bool.noConfusion h5
    · exact h5

theorem rrMinArrival_spec (s : RRState) (n : Nat) :
    (∀ i, i < n → s.rem_bt.getD i 0 > 0 →
      rrMinArrival s n ≤ (s.plist.getD i default).art) ∧
    (rrMinArrival s n = INT_MAX ∨
      ∃ i, i < n ∧ s.rem_bt.getD i 0 > 0 ∧
        (s.plist.getD i default).art = rrMinArrival s n) := by
  obtain ⟨-, m2, m3⟩ := rrMinFold s (List.range n) INT_MAX
  unfold rrMinArrival
  refine ⟨fun i hi hpos => m2 i (List.mem_range.2 hi) hpos, ?_⟩
  rcases m3 with m3 | ⟨i, hi, hpos, harr⟩
  · exact Or.inl m3
  · exact Or.inr ⟨i, List.mem_range.1 hi, hpos, harr⟩

theorem rrLoop_terminates (P : List ProcessType) (quantum : Int) (hq : 1 ≤ quantum)
    (hart : ∀ k, k < P.length → (P.getD k default).art < INT_MAX) (N : Nat) :
    ∀ s, RRInv P s → RRGap P s → s.rem_bt.sum < N →
      ∃ fuel r, rrLoopExact quantum P.length fuel s = some r ∧ RRInv P r ∧ RRGap P r ∧
        ∀ k, k < P.length → r.rem_bt.getD k 0 = 0 := by
  induction N with
  | zero =>
    intro s hinv _ hsum
    have := hinv.sum_nonneg
    simp only [Nat.cast_zero] at hsum
    omega
  | succ N ih =>
    intro s hinv hgap hsum
    push_cast at hsum
    obtain ⟨f1, f3, f4⟩ := rrPass_spec P quantum hq s hinv
    have fg := rrPass_gap P quantum hq s hinv hgap
    by_cases hd : (rrPassExact quantum { s with done := true } P.length).done = true
    · obtain ⟨hrem, hpl, ht, hno⟩ := f3 hd
      obtain ⟨m2, m3⟩ :=
        rrMinArrival_spec (rrPassExact quantum { s with done := true } P.length) P.length
      rw [hrem, hpl] at m2 m3
      by_cases hj : rrMinArrival (rrPassExact quantum { s with done := true } P.length) P.length
            ≠ INT_MAX ∧
          rrMinArrival (rrPassExact quantum { s with done := true } P.length) P.length
            > (rrPassExact quantum { s with done := true } P.length).t
      · rcases m3 with m3 | ⟨i, hi, hpos, harr⟩
        · exact absurd m3 hj.1
        · have hinv2 := RRInv_advance P _
            (rrMinArrival (rrPassExact quantum { s with done := true } P.length) P.length) false
            f1 (le_of_lt hj.2)
          obtain ⟨g1, g3, g4⟩ := rrPass_spec P quantum hq _ hinv2
          have hgap2 : RRGap P
              { rrPassExact quantum { s with done := true } P.length with
                t := rrMinArrival (rrPassExact quantum { s with done := true } P.length) P.length
                done := false } := by
            refine ⟨Or.inr ?_, fg.first, fg.chain⟩
            intro k hk hposk
            have hposk2 : s.rem_bt.getD k 0 > 0 := by
              rw [← hrem]
              exact hposk
            have := m2 k hk hposk2
            rw [hinv.frame k hk] at this
            exact this
          have gg := rrPass_gap P quantum hq _ hinv2 hgap2
          have hd3 : (rrPassExact quantum
              { ({ rrPassExact quantum { s with done := true } P.length with
                  t := rrMinArrival (rrPassExact quantum { s with done := true } P.length) P.length
                  done := false } : RRState) with done := true } P.length).done = false := by
            by_contra hcon
            obtain ⟨-, -, -, hno2⟩ := g3 (by simpa using hcon)
            apply hno2 i hi
            dsimp only
            rw [hrem, hpl]
            exact ⟨hpos, le_of_eq harr⟩
          have h5 := g4 hd3
          have h6 : _ ≤ s.rem_bt.sum - 1 := le_trans h5 (le_of_eq (by
            show (rrPassExact quantum { s with done := true } P.length).rem_bt.sum - 1 = _
            rw [hrem]))
          obtain ⟨fuel, r, hr, hri, hrg, hrz⟩ := ih _ g1 gg (lt_of_le_of_lt h6 (by omega))
          refine ⟨fuel + 1 + 1, r, ?_, hri, hrg, hrz⟩
          rw [rrLoop_jump quantum P.length (fuel + 1) s hd hj, rrLoop_continue _ _ _ _ hd3]
          exact hr
      · refine ⟨1, _, rrLoop_exit quantum P.length 0 s hd hj, f1, fg, ?_⟩
        intro k hk
        rw [hrem]
        have hlo := hinv.rem_lo k hk
        by_contra hne
        have hpos : s.rem_bt.getD k 0 > 0 := by omega
        have hle := m2 k hk hpos
        have hartk : (s.plist.getD k default).art = (P.getD k default).art := by
          rw [hinv.frame k hk]
        have hlt := hart k hk
        have hne2 : rrMinArrival (rrPassExact quantum { s with done := true } P.length) P.length
            ≠ INT_MAX := by
          omega
        rcases m3 with m3 | ⟨i, hi, hposi, harr⟩
        · exact hne2 m3
        · apply hj
          refine ⟨hne2, ?_⟩
          have hgt : ¬ (s.plist.getD i default).art ≤ s.t := fun hle2 => hno i hi ⟨hposi, hle2⟩
          rw [ht]
          omega
    · have hd2 : (rrPassExact quantum { s with done := true } P.length).done = false := by
        simpa using hd
      have h5 := f4 hd2
      obtain ⟨fuel, r, hr, hri, hrg, hrz⟩ := ih _ f1 fg (by omega)
      refine ⟨fuel + 1, r, ?_, hri, hrg, hrz⟩
      rw [rrLoop_continue quantum P.length fuel s hd2]
      exact hr

theorem getD_map_lt {α β : Type} (f : α → β) (l : List α) (k : Nat) (d1 : β) (d2 : α)
    (hk : k < l.length) : (l.map f).getD k d1 = f (l.getD k d2) := by
  rw [List.getD_eq_getElem?_getD, List.getD_eq_getElem?_getD, List.getElem?_map,
    List.getElem?_eq_getElem hk]
  rfl

theorem RRInv_init (P : List ProcessType) (hbt : ∀ k, k < P.length → 1 ≤ (P.getD k default).bt) :
    RRInv P (rrInit P) := by
  refine ⟨by simp [rrInit], by simp [rrInit], ?_, ?_, ?_, ?_, ?_, ?_, ?_, List.Pairwise.nil⟩
  · intro k hk
    have e : (rrInit P).plist = P.map (fun p => { p with wt := 0 }) := rfl
    rw [e, getD_map_lt _ P k default default hk]
  · intro k hk
    show 0 ≤ (P.map (fun p => p.bt)).getD k 0
    rw [getD_map_lt _ P k 0 default hk]
    have := hbt k hk
    omega
  · intro k hk
    show (P.map (fun p => p.bt)).getD k 0 ≤ _
    rw [getD_map_lt _ P k 0 default hk]
  · intro k hk
    show executed k [] = _ - (P.map (fun p => p.bt)).getD k 0
    rw [getD_map_lt _ P k 0 default hk]
    simp [executed]
  · intro k hk
    show (P.map (fun p => p.bt)).getD k 0 < _ → _
    rw [getD_map_lt _ P k 0 default hk]
    intro h
    omega
  · intro k hk
    show (P.map (fun p => p.bt)).getD k 0 = 0 → _
    rw [getD_map_lt _ P k 0 default hk]
    intro h
    have := hbt k hk
    omega
  · intro sl hsl
    exact absurd hsl (List.not_mem_nil sl)

theorem getD_mem {α : Type} (l : List α) (k : Nat) (d : α) (hk : k < l.length) :
    l.getD k d ∈ l := by
  rw [List.getD_eq_getElem?_getD, List.getElem?_eq_getElem hk]
  exact List.getElem_mem hk

/-! ### The run with 32-bit arithmetic -/

theorem wrapInt_of_range (x : Int) (hlo : INT_MIN ≤ x) (hhi : x ≤ INT_MAX) : wrapInt x = x := by
  unfold INT_MIN at hlo
  unfold INT_MAX at hhi
  unfold wrapInt
  omega

theorem getD_le_sum (l : List Int) (h : ∀ k, k < l.length → 0 ≤ l.getD k 0) (i : Nat)
    (hi : i < l.length) : l.getD i 0 ≤ l.sum := by
  have hs := sum_set_getD l i 0 hi
  have hn : 0 ≤ (l.set i 0).sum := by
    refine sum_nonneg_getD _ ?_
    intro k hk
    by_cases hik : i = k
    · subst hik
      rw [getD_set_eq _ _ _ _ hi]
    · rw [getD_set_ne _ _ _ _ _ hik]
      exact h k (by simpa using hk)
  omega

theorem rrStep_eq_exact (P : List ProcessType) (quantum : Int) (s : RRState) (i : Nat)
    (hq : 1 ≤ quantum) (hi : i < P.length) (hart : ∀ k, k < P.length → 0 ≤ (P.getD k default).art)
    (h : RRInv P s) (hf : RRFits P s) :
    rrStep quantum s i = rrStepExact quantum s i := by
  by_cases hc : s.rem_bt.getD i 0 > 0 ∧ (s.plist.getD i default).art ≤ s.t
  · have hartP : (s.plist.getD i default).art = (P.getD i default).art := by
      rw [h.frame i hi]
    have hbtP : (s.plist.getD i default).bt = (P.getD i default).bt := by
      rw [h.frame i hi]
    have hle : s.rem_bt.getD i 0 ≤ s.rem_bt.sum :=
      getD_le_sum s.rem_bt (fun k hk => h.rem_lo k (by rw [← h.len_r]; exact hk)) i
        (by rw [h.len_r]; exact hi)
    have h1 := hf.t_lo
    have h2 := hf.t_hi
    have h3 := hart i hi
    have h4 := h.rem_hi i hi
    have h5 := hc.1
    have h6 := hc.2
    have hmax : INT_MAX = 2147483647 := rfl
    have hmin : INT_MIN = -2147483648 := rfl
    by_cases hgt : s.rem_bt.getD i 0 > quantum
    · have e1 : wrapInt (s.t + quantum) = s.t + quantum :=
        wrapInt_of_range _ (by omega) (by omega)
      have e2 : wrapInt (s.rem_bt.getD i 0 - quantum) = s.rem_bt.getD i 0 - quantum :=
        wrapInt_of_range _ (by omega) (by omega)
      simp only [rrStep, rrStepExact, hc, and_self, if_true, hgt, e1, e2]
    · have e1 : wrapInt (s.t + s.rem_bt.getD i 0) = s.t + s.rem_bt.getD i 0 :=
        wrapInt_of_range _ (by omega) (by omega)
      have e2 : wrapInt (s.t + s.rem_bt.getD i 0 - (s.plist.getD i default).art)
          = s.t + s.rem_bt.getD i 0 - (s.plist.getD i default).art :=
        wrapInt_of_range _ (by omega) (by omega)
      have hwt : 0 ≤ s.t + s.rem_bt.getD i 0 - (s.plist.getD i default).art
          - (s.plist.getD i default).bt := by
        rw [hartP, hbtP]
        by_cases hlt : s.rem_bt.getD i 0 < (P.getD i default).bt
        · have := h.started i hi hlt
          omega
        · omega
      have e3 : wrapInt (s.t + s.rem_bt.getD i 0 - (s.plist.getD i default).art
            - (s.plist.getD i default).bt)
          = s.t + s.rem_bt.getD i 0 - (s.plist.getD i default).art
            - (s.plist.getD i default).bt :=
        wrapInt_of_range _ (by omega) (by rw [hbtP] at hwt ⊢; omega)
      simp only [rrStep, rrStepExact, hc, and_self, if_true, hgt, if_false, e1, e2, e3]
  · simp only [rrStep, rrStepExact, hc, if_false]

theorem rrStepExact_fits (P : List ProcessType) (quantum : Int) (s : RRState) (i : Nat)
    (hq : 1 ≤ quantum) (hi : i < P.length) (h : RRInv P s) (hf : RRFits P s) :
    RRFits P (rrStepExact quantum s i) := by
  have hir : i < s.rem_bt.length := by rw [h.len_r]; exact hi
  by_cases hc : s.rem_bt.getD i 0 > 0 ∧ (s.plist.getD i default).art ≤ s.t
  · have h1 := hf.t_lo
    have h2 := hf.t_hi
    have h5 := hc.1
    by_cases hgt : s.rem_bt.getD i 0 > quantum
    · have et : (rrStepExact quantum s i).t = s.t + quantum := by
        simp only [rrStepExact, hc, and_self, if_true, hgt]
      have er : (rrStepExact quantum s i).rem_bt.sum = s.rem_bt.sum - quantum := by
        simp only [rrStepExact, hc, and_self, if_true, hgt]
        rw [sum_set_getD _ _ _ hir]
        omega
      refine ⟨by rw [et]; omega, by rw [et, er]; omega, ?_⟩
      intro k hk
      have := hf.arr_hi k hk
      rw [er]
      omega
    · have et : (rrStepExact quantum s i).t = s.t + s.rem_bt.getD i 0 := by
        simp only [rrStepExact, hc, and_self, if_true, hgt, if_false]
      have er : (rrStepExact quantum s i).rem_bt.sum = s.rem_bt.sum - s.rem_bt.getD i 0 := by
        simp only [rrStepExact, hc, and_self, if_true, hgt, if_false]
        rw [sum_set_getD _ _ _ hir]
        omega
      refine ⟨by rw [et]; omega, by rw [et, er]; omega, ?_⟩
      intro k hk
      have := hf.arr_hi k hk
      rw [er]
      omega
  · rw [rrStep_of_not quantum s i hc]
    exact hf

theorem rrFold_eq_exact (P : List ProcessType) (quantum : Int) (hq : 1 ≤ quantum)
    (hart : ∀ k, k < P.length → 0 ≤ (P.getD k default).art)
    (is : List Nat) (his : ∀ i ∈ is, i < P.length) (s : RRState) (h : RRInv P s)
    (hf : RRFits P s) :
    is.foldl (rrStep quantum) s = is.foldl (rrStepExact quantum) s ∧
    RRFits P (is.foldl (rrStepExact quantum) s) := by
  induction is generalizing s with
  | nil => exact ⟨rfl, hf⟩
  | cons i rest ih =>
    have hi : i < P.length := his i (List.mem_cons_self _ _)
    have hrest : ∀ j ∈ rest, j < P.length := fun j hj => his j (List.mem_cons_of_mem _ hj)
    simp only [List.foldl_cons]
    rw [rrStep_eq_exact P quantum s i hq hi hart h hf]
    exact ih hrest _ (rrStep_inv P quantum s i hq hi h) (rrStepExact_fits P quantum s i hq hi h hf)

theorem rrPass_eq_exact (P : List ProcessType) (quantum : Int) (hq : 1 ≤ quantum)
    (hart : ∀ k, k < P.length → 0 ≤ (P.getD k default).art) (s : RRState) (h : RRInv P s)
    (hf : RRFits P s) :
    rrPass quantum { s with done := true } P.length
      = rrPassExact quantum { s with done := true } P.length ∧
    RRFits P (rrPassExact quantum { s with done := true } P.length) :=
  rrFold_eq_exact P quantum hq hart (List.range P.length) (fun _ hi => List.mem_range.1 hi)
    { s with done := true } (RRInv_advance P s s.t true h (le_refl _))
    ⟨hf.t_lo, hf.t_hi, hf.arr_hi⟩

theorem rrLoop_eq_exact (P : List ProcessType) (quantum : Int) (hq : 1 ≤ quantum)
    (hart : ∀ k, k < P.length → 0 ≤ (P.getD k default).art) (fuel : Nat) :
    ∀ s r, RRInv P s → RRFits P s → rrLoopExact quantum P.length fuel s = some r →
      rrLoop quantum P.length fuel s = some r ∧ RRFits P r := by
  induction fuel with
  | zero =>
    intro s r _ _ hr
    simp [rrLoopExact] at hr
  | succ fuel ih =>
    intro s r hinv hf hr
    obtain ⟨hpass, hfits⟩ := rrPass_eq_exact P quantum hq hart s hinv hf
    obtain ⟨f1, f3, -⟩ := rrPass_spec P quantum hq s hinv
    have hunfold : rrLoop quantum P.length (fuel + 1) s =
        if (rrPassExact quantum { s with done := true } P.length).done = true then
          if rrMinArrival (rrPassExact quantum { s with done := true } P.length) P.length
                ≠ INT_MAX ∧
              rrMinArrival (rrPassExact quantum { s with done := true } P.length) P.length
                > (rrPassExact quantum { s with done := true } P.length).t then
            rrLoop quantum P.length fuel
              { rrPassExact quantum { s with done := true } P.length with
                t := rrMinArrival (rrPassExact quantum { s with done := true } P.length) P.length
                done := false }
          else some (rrPassExact quantum { s with done := true } P.length)
        else rrLoop quantum P.length fuel (rrPassExact quantum { s with done := true } P.length) := by
      rw [rrLoop, hpass]
    rw [hunfold]
    by_cases hd : (rrPassExact quantum { s with done := true } P.length).done = true
    · by_cases hj : rrMinArrival (rrPassExact quantum { s with done := true } P.length) P.length
            ≠ INT_MAX ∧
          rrMinArrival (rrPassExact quantum { s with done := true } P.length) P.length
            > (rrPassExact quantum { s with done := true } P.length).t
      · rw [rrLoop_jump quantum P.length fuel s hd hj] at hr
        rw [if_pos hd, if_pos hj]
        refine ih _ r (RRInv_advance P _ _ false f1 (le_of_lt hj.2)) ?_ hr
        obtain ⟨-, m3⟩ :=
          rrMinArrival_spec (rrPassExact quantum { s with done := true } P.length) P.length
        have h0 := hfits.t_lo
        rcases m3 with m3 | ⟨i, hi, -, harr⟩
        · exact absurd m3 hj.1
        · have hframe : ((rrPassExact quantum { s with done := true } P.length).plist.getD i
              default).art = (P.getD i default).art := by
            rw [f1.frame i hi]
          have hai := hfits.arr_hi i hi
          refine ⟨?_, ?_, hfits.arr_hi⟩
          · show 0 ≤ rrMinArrival _ _
            have := hj.2
            omega
          · show rrMinArrival _ _ + _ ≤ INT_MAX
            rw [← harr, hframe]
            exact hai
      · rw [rrLoop_exit quantum P.length fuel s hd hj] at hr
        rw [if_pos hd, if_neg hj]
        have hr2 : rrPassExact quantum { s with done := true } P.length = r :=
          Option.some.inj hr
        rw [← hr2]
        exact ⟨rfl, hfits⟩
    · have hd2 : (rrPassExact quantum { s with done := true } P.length).done = false := by
        simpa using hd
      rw [rrLoop_continue quantum P.length fuel s hd2] at hr
      rw [if_neg hd]
      exact ih _ r f1 hfits hr

theorem RRFits_init (P : List ProcessType) (hart : ∀ p ∈ P, 0 ≤ p.art)
    (hfit : ∀ p ∈ P, p.art + (P.map (fun p => p.bt)).sum ≤ INT_MAX) :
    RRFits P (rrInit P) := by
  refine ⟨le_refl _, ?_, fun k hk => hfit _ (getD_mem P k default hk)⟩
  show 0 + (P.map (fun p => p.bt)).sum ≤ INT_MAX
  cases P with
  | nil => decide
  | cons p rest =>
    have h1 := hart p (List.mem_cons_self _ _)
    have h2 := hfit p (List.mem_cons_self _ _)
    omega

/-- C17, the claim as stated fails.  For the single process with burst time 1
arriving at time `INT_MAX` and quantum 1, `findWaitingTimeRR` leaves its loop
after one iteration with the remaining burst time still 1: the process is
never executed (`min_arrival` stays at its initial value `INT_MAX`, which the
code reads as "nothing is pending").  For the single process with burst time 3
arriving at `INT_MAX - 1` and quantum 1, the exact clock would end at
`INT_MAX + 2`, which no `int` holds; with 32-bit wrap-around the code ends with
the waiting time -2. -/
theorem C17_counterexample :
    (1 : Int) ≤ 1 ∧ (1 : Int) ≤ (proc 1 1 INT_MAX).bt ∧ (0 : Int) ≤ (proc 1 1 INT_MAX).art ∧
    (findWaitingTimeRR [proc 1 1 INT_MAX] 1 1).map (fun s => (s.rem_bt, s.log, s.t))
      = some ([1], [], 0) ∧
    (findWaitingTimeRR [proc 1 1 INT_MAX] 1 7).map (fun s => (s.rem_bt, s.log, s.t))
      = some ([1], [], 0) ∧
    ([1] : List Int) ≠ List.replicate 1 0 ∧
    (1 : Int) ≤ (proc 1 3 2147483646).bt ∧ (0 : Int) ≤ (proc 1 3 2147483646).art ∧
    (findWaitingTimeRRExact [proc 1 3 2147483646] 1 8).map
        (fun s => (s.plist.map (fun p => p.wt), s.rem_bt, s.t))
      = some ([0], [0], 2147483649) ∧
    (findWaitingTimeRR [proc 1 3 2147483646] 1 8).map
        (fun s => (s.plist.map (fun p => p.wt), s.rem_bt, s.t))
      = some ([-2], [0], 2147483647) := by
  decide

/-- C17 (round robin, amended).  For every quantum `>= 1` and every process
list with burst times `>= 1` and arrival times `>= 0` in which every arrival
time plus the sum of all burst times is at most `INT_MAX`,
`findWaitingTimeRR`, computed with 32-bit arithmetic, leaves its loop (with
enough fuel, and with the same result for any larger fuel) with every
remaining burst time 0; no result leaves the `int` range, so the state is the
one exact arithmetic gives, and the clock ends between 0 and `INT_MAX`.  Only
`wt` fields are rewritten: each process has been given exactly its burst time
of CPU, its `wt` is `completion - arrival - burst` where the completion time
is the end of its last slice, and `wt >= 0`.  Every slice starts at or after
the arrival of its process, is non-empty and ends at or before the final
clock, and the slices follow one another in time; the CPU is idle only up to
an arrival: the first slice starts at time 0 or at the arrival of its process,
and every later slice starts where the previous one ended or at the arrival of
its process. -/
theorem C17_round_robin (plist : List ProcessType) (quantum : Int) (hq : 1 ≤ quantum)
    (hbt : ∀ p ∈ plist, 1 ≤ p.bt) (hart : ∀ p ∈ plist, 0 ≤ p.art)
    (hfit : ∀ p ∈ plist, p.art + (plist.map (fun p => p.bt)).sum ≤ INT_MAX) :
    ∃ fuel s, (∀ more, findWaitingTimeRR plist quantum (fuel + more) = some s) ∧
      (∀ more, findWaitingTimeRRExact plist quantum (fuel + more) = some s) ∧
      s.rem_bt = List.replicate plist.length 0 ∧
      s.plist.length = plist.length ∧
      0 ≤ s.t ∧ s.t ≤ INT_MAX ∧
      (∀ k, k < plist.length → ∃ C, lastFinish k s.log = some C ∧
        s.plist.getD k default = { plist.getD k default with
          wt := C - (plist.getD k default).art - (plist.getD k default).bt } ∧
        0 ≤ (s.plist.getD k default).wt ∧
        executed k s.log = (plist.getD k default).bt) ∧
      (∀ sl ∈ s.log, sl.index < plist.length ∧
        (plist.getD sl.index default).art ≤ sl.start ∧ sl.start < sl.finish ∧
        sl.finish ≤ s.t) ∧
      s.log.Pairwise (fun a b => a.finish ≤ b.start) ∧
      (∀ sl rest, s.log = sl :: rest →
        sl.start = 0 ∨ sl.start = (plist.getD sl.index default).art) ∧
      s.log.Chain'
        (fun a b => b.start = a.finish ∨ b.start = (plist.getD b.index default).art) := by
  have hbt2 : ∀ k, k < plist.length → 1 ≤ (plist.getD k default).bt :=
    fun k hk => hbt _ (getD_mem plist k default hk)
  have hart0 : ∀ k, k < plist.length → 0 ≤ (plist.getD k default).art :=
    fun k hk => hart _ (getD_mem plist k default hk)
  have hart2 : ∀ k, k < plist.length → (plist.getD k default).art < INT_MAX := by
    intro k hk
    have h1 := hfit _ (getD_mem plist k default hk)
    have hk2 : k < (plist.map (fun p => p.bt)).length := by simpa using hk
    have h2 := getD_le_sum (plist.map (fun p => p.bt)) (fun j hj => by
      have hj2 : j < plist.length := by simpa using hj
      rw [getD_map_lt _ plist j 0 default hj2]
      have := hbt2 j hj2
      omega) k hk2
    rw [getD_map_lt _ plist k 0 default hk] at h2
    have h3 := hbt2 k hk
    omega
  have hinit := RRInv_init plist hbt2
  have hfinit := RRFits_init plist hart hfit
  have hginit : RRGap plist (rrInit plist) :=
    ⟨Or.inl rfl, fun sl rest hlog => by simp [rrInit] at hlog, List.chain'_nil⟩
  obtain ⟨fuel, r, hr, hinv, hgap, hz⟩ :=
    rrLoop_terminates plist quantum hq hart2 ((rrInit plist).rem_bt.sum.toNat + 1)
      (rrInit plist) hinit hginit (by have := hinit.sum_nonneg; omega)
  have hexact : ∀ more, rrLoopExact quantum plist.length (fuel + more) (rrInit plist) = some r :=
    fun more => rrLoop_mono_add quantum plist.length fuel more _ r hr
  have hfits : RRFits plist r :=
    (rrLoop_eq_exact plist quantum hq hart0 fuel _ r hinit hfinit hr).2
  have hsum := hinv.sum_nonneg
  refine ⟨fuel, r,
    fun more => (rrLoop_eq_exact plist quantum hq hart0 (fuel + more) _ r hinit hfinit
      (hexact more)).1,
    hexact, ?_, hinv.len_p, hfits.t_lo, by have := hfits.t_hi; omega, ?_,
    fun sl hsl => hinv.slices sl hsl, hinv.chrono, hgap.first, hgap.chain⟩
  · rw [List.eq_replicate_iff]
    refine ⟨hinv.len_r, ?_⟩
    intro b hb
    obtain ⟨k, hk, rfl⟩ := List.getElem_of_mem hb
    have := hz k (by rw [← hinv.len_r]; exact hk)
    rw [List.getD_eq_getElem?_getD, List.getElem?_eq_getElem hk] at this
    exact this
  · intro k hk
    obtain ⟨C, h1, h2, h3⟩ := hinv.finished k hk (hz k hk)
    have h4 := hinv.exec k hk
    rw [hz k hk] at h4
    refine ⟨C, h1, ?_, by rw [h2]; omega, by omega⟩
    rw [hinv.frame k hk, h2]

/-- Witness for C17: the three sample processes with quantum 2; the waiting
times are 3, 3, 0 and the clock ends at 28. -/
theorem C17_round_robin_witness :
    (1 : Int) ≤ 2 ∧ (∀ p ∈ sampleProcs, 1 ≤ p.bt) ∧ (∀ p ∈ sampleProcs, 0 ≤ p.art) ∧
    (∀ p ∈ sampleProcs, p.art + (sampleProcs.map (fun p => p.bt)).sum ≤ INT_MAX) ∧
    (findWaitingTimeRR sampleProcs 2 20).map (fun s => (s.plist.map (fun p => p.wt), s.rem_bt, s.t))
      = some ([3, 3, 0], [0, 0, 0], 28) ∧
    (∃ fuel s, (∀ more, findWaitingTimeRR sampleProcs 2 (fuel + more) = some s) ∧
      (∀ more, findWaitingTimeRRExact sampleProcs 2 (fuel + more) = some s) ∧
      s.rem_bt = List.replicate sampleProcs.length 0 ∧
      s.plist.length = sampleProcs.length ∧
      0 ≤ s.t ∧ s.t ≤ INT_MAX ∧
      (∀ k, k < sampleProcs.length → ∃ C, lastFinish k s.log = some C ∧
        s.plist.getD k default = { sampleProcs.getD k default with
          wt := C - (sampleProcs.getD k default).art - (sampleProcs.getD k default).bt } ∧
        0 ≤ (s.plist.getD k default).wt ∧
        executed k s.log = (sampleProcs.getD k default).bt) ∧
      (∀ sl ∈ s.log, sl.index < sampleProcs.length ∧
        (sampleProcs.getD sl.index default).art ≤ sl.start ∧ sl.start < sl.finish ∧
        sl.finish ≤ s.t) ∧
      s.log.Pairwise (fun a b => a.finish ≤ b.start) ∧
      (∀ sl rest, s.log = sl :: rest →
        sl.start = 0 ∨ sl.start = (sampleProcs.getD sl.index default).art) ∧
      s.log.Chain'
        (fun a b => b.start = a.finish ∨ b.start = (sampleProcs.getD b.index default).art)) :=
  ⟨by decide, by decide, by decide, by decide, by decide,
    C17_round_robin sampleProcs 2 (by decide) (by decide) (by decide) (by decide)⟩

end SchedSim

namespace Mmu

/-! ### Facts about the list functions -/

theorem list_add_to_back_eq_append (l : List Block) (blk : Block) :
    list_add_to_back l blk = l ++ [blk] := by
  induction l with
  | nil => rfl
  | cons c rest ih => simp [list_add_to_back, ih]

theorem list_is_in_by_size_eq_false (l : List Block) (size : Int) :
    list_is_in_by_size l size = false ↔ ∀ b ∈ l, b.size < size := by
  induction l with
  | nil => simp [list_is_in_by_size]
  | cons b rest ih =>
    by_cases h : b.size ≥ size
    · simp only [list_is_in_by_size, h, if_true, List.mem_cons, forall_eq_or_imp, false_iff,
        not_and, reduceCtorEq]
      intro h1
      omega
    · simp only [list_is_in_by_size, h, if_false, ih, List.mem_cons, forall_eq_or_imp,
        iff_and_self, Bool.false_eq_true]
      intro _
      omega

theorem indexOfBySizeFrom_first (pre post : List Block) (blk : Block) (size index : Int)
    (hpre : ∀ b ∈ pre, b.size < size) (hfit : size ≤ blk.size) :
    indexOfBySizeFrom (pre ++ blk :: post) size index = index + pre.length := by
  induction pre generalizing index with
  | nil => simp [indexOfBySizeFrom, hfit]
  | cons b rest ih =>
    have hb : ¬ b.size ≥ size := by
      have := hpre b (List.mem_cons_self _ _)
      omega
    simp only [List.cons_append, indexOfBySizeFrom, hb, if_false, List.length_cons,
      Nat.cast_add, Nat.cast_one, List.append_eq]
    rw [ih (index + 1) (fun x hx => hpre x (List.mem_cons_of_mem _ hx))]
    omega

theorem removeAfter_at (pre post : List Block) (current blk : Block) :
    removeAfter pre.length current (pre ++ blk :: post) = (some blk, current :: (pre ++ post)) := by
  induction pre generalizing current with
  | nil => rfl
  | cons b rest ih => simp [removeAfter, ih]

theorem list_remove_at_index_at (pre post : List Block) (blk : Block) :
    list_remove_at_index (pre ++ blk :: post) pre.length = (some blk, pre ++ post) := by
  cases pre with
  | nil => simp [list_remove_at_index, list_remove_from_front]
  | cons h rest =>
    have h1 : ¬ (((h :: rest).length : Nat) : Int) < 0 := by omega
    have h2 : ¬ (((h :: rest).length : Nat) : Int) = 0 := by
      simp only [List.length_cons, Nat.cast_add, Nat.cast_one]
      omega
    have h3 : ((((h :: rest).length : Nat) : Int) - 1).toNat = rest.length := by
      simp only [List.length_cons, Nat.cast_add, Nat.cast_one]
      omega
    simp only [List.cons_append, list_remove_at_index, h1, h2, if_false, h3]
    exact removeAfter_at rest post h blk

theorem insertByAddressAfter_split (l : List Block) (blk : Block) :
    ∃ l1 l2, l = l1 ++ l2 ∧ insertByAddressAfter l blk = l1 ++ blk :: l2 := by
  induction l with
  | nil => exact ⟨[], [], rfl, rfl⟩
  | cons n rest ih =>
    by_cases h : n.start < blk.start
    · obtain ⟨l1, l2, h1, h2⟩ := ih
      exact ⟨n :: l1, l2, by rw [h1]; rfl, by simp [insertByAddressAfter, h, h2]⟩
    · exact ⟨[], n :: rest, rfl, by simp [insertByAddressAfter, h]⟩

theorem list_add_ascending_by_address_split (l : List Block) (blk : Block) :
    ∃ l1 l2, l = l1 ++ l2 ∧ list_add_ascending_by_address l blk = l1 ++ blk :: l2 := by
  cases l with
  | nil => exact ⟨[], [], rfl, rfl⟩
  | cons head rest =>
    by_cases h : blk.start < head.start
    · exact ⟨[], head :: rest, rfl, by simp [list_add_ascending_by_address, h]⟩
    · obtain ⟨l1, l2, h1, h2⟩ := insertByAddressAfter_split rest blk
      exact ⟨head :: l1, l2, by rw [h1]; rfl, by simp [list_add_ascending_by_address, h, h2]⟩

theorem insertBySizeAscAfter_split (l : List Block) (blk : Block) :
    ∃ l1 l2, l = l1 ++ l2 ∧ insertBySizeAscAfter l blk = l1 ++ blk :: l2 := by
  induction l with
  | nil => exact ⟨[], [], rfl, rfl⟩
  | cons n rest ih =>
    by_cases h : blk.size < n.size
    · exact ⟨[], n :: rest, rfl, by simp [insertBySizeAscAfter, h]⟩
    · obtain ⟨l1, l2, h1, h2⟩ := ih
      exact ⟨n :: l1, l2, by rw [h1]; rfl, by simp [insertBySizeAscAfter, h, h2]⟩

theorem list_add_ascending_by_blocksize_split (l : List Block) (blk : Block) :
    ∃ l1 l2, l = l1 ++ l2 ∧ list_add_ascending_by_blocksize l blk = l1 ++ blk :: l2 := by
  cases l with
  | nil => exact ⟨[], [], rfl, rfl⟩
  | cons head rest =>
    by_cases h : blk.size < head.size
    · exact ⟨[], head :: rest, rfl, by simp [list_add_ascending_by_blocksize, h]⟩
    · obtain ⟨l1, l2, h1, h2⟩ := insertBySizeAscAfter_split rest blk
      exact ⟨head :: l1, l2, by rw [h1]; rfl,
        by simp [list_add_ascending_by_blocksize, h, h2]⟩

theorem insertBySizeDescAfter_split (l : List Block) (blk : Block) :
    ∃ l1 l2, l = l1 ++ l2 ∧ insertBySizeDescAfter l blk = l1 ++ blk :: l2 := by
  induction l with
  | nil => exact ⟨[], [], rfl, rfl⟩
  | cons n rest ih =>
    by_cases h : blk.size > n.size
    · exact ⟨[], n :: rest, rfl, by simp [insertBySizeDescAfter, h]⟩
    · obtain ⟨l1, l2, h1, h2⟩ := ih
      exact ⟨n :: l1, l2, by rw [h1]; rfl, by simp [insertBySizeDescAfter, h, h2]⟩

theorem list_add_descending_by_blocksize_split (l : List Block) (blk : Block) :
    ∃ l1 l2, l = l1 ++ l2 ∧ list_add_descending_by_blocksize l blk = l1 ++ blk :: l2 := by
  cases l with
  | nil => exact ⟨[], [], rfl, rfl⟩
  | cons head rest =>
    by_cases h : blk.size > head.size
    · exact ⟨[], head :: rest, rfl, by simp [list_add_descending_by_blocksize, h]⟩
    · obtain ⟨l1, l2, h1, h2⟩ := insertBySizeDescAfter_split rest blk
      exact ⟨head :: l1, l2, by rw [h1]; rfl,
        by simp [list_add_descending_by_blocksize, h, h2]⟩

/-! ### The claims on `allocate_memory` -/

/-- C18, the code breaks the claim: with `blocksize = 0` on the free list
`[0-99]` (its block has `end >= start`), under policy 1, `allocate_memory`
puts the block `[0, -1]` of pid 1 into the allocated list, a block with
`end < start` (size 0), and reports no error; with `blocksize = -5` the block
is `[0, -6]`. -/
theorem C18_zero_sized_block :
    (∀ b ∈ [({ pid := 0, start := 0, end_ := 99 } : Block)], b.end_ ≥ b.start) ∧
    allocate_memory [{ pid := 0, start := 0, end_ := 99 }] [] 1 0 1 =
      some { freelist := [{ pid := 0, start := 0, end_ := 99 }]
             alloclist := [{ pid := 1, start := 0, end_ := -1 }]
             error := none } ∧
    ¬ (({ pid := 1, start := 0, end_ := -1 } : Block).end_
        ≥ ({ pid := 1, start := 0, end_ := -1 } : Block).start) ∧
    allocate_memory [{ pid := 0, start := 0, end_ := 99 }] [] 1 (-5) 1 =
      some { freelist := [{ pid := 0, start := -5, end_ := 99 }]
             alloclist := [{ pid := 1, start := 0, end_ := -6 }]
             error := none } := by
  decide

/-- C19 (successful allocation).  Let the free list be `pre ++ blk :: post`
where `blk = [s, e]` is the first block of size `>= blocksize`, and let the
policy be 1, 2 or 3.  Then `allocate_memory` reports no error; the allocated
list is the old one with the block `[s, s + blocksize - 1]` of the given pid
inserted, the other blocks as they were; if `blocksize` is smaller than the
size of `blk`, the free list is `pre ++ post` with exactly the fragment
`[s + blocksize, e]` of pid 0 inserted; otherwise (exact fit) the free list is
`pre ++ post`, with no fragment. -/
theorem C19_successful_allocation (pre post alloclist : List Block) (blk : Block)
    (pid blocksize policy : Int)
    (hpre : ∀ b ∈ pre, b.size < blocksize) (hfit : blocksize ≤ blk.size)
    (hpol : policy = 1 ∨ policy = 2 ∨ policy = 3) :
    ∃ r, allocate_memory (pre ++ blk :: post) alloclist pid blocksize policy = some r ∧
      r.error = none ∧
      (∃ a1 a2, alloclist = a1 ++ a2 ∧
        r.alloclist = a1 ++
          { pid := pid, start := blk.start, end_ := blk.start + blocksize - 1 } :: a2) ∧
      (blocksize < blk.size → ∃ f1 f2, pre ++ post = f1 ++ f2 ∧
        r.freelist = f1 ++
          { pid := 0, start := blk.start + blocksize, end_ := blk.end_ } :: f2) ∧
      (¬ blocksize < blk.size → r.freelist = pre ++ post) := by
  have hin : ¬ list_is_in_by_size (pre ++ blk :: post) blocksize = false := by
    rw [list_is_in_by_size_eq_false]
    intro h
    have := h blk (by simp)
    omega
  have hidx : list_get_index_of_by_Size (pre ++ blk :: post) blocksize = pre.length := by
    unfold list_get_index_of_by_Size
    rw [indexOfBySizeFrom_first pre post blk blocksize 0 hpre hfit]
    omega
  obtain ⟨a1, a2, ha, ha2⟩ := list_add_ascending_by_address_split alloclist
    { pid := pid, start := blk.start, end_ := blk.start + blocksize - 1 }
  unfold Block.size at hfit
  by_cases hfrag : blk.start + blocksize - 1 < blk.end_
  · have hlt : blocksize < blk.size := by
      unfold Block.size
      omega
    have hfr : ({ pid := 0, start := blk.start + blocksize - 1 + 1, end_ := blk.end_ } : Block)
        = { pid := 0, start := blk.start + blocksize, end_ := blk.end_ } := by
      congr 1
      omega
    rcases hpol with rfl | rfl | rfl
    · refine ⟨_, by simp only [allocate_memory, hin, if_false, hidx,
        list_remove_at_index_at, hfrag, if_true]; rfl, rfl, ⟨a1, a2, ha, ha2⟩, ?_, ?_⟩
      · intro _
        refine ⟨pre ++ post, [], by simp, ?_⟩
        show list_add_to_back (pre ++ post) _ = _
        rw [list_add_to_back_eq_append, hfr]
      · intro h
        exact absurd hlt h
    · obtain ⟨f1, f2, hf, hf2⟩ := list_add_ascending_by_blocksize_split (pre ++ post)
        { pid := 0, start := blk.start + blocksize, end_ := blk.end_ }
      refine ⟨_, by simp only [allocate_memory, hin, if_false, hidx,
        list_remove_at_index_at, hfrag, if_true]; rfl, rfl, ⟨a1, a2, ha, ha2⟩, ?_, ?_⟩
      · intro _
        refine ⟨f1, f2, hf, ?_⟩
        show list_add_ascending_by_blocksize (pre ++ post) _ = _
        rw [hfr, hf2]
      · intro h
        exact absurd hlt h
    · obtain ⟨f1, f2, hf, hf2⟩ := list_add_descending_by_blocksize_split (pre ++ post)
        { pid := 0, start := blk.start + blocksize, end_ := blk.end_ }
      refine ⟨_, by simp only [allocate_memory, hin, if_false, hidx,
        list_remove_at_index_at, hfrag, if_true]; rfl, rfl, ⟨a1, a2, ha, ha2⟩, ?_, ?_⟩
      · intro _
        refine ⟨f1, f2, hf, ?_⟩
        show list_add_descending_by_blocksize (pre ++ post) _ = _
        rw [hfr, hf2]
      · intro h
        exact absurd hlt h
  · have hnlt : ¬ blocksize < blk.size := by
      unfold Block.size
      omega
    refine ⟨_, by simp only [allocate_memory, hin, if_false, hidx,
      list_remove_at_index_at, hfrag]; rfl, rfl, ⟨a1, a2, ha, ha2⟩, ?_, ?_⟩
    · intro h
      exact absurd h hnlt
    · intro _
      rfl

/-- Witness for C19: 20 blocks for pid 7 under policy 2 from the free list
`[0-9] [100-149] [200-239]`; the first block that fits is `[100-149]`. -/
theorem C19_successful_allocation_witness :
    (∀ b ∈ [({ pid := 0, start := 0, end_ := 9 } : Block)], b.size < 20) ∧
    (20 : Int) ≤ ({ pid := 0, start := 100, end_ := 149 } : Block).size ∧
    ((2 : Int) = 1 ∨ (2 : Int) = 2 ∨ (2 : Int) = 3) ∧
    allocate_memory sampleFree sampleAlloc 7 20 2 =
      some { freelist := [{ pid := 0, start := 0, end_ := 9 },
                          { pid := 0, start := 120, end_ := 149 },
                          { pid := 0, start := 200, end_ := 239 }]
             alloclist := [{ pid := 4, start := 10, end_ := 99 },
                           { pid := 7, start := 100, end_ := 119 },
                           { pid := 5, start := 150, end_ := 199 }]
             error := none } ∧
    (∃ r, allocate_memory
        ([{ pid := 0, start := 0, end_ := 9 }] ++
          { pid := 0, start := 100, end_ := 149 } :: [{ pid := 0, start := 200, end_ := 239 }])
        sampleAlloc 7 20 2 = some r ∧
      r.error = none ∧
      (∃ a1 a2, sampleAlloc = a1 ++ a2 ∧
        r.alloclist = a1 ++
          { pid := 7, start := ({ pid := 0, start := 100, end_ := 149 } : Block).start,
            end_ := ({ pid := 0, start := 100, end_ := 149 } : Block).start + 20 - 1 } :: a2) ∧
      ((20 : Int) < ({ pid := 0, start := 100, end_ := 149 } : Block).size →
        ∃ f1 f2, [({ pid := 0, start := 0, end_ := 9 } : Block)] ++
            [{ pid := 0, start := 200, end_ := 239 }] = f1 ++ f2 ∧
          r.freelist = f1 ++
            { pid := 0, start := ({ pid := 0, start := 100, end_ := 149 } : Block).start + 20,
              end_ := ({ pid := 0, start := 100, end_ := 149 } : Block).end_ } :: f2) ∧
      (¬ (20 : Int) < ({ pid := 0, start := 100, end_ := 149 } : Block).size →
        r.freelist = [({ pid := 0, start := 0, end_ := 9 } : Block)] ++
          [{ pid := 0, start := 200, end_ := 239 }])) :=
  ⟨by decide, by decide, by decide, by decide,
    C19_successful_allocation [{ pid := 0, start := 0, end_ := 9 }]
      [{ pid := 0, start := 200, end_ := 239 }] sampleAlloc
      { pid := 0, start := 100, end_ := 149 } 7 20 2 (by decide) (by decide) (by decide)⟩

/-- C20 (failed allocation).  When no block of the free list has size
`>= blocksize` (an empty free list included), `allocate_memory` prints the
error with the requested block count and leaves the free list and the
allocated list exactly as they were, whatever the pid and the policy. -/
theorem C20_failed_allocation (freelist alloclist : List Block) (pid blocksize policy : Int)
    (hnone : ∀ b ∈ freelist, b.size < blocksize) :
    allocate_memory freelist alloclist pid blocksize policy =
      some { freelist := freelist, alloclist := alloclist, error := some blocksize } ∧
    allocate_memory [] alloclist pid blocksize policy =
      some { freelist := [], alloclist := alloclist, error := some blocksize } := by
  have h1 := (list_is_in_by_size_eq_false freelist blocksize).2 hnone
  constructor
  · simp [allocate_memory, h1]
  · simp [allocate_memory, list_is_in_by_size]

/-- Witness for C20: 60 blocks requested, the largest free block has 50. -/
theorem C20_failed_allocation_witness :
    (∀ b ∈ sampleFree, b.size < 60) ∧
    (allocate_memory sampleFree sampleAlloc 7 60 2 =
      some { freelist := sampleFree, alloclist := sampleAlloc, error := some 60 } ∧
    allocate_memory [] sampleAlloc 7 60 2 =
      some { freelist := [], alloclist := sampleAlloc, error := some 60 }) :=
  ⟨by decide, C20_failed_allocation sampleFree sampleAlloc 7 60 2 (by decide)⟩

/-! ### `deallocate_memory` -/

theorem list_is_in_by_pid_eq_false (l : List Block) (pid : Int) :
    list_is_in_by_pid l pid = false ↔ ∀ b ∈ l, b.pid ≠ pid := by
  induction l with
  | nil => simp [list_is_in_by_pid]
  | cons b rest ih =>
    by_cases h : b.pid = pid
    · simp [list_is_in_by_pid, h]
    · simp [list_is_in_by_pid, h, ih]

theorem indexOfByPidFrom_first (pre post : List Block) (blk : Block) (pid index : Int)
    (hpre : ∀ b ∈ pre, b.pid ≠ pid) (hblk : blk.pid = pid) :
    indexOfByPidFrom (pre ++ blk :: post) pid index = index + pre.length := by
  induction pre generalizing index with
  | nil => simp [indexOfByPidFrom, hblk]
  | cons b rest ih =>
    have hb : ¬ b.pid = pid := hpre b (List.mem_cons_self _ _)
    simp only [List.cons_append, indexOfByPidFrom, hb, if_false, List.length_cons,
      Nat.cast_add, Nat.cast_one, List.append_eq]
    rw [ih (index + 1) (fun x hx => hpre x (List.mem_cons_of_mem _ hx))]
    omega

/-- C23 (deallocation).  Let the allocated list be `pre ++ blk :: post` where
`blk` is the first block with the given pid, and let the policy be 1, 2 or 3.
Then `deallocate_memory` reports no error, the allocated list becomes
`pre ++ post`, and the free list is the old one with exactly the block
`[blk.start, blk.end]` of pid 0 inserted, the other blocks as they were.  If
no block of the allocated list has the pid (an empty list included), the error
is printed and both lists stay exactly as they were, whatever the policy. -/
theorem C23_deallocation (pre post freelist : List Block) (blk : Block) (pid policy : Int)
    (hpre : ∀ b ∈ pre, b.pid ≠ pid) (hblk : blk.pid = pid)
    (hpol : policy = 1 ∨ policy = 2 ∨ policy = 3) :
    (∃ r, deallocate_memory (pre ++ blk :: post) freelist pid policy = some r ∧
      r.error = none ∧ r.alloclist = pre ++ post ∧
      ∃ f1 f2, freelist = f1 ++ f2 ∧
        r.freelist = f1 ++ { pid := 0, start := blk.start, end_ := blk.end_ } :: f2) ∧
    (∀ alloclist : List Block, (∀ b ∈ alloclist, b.pid ≠ pid) →
      deallocate_memory alloclist freelist pid policy =
        some { alloclist := alloclist, freelist := freelist, error := some pid }) := by
  constructor
  · have hin : ¬ list_is_in_by_pid (pre ++ blk :: post) pid = false := by
      rw [list_is_in_by_pid_eq_false]
      intro h
      exact h blk (by simp) hblk
    have hidx : list_get_index_of_by_Pid (pre ++ blk :: post) pid = pre.length := by
      unfold list_get_index_of_by_Pid
      rw [indexOfByPidFrom_first pre post blk pid 0 hpre hblk]
      omega
    rcases hpol with rfl | rfl | rfl
    · refine ⟨_, by simp only [deallocate_memory, hin, if_false, hidx,
        list_remove_at_index_at, if_true]; rfl, rfl, rfl, freelist, [], by simp, ?_⟩
      show list_add_to_back freelist _ = _
      rw [list_add_to_back_eq_append]
    · obtain ⟨f1, f2, hf, hf2⟩ := list_add_ascending_by_blocksize_split freelist
        { pid := 0, start := blk.start, end_ := blk.end_ }
      exact ⟨_, by simp only [deallocate_memory, hin, if_false, hidx,
        list_remove_at_index_at, if_true]; rfl, rfl, rfl, f1, f2, hf, hf2⟩
    · obtain ⟨f1, f2, hf, hf2⟩ := list_add_descending_by_blocksize_split freelist
        { pid := 0, start := blk.start, end_ := blk.end_ }
      exact ⟨_, by simp only [deallocate_memory, hin, if_false, hidx,
        list_remove_at_index_at, if_true]; rfl, rfl, rfl, f1, f2, hf, hf2⟩
  · intro alloclist hnone
    have h1 := (list_is_in_by_pid_eq_false alloclist pid).2 hnone
    simp [deallocate_memory, h1]

/-- Witness for C23: pid 5 is freed under policy 2; pid 9 is not allocated. -/
theorem C23_deallocation_witness :
    (∀ b ∈ [({ pid := 4, start := 10, end_ := 99 } : Block)], b.pid ≠ 5) ∧
    ({ pid := 5, start := 150, end_ := 199 } : Block).pid = 5 ∧
    ((2 : Int) = 1 ∨ (2 : Int) = 2 ∨ (2 : Int) = 3) ∧
    deallocate_memory sampleAlloc sampleFree 5 2 =
      some { alloclist := [{ pid := 4, start := 10, end_ := 99 }]
             freelist := [{ pid := 0, start := 0, end_ := 9 },
                          { pid := 0, start := 100, end_ := 149 },
                          { pid := 0, start := 200, end_ := 239 },
                          { pid := 0, start := 150, end_ := 199 }]
             error := none } ∧
    deallocate_memory sampleAlloc sampleFree 9 2 =
      some { alloclist := sampleAlloc, freelist := sampleFree, error := some 9 } ∧
    ((∃ r, deallocate_memory
        ([{ pid := 4, start := 10, end_ := 99 }] ++ { pid := 5, start := 150, end_ := 199 } :: [])
        sampleFree 5 2 = some r ∧
      r.error = none ∧ r.alloclist = [({ pid := 4, start := 10, end_ := 99 } : Block)] ++ [] ∧
      ∃ f1 f2, sampleFree = f1 ++ f2 ∧
        r.freelist = f1 ++
          { pid := 0, start := ({ pid := 5, start := 150, end_ := 199 } : Block).start,
            end_ := ({ pid := 5, start := 150, end_ := 199 } : Block).end_ } :: f2) ∧
    (∀ alloclist : List Block, (∀ b ∈ alloclist, b.pid ≠ 5) →
      deallocate_memory alloclist sampleFree 5 2 =
        some { alloclist := alloclist, freelist := sampleFree, error := some 5 })) :=
  ⟨by decide, by decide, by decide, by decide, by decide,
    C23_deallocation [{ pid := 4, start := 10, end_ := 99 }] [] sampleFree
      { pid := 5, start := 150, end_ := 199 } 5 2 (by decide) (by decide) (by decide)⟩

/-! ### The allocated list stays sorted by address -/

theorem insertByAddressAfter_sorted (l : List Block) (blk : Block)
    (hs : l.Pairwise (fun a b => a.start ≤ b.start)) :
    (insertByAddressAfter l blk).Pairwise (fun a b => a.start ≤ b.start) ∧
    ∀ x ∈ insertByAddressAfter l blk, x = blk ∨ x ∈ l := by
  induction l with
  | nil => simp [insertByAddressAfter]
  | cons n rest ih =>
    rw [List.pairwise_cons] at hs
    obtain ⟨ih1, ih2⟩ := ih hs.2
    by_cases h : n.start < blk.start
    · simp only [insertByAddressAfter, h, if_true, List.pairwise_cons, List.mem_cons]
      refine ⟨⟨?_, ih1⟩, ?_⟩
      · intro x hx
        rcases ih2 x hx with rfl | hx2
        · omega
        · exact hs.1 x hx2
      · rintro x (rfl | hx)
        · exact Or.inr (Or.inl rfl)
        · rcases ih2 x hx with rfl | hx2
          · exact Or.inl rfl
          · exact Or.inr (Or.inr hx2)
    · simp only [insertByAddressAfter, h, if_false, List.pairwise_cons, List.mem_cons]
      refine ⟨⟨?_, hs⟩, ?_⟩
      · rintro x (rfl | hx)
        · omega
        · have := hs.1 x hx
          omega
      · rintro x (rfl | rfl | hx)
        · exact Or.inl rfl
        · exact Or.inr (Or.inl rfl)
        · exact Or.inr (Or.inr hx)

theorem list_add_ascending_by_address_sorted (l : List Block) (blk : Block)
    (hs : l.Pairwise (fun a b => a.start ≤ b.start)) :
    (list_add_ascending_by_address l blk).Pairwise (fun a b => a.start ≤ b.start) := by
  cases l with
  | nil => simp [list_add_ascending_by_address]
  | cons head rest =>
    rw [List.pairwise_cons] at hs
    by_cases h : blk.start < head.start
    · simp only [list_add_ascending_by_address, h, if_true, List.pairwise_cons, List.mem_cons]
      refine ⟨?_, hs⟩
      rintro x (rfl | hx)
      · omega
      · have := hs.1 x hx
        omega
    · obtain ⟨h1, h2⟩ := insertByAddressAfter_sorted rest blk hs.2
      simp only [list_add_ascending_by_address, h, if_false, List.pairwise_cons]
      refine ⟨?_, h1⟩
      intro x hx
      rcases h2 x hx with rfl | hx2
      · omega
      · exact hs.1 x hx2

theorem removeAfter_sublist (steps : Nat) (current : Block) (rest : List Block) :
    (removeAfter steps current rest).2.Sublist (current :: rest) := by
  induction rest generalizing steps current with
  | nil => simp [removeAfter]
  | cons n after ih =>
    cases steps with
    | zero =>
      simp only [removeAfter]
      exact List.Sublist.cons₂ _ (List.sublist_cons_self _ _)
    | succ k =>
      simp only [removeAfter]
      exact List.Sublist.cons₂ _ (ih k n)

theorem list_remove_at_index_sublist (l : List Block) (index : Int) :
    (list_remove_at_index l index).2.Sublist l := by
  cases l with
  | nil => simp [list_remove_at_index]
  | cons head rest =>
    unfold list_remove_at_index
    split_ifs
    · exact List.Sublist.refl _
    · simp only [list_remove_from_front]
      exact List.sublist_cons_self _ _
    · exact removeAfter_sublist _ head rest

theorem list_is_in_by_size_split (l : List Block) (size : Int)
    (h : ¬ list_is_in_by_size l size = false) :
    ∃ pre blk post, l = pre ++ blk :: post ∧ (∀ b ∈ pre, b.size < size) ∧ size ≤ blk.size := by
  induction l with
  | nil => simp [list_is_in_by_size] at h
  | cons b rest ih =>
    by_cases hb : b.size ≥ size
    · exact ⟨[], b, rest, rfl, by simp, hb⟩
    · have h2 : ¬ list_is_in_by_size rest size = false := by
        simpa [list_is_in_by_size, hb] using h
      obtain ⟨pre, blk, post, h3, h4, h5⟩ := ih h2
      refine ⟨b :: pre, blk, post, by rw [h3]; rfl, ?_, h5⟩
      intro x hx
      rw [List.mem_cons] at hx
      rcases hx with rfl | hx
      · omega
      · exact h4 x hx

theorem list_is_in_by_pid_split (l : List Block) (pid : Int)
    (h : ¬ list_is_in_by_pid l pid = false) :
    ∃ pre blk post, l = pre ++ blk :: post ∧ (∀ b ∈ pre, b.pid ≠ pid) ∧ blk.pid = pid := by
  induction l with
  | nil => simp [list_is_in_by_pid] at h
  | cons b rest ih =>
    by_cases hb : b.pid = pid
    · exact ⟨[], b, rest, rfl, by simp, hb⟩
    · have h2 : ¬ list_is_in_by_pid rest pid = false := by
        simpa [list_is_in_by_pid, hb] using h
      obtain ⟨pre, blk, post, h3, h4, h5⟩ := ih h2
      refine ⟨b :: pre, blk, post, by rw [h3]; rfl, ?_, h5⟩
      intro x hx
      rw [List.mem_cons] at hx
      rcases hx with rfl | hx
      · exact hb
      · exact h4 x hx

theorem allocate_memory_alloclist (freelist alloclist : List Block) (pid blocksize policy : Int) :
    ∃ r, allocate_memory freelist alloclist pid blocksize policy = some r ∧
      (r.alloclist = alloclist ∨
        ∃ blk, r.alloclist = list_add_ascending_by_address alloclist blk) := by
  by_cases hin : list_is_in_by_size freelist blocksize = false
  · exact ⟨{ freelist := freelist, alloclist := alloclist, error := some blocksize },
      by rw [allocate_memory, if_pos hin], Or.inl rfl⟩
  · obtain ⟨pre, blk, post, rfl, hpre, hfit⟩ := list_is_in_by_size_split freelist blocksize hin
    have hidx : list_get_index_of_by_Size (pre ++ blk :: post) blocksize = pre.length := by
      unfold list_get_index_of_by_Size
      rw [indexOfBySizeFrom_first pre post blk blocksize 0 hpre hfit]
      omega
    rw [allocate_memory, if_neg hin]
    simp only [hidx, list_remove_at_index_at]
    split_ifs <;> exact ⟨_, rfl, Or.inr ⟨_, rfl⟩⟩

theorem deallocate_memory_alloclist (alloclist freelist : List Block) (pid policy : Int) :
    ∃ r, deallocate_memory alloclist freelist pid policy = some r ∧
      r.alloclist.Sublist alloclist := by
  by_cases hin : list_is_in_by_pid alloclist pid = false
  · exact ⟨{ alloclist := alloclist, freelist := freelist, error := some pid },
      by rw [deallocate_memory, if_pos hin], List.Sublist.refl _⟩
  · obtain ⟨pre, blk, post, rfl, hpre, hblk⟩ := list_is_in_by_pid_split alloclist pid hin
    have hidx : list_get_index_of_by_Pid (pre ++ blk :: post) pid = pre.length := by
      unfold list_get_index_of_by_Pid
      rw [indexOfByPidFrom_first pre post blk pid 0 hpre hblk]
      omega
    have hsub : (pre ++ post).Sublist (pre ++ blk :: post) :=
      List.Sublist.append (List.Sublist.refl _) (List.sublist_cons_self _ _)
    rw [deallocate_memory, if_neg hin]
    simp only [hidx, list_remove_at_index_at]
    split_ifs <;> exact ⟨_, rfl, hsub⟩

theorem applyCall_sorted (st : MmuState) (c : MemCall)
    (hs : st.ALLOC_LIST.Pairwise (fun a b => a.start ≤ b.start)) :
    ∃ st1, applyCall st c = some st1 ∧
      st1.ALLOC_LIST.Pairwise (fun a b => a.start ≤ b.start) := by
  cases c with
  | allocate pid blocksize policy =>
    obtain ⟨r, hr, hcase⟩ :=
      allocate_memory_alloclist st.FREE_LIST st.ALLOC_LIST pid blocksize policy
    refine ⟨{ FREE_LIST := r.freelist, ALLOC_LIST := r.alloclist },
      by simp only [applyCall, hr], ?_⟩
    rcases hcase with h | ⟨blk, h⟩
    · show r.alloclist.Pairwise _
      rw [h]
      exact hs
    · show r.alloclist.Pairwise _
      rw [h]
      exact list_add_ascending_by_address_sorted _ blk hs
  | deallocate pid policy =>
    obtain ⟨r, hr, hsub⟩ := deallocate_memory_alloclist st.ALLOC_LIST st.FREE_LIST pid policy
    exact ⟨{ FREE_LIST := r.freelist, ALLOC_LIST := r.alloclist },
      by simp only [applyCall, hr], List.Pairwise.sublist hsub hs⟩
  | coalesce => exact ⟨_, rfl, hs⟩

/-- C25 (allocated list sorted).  Starting from an empty allocated list and any
free list, every sequence of `allocate_memory`, `deallocate_memory` and
`coalese_memory` calls, with any arguments, runs through (no call dereferences
`NULL`) and leaves an allocated list whose start addresses are non-decreasing
from head to tail. -/
theorem C25_alloclist_sorted (free0 : List Block) (calls : List MemCall) :
    ∃ st, applyCalls { FREE_LIST := free0, ALLOC_LIST := [] } calls = some st ∧
      st.ALLOC_LIST.Pairwise (fun a b => a.start ≤ b.start) := by
  have key : ∀ (cs : List MemCall) (st0 : MmuState),
      st0.ALLOC_LIST.Pairwise (fun a b => a.start ≤ b.start) →
      ∃ st, applyCalls st0 cs = some st ∧
        st.ALLOC_LIST.Pairwise (fun a b => a.start ≤ b.start) := by
    intro cs
    induction cs with
    | nil => exact fun st0 hs => ⟨st0, rfl, hs⟩
    | cons c rest ih =>
      intro st0 hs
      obtain ⟨st1, h1, hs1⟩ := applyCall_sorted st0 c hs
      obtain ⟨st2, h2, hs2⟩ := ih st1 hs1
      exact ⟨st2, by simp only [applyCalls, h1, h2], hs2⟩
  exact key calls _ List.Pairwise.nil

/-! ### Coalescing -/

theorem list_add_ascending_by_address_perm (l : List Block) (blk : Block) :
    (list_add_ascending_by_address l blk).Perm (blk :: l) := by
  obtain ⟨l1, l2, h1, h2⟩ := list_add_ascending_by_address_split l blk
  rw [h2, h1]
  exact List.perm_middle

theorem drainByAddress_perm (l temp : List Block) :
    (drainByAddress l temp).Perm (l ++ temp) := by
  induction l generalizing temp with
  | nil => exact List.Perm.refl _
  | cons blk rest ih =>
    simp only [drainByAddress, List.cons_append]
    refine (ih _).trans ?_
    refine (List.Perm.append_left rest (list_add_ascending_by_address_perm temp blk)).trans ?_
    exact List.perm_middle

theorem drainByAddress_sorted (l temp : List Block)
    (hs : temp.Pairwise (fun a b => a.start ≤ b.start)) :
    (drainByAddress l temp).Pairwise (fun a b => a.start ≤ b.start) := by
  induction l generalizing temp with
  | nil => exact hs
  | cons blk rest ih =>
    exact ih _ (list_add_ascending_by_address_sorted temp blk hs)

theorem coalesceFrom_noop (current : Block) (rest : List Block)
    (h : (current :: rest).Chain' (fun a b => a.end_ + 1 ≠ b.start)) :
    coalesceFrom current rest = current :: rest := by
  induction rest generalizing current with
  | nil => rfl
  | cons next after ih =>
    rw [List.chain'_cons] at h
    simp only [coalesceFrom, h.1, if_false, ih next h.2]

theorem coalesceFrom_spec (rest : List Block) (current : Block)
    (hvalid : ∀ b ∈ current :: rest, b.start ≤ b.end_)
    (hgap : (current :: rest).Pairwise (fun a b => a.end_ < b.start)) :
    (∀ b ∈ coalesceFrom current rest, b.start ≤ b.end_ ∧ current.start ≤ b.start) ∧
    (coalesceFrom current rest).Pairwise (fun a b => a.end_ + 1 < b.start) ∧
    (∀ x, (∃ b ∈ coalesceFrom current rest, b.covers x) ↔
      ∃ b ∈ current :: rest, b.covers x) := by
  induction rest generalizing current with
  | nil =>
    refine ⟨?_, List.pairwise_singleton _ _, fun _ => Iff.rfl⟩
    intro b hb
    simp only [coalesceFrom, List.mem_singleton] at hb
    subst hb
    exact ⟨hvalid b (List.mem_singleton_self _), le_refl _⟩
  | cons next after ih =>
    have hc := hvalid current (List.mem_cons_self _ _)
    have hn := hvalid next (List.mem_cons_of_mem _ (List.mem_cons_self _ _))
    rw [List.pairwise_cons] at hgap
    obtain ⟨hg1, hg2⟩ := hgap
    have hcn := hg1 next (List.mem_cons_self _ _)
    rw [List.pairwise_cons] at hg2
    by_cases hadj : current.end_ + 1 = next.start
    · have hv2 : ∀ b ∈ ({ current with end_ := next.end_ } : Block) :: after,
          b.start ≤ b.end_ := by
        intro b hb
        rw [List.mem_cons] at hb
        rcases hb with rfl | hb
        · show current.start ≤ next.end_
          omega
        · exact hvalid b (List.mem_cons_of_mem _ (List.mem_cons_of_mem _ hb))
      have hg3 : (({ current with end_ := next.end_ } : Block) :: after).Pairwise
          (fun a b => a.end_ < b.start) := by
        rw [List.pairwise_cons]
        exact ⟨fun b hb => hg2.1 b hb, hg2.2⟩
      obtain ⟨i1, i2, i3⟩ := ih { current with end_ := next.end_ } hv2 hg3
      simp only [coalesceFrom, hadj, if_true]
      refine ⟨i1, i2, ?_⟩
      intro x
      rw [i3 x]
      constructor
      · rintro ⟨b, hb, hx⟩
        rw [List.mem_cons] at hb
        rcases hb with rfl | hb
        · have hx1 : current.start ≤ x := hx.1
          have hx2 : x ≤ next.end_ := hx.2
          by_cases hle : x ≤ current.end_
          · exact ⟨current, List.mem_cons_self _ _, hx1, hle⟩
          · exact ⟨next, List.mem_cons_of_mem _ (List.mem_cons_self _ _),
              by show next.start ≤ x; omega, hx2⟩
        · exact ⟨b, List.mem_cons_of_mem _ (List.mem_cons_of_mem _ hb), hx⟩
      · rintro ⟨b, hb, hx⟩
        rw [List.mem_cons, List.mem_cons] at hb
        rcases hb with rfl | rfl | hb
        · exact ⟨_, List.mem_cons_self _ _, by
            show b.start ≤ x ∧ x ≤ next.end_
            have := hx.1
            have := hx.2
            omega⟩
        · exact ⟨_, List.mem_cons_self _ _, by
            show current.start ≤ x ∧ x ≤ b.end_
            have := hx.1
            have := hx.2
            omega⟩
        · exact ⟨b, List.mem_cons_of_mem _ hb, hx⟩
    · have hv2 : ∀ b ∈ next :: after, b.start ≤ b.end_ :=
        fun b hb => hvalid b (List.mem_cons_of_mem _ hb)
      obtain ⟨i1, i2, i3⟩ := ih next hv2 (List.pairwise_cons.2 hg2)
      simp only [coalesceFrom, hadj, if_false, List.mem_cons, List.pairwise_cons]
      refine ⟨?_, ⟨?_, i2⟩, ?_⟩
      · rintro b (rfl | hb)
        · exact ⟨hc, le_refl _⟩
        · have := i1 b hb
          exact ⟨this.1, by omega⟩
      · intro b hb
        have := (i1 b hb).2
        omega
      · intro x
        constructor
        · rintro ⟨b, hb | hb, hx⟩
          · exact ⟨current, Or.inl rfl, hb ▸ hx⟩
          · obtain ⟨b2, hb2, hx2⟩ := (i3 x).1 ⟨b, hb, hx⟩
            exact ⟨b2, Or.inr (List.mem_cons.1 hb2), hx2⟩
        · rintro ⟨b, hb | hb, hx⟩
          · exact ⟨current, Or.inl rfl, hb ▸ hx⟩
          · obtain ⟨b2, hb2, hx2⟩ := (i3 x).2 ⟨b, List.mem_cons.2 hb, hx⟩
            exact ⟨b2, Or.inr hb2, hx2⟩

/-- C24 (coalescing).  For every free list of pairwise disjoint blocks (each
with `start <= end`), the list returned by `coalese_memory` is sorted ascending
by start address, has no two consecutive blocks with `first.end + 1 ==
second.start` (indeed every later block starts beyond `end + 1` of every
earlier one), consists of blocks with `start <= end`, and covers exactly the
addresses the input covers.  If no two blocks of the input are adjacent, the
result is the input sorted by address, nothing merged.  The blocks `[0-49]`,
`[50-99]`, `[100-149]`, in any order, become the single block `[0-149]`. -/
theorem C24_coalescing (l : List Block) (hvalid : ∀ b ∈ l, b.start ≤ b.end_)
    (hdisj : l.Pairwise (fun a b => ∀ x, ¬ (a.covers x ∧ b.covers x))) :
    (coalese_memory l).Pairwise (fun a b => a.start ≤ b.start) ∧
    (coalese_memory l).Chain' (fun a b => a.end_ + 1 ≠ b.start) ∧
    (coalese_memory l).Pairwise (fun a b => a.end_ + 1 < b.start) ∧
    (∀ b ∈ coalese_memory l, b.start ≤ b.end_) ∧
    (∀ x, (∃ b ∈ coalese_memory l, b.covers x) ↔ ∃ b ∈ l, b.covers x) ∧
    (l.Pairwise (fun a b => a.end_ + 1 ≠ b.start ∧ b.end_ + 1 ≠ a.start) →
      coalese_memory l = drainByAddress l [] ∧ (coalese_memory l).Perm l) ∧
    (∀ p ∈ threeBlockOrders, coalese_memory p = [{ pid := 0, start := 0, end_ := 149 }]) := by
  have hperm : (drainByAddress l []).Perm l := by
    simpa using drainByAddress_perm l []
  have hsorted := drainByAddress_sorted l [] List.Pairwise.nil
  have hv : ∀ b ∈ drainByAddress l [], b.start ≤ b.end_ :=
    fun b hb => hvalid b (hperm.subset hb)
  have hd : (drainByAddress l []).Pairwise (fun a b => ∀ x, ¬ (a.covers x ∧ b.covers x)) := by
    refine (List.Perm.pairwise_iff ?_ hperm).2 hdisj
    intro a b h x hx
    exact h x ⟨hx.2, hx.1⟩
  have hgap : (drainByAddress l []).Pairwise (fun a b => a.end_ < b.start) := by
    refine List.Pairwise.imp_of_mem ?_ (hsorted.and hd)
    intro a b ha hb hab
    by_contra hcon
    have h1 := hv a ha
    have h2 := hv b hb
    have h3 := hab.1
    exact hab.2 b.start ⟨⟨h3, by omega⟩, ⟨le_refl _, h2⟩⟩
  have hcover : ∀ x, (∃ b ∈ drainByAddress l [], b.covers x) ↔ ∃ b ∈ l, b.covers x := by
    intro x
    constructor
    · rintro ⟨b, hb, hx⟩
      exact ⟨b, hperm.subset hb, hx⟩
    · rintro ⟨b, hb, hx⟩
      exact ⟨b, hperm.symm.subset hb, hx⟩
  have hsep : l.Pairwise (fun a b => a.end_ + 1 ≠ b.start ∧ b.end_ + 1 ≠ a.start) →
      coalese_memory l = drainByAddress l [] ∧ (coalese_memory l).Perm l := by
    intro hs
    have hs2 : (drainByAddress l []).Pairwise
        (fun a b => a.end_ + 1 ≠ b.start ∧ b.end_ + 1 ≠ a.start) := by
      refine (List.Perm.pairwise_iff ?_ hperm).2 hs
      intro a b h
      exact ⟨h.2, h.1⟩
    have hc : (drainByAddress l []).Chain' (fun a b => a.end_ + 1 ≠ b.start) :=
      (hs2.imp (fun h => h.1)).chain'
    have heq : coalese_memory l = drainByAddress l [] := by
      unfold coalese_memory
      cases hq : drainByAddress l [] with
      | nil => rfl
      | cons head rest =>
        rw [hq] at hc
        exact coalesceFrom_noop head rest hc
    exact ⟨heq, heq ▸ hperm⟩
  have hex : ∀ p ∈ threeBlockOrders,
      coalese_memory p = [{ pid := 0, start := 0, end_ := 149 }] := by
    decide
  unfold coalese_memory at *
  cases hq : drainByAddress l [] with
  | nil =>
    rw [hq] at hcover hsep
    exact ⟨List.Pairwise.nil, List.chain'_nil, List.Pairwise.nil,
      fun b hb => absurd hb (List.not_mem_nil b), hcover, hsep, hex⟩
  | cons head rest =>
    rw [hq] at hv hgap hcover hsep
    obtain ⟨c1, c2, c3⟩ := coalesceFrom_spec rest head hv hgap
    refine ⟨?_, ?_, c2, fun b hb => (c1 b hb).1, ?_, hsep, hex⟩
    · refine List.Pairwise.imp_of_mem ?_ c2
      intro a b ha _ hab
      have := (c1 a ha).1
      omega
    · exact (c2.imp (fun h => ne_of_lt h)).chain'
    · intro x
      exact (c3 x).trans (hcover x)

/-- Witness for C24: the free list `[100-149] [0-58] [59-98]` becomes
`[0-98] [100-149]`. -/
theorem C24_coalescing_witness :
    (∀ b ∈ sampleHoles, b.start ≤ b.end_) ∧
    sampleHoles.Pairwise (fun a b => ∀ x, ¬ (a.covers x ∧ b.covers x)) ∧
    coalese_memory sampleHoles
      = [{ pid := 0, start := 0, end_ := 98 }, { pid := 0, start := 100, end_ := 149 }] ∧
    (∀ x, (∃ b ∈ coalese_memory sampleHoles, b.covers x) ↔ ∃ b ∈ sampleHoles, b.covers x) :=
  have hd : sampleHoles.Pairwise (fun a b => ∀ x, ¬ (a.covers x ∧ b.covers x)) := by
    unfold sampleHoles
    refine List.Pairwise.cons ?_ (List.Pairwise.cons ?_ (List.pairwise_singleton _ _))
    · intro b hb x hx
      simp only [List.mem_cons, List.mem_singleton, List.not_mem_nil, or_false] at hb
      rcases hb with rfl | rfl <;>
        (simp only [Block.covers] at hx
         omega)
    · intro b hb x hx
      simp only [List.mem_singleton] at hb
      subst hb
      simp only [Block.covers] at hx
      omega
  ⟨by decide, hd, by decide, (C24_coalescing sampleHoles (by decide) hd).2.2.2.2.1⟩

/-- C24, counterexample to the claim for blocks with `end < start`: the input
lines `invertedLines` leave the free list `[0-99] [100, 89]`; its blocks are
pairwise disjoint (the second covers no address), and `coalese_memory` merges
them into `[0-89]`, so the addresses 90..99 (here 95) are covered by the input
and not by the result. -/
theorem C24_counterexample :
    mainLoop 1 (mainInit 200 0) invertedLines =
      some { FREE_LIST := invertedHoles
             ALLOC_LIST := [{ pid := 3, start := 90, end_ := 199 }] } ∧
    invertedHoles.Pairwise (fun a b => ∀ x, ¬ (a.covers x ∧ b.covers x)) ∧
    coalese_memory invertedHoles = [{ pid := 0, start := 0, end_ := 89 }] ∧
    (∃ b ∈ invertedHoles, b.covers 95) ∧
    ¬ (∃ b ∈ coalese_memory invertedHoles, b.covers 95) := by
  refine ⟨by decide, ?_, by decide, ?_, ?_⟩
  · unfold invertedHoles
    refine List.Pairwise.cons ?_ (List.pairwise_singleton _ _)
    intro b hb x hx
    simp only [List.mem_singleton] at hb
    subst hb
    simp only [Block.covers] at hx
    omega
  · refine ⟨{ pid := 0, start := 0, end_ := 99 }, by decide, ?_⟩
    simp only [Block.covers]
    omega
  · have hc : coalese_memory invertedHoles = [{ pid := 0, start := 0, end_ := 89 }] := by
      decide
    rw [hc]
    rintro ⟨b, hb, hx⟩
    simp only [List.mem_singleton] at hb
    subst hb
    simp only [Block.covers] at hx
    omega

/-! ### The order of the free list after coalescing -/

/-- C21, the code breaks the claim: under policy 2, a partition of 100 is
filled by pids 1, 2, 3 (50, 10, 40 blocks), pids 1 and 3 are freed and the
free list is coalesced.  `coalese_memory` returns the free list in address
order, `[0-49] [60-99]`, not in ascending size order.  The next request, 20
blocks for pid 5, takes the first block that fits, `[0-49]` of size 50, while
`[60-99]` of size 40 is free and sufficient and smaller.  Without the
coalescing line the free list is `[60-99] [0-49]` and the same request takes
`[60-99]`. -/
theorem C21_bestfit_after_coalesce :
    mainLoop 2 (mainInit 100 0) bestfitLines =
      some { FREE_LIST := [{ pid := 0, start := 0, end_ := 49 },
                           { pid := 0, start := 60, end_ := 99 }]
             ALLOC_LIST := [{ pid := 2, start := 50, end_ := 59 }] } ∧
    allocate_memory [{ pid := 0, start := 0, end_ := 49 }, { pid := 0, start := 60, end_ := 99 }]
        [{ pid := 2, start := 50, end_ := 59 }] 5 20 2 =
      some { freelist := [{ pid := 0, start := 20, end_ := 49 },
                          { pid := 0, start := 60, end_ := 99 }]
             alloclist := [{ pid := 5, start := 0, end_ := 19 },
                           { pid := 2, start := 50, end_ := 59 }]
             error := none } ∧
    ({ pid := 0, start := 0, end_ := 49 } : Block).size = 50 ∧
    ({ pid := 0, start := 60, end_ := 99 } : Block).size = 40 ∧
    (20 : Int) ≤ 40 ∧ (40 : Int) < 50 ∧
    mainLoop 2 (mainInit 100 0) [(1, 50), (2, 10), (3, 40), (-1, 0), (-3, 0), (5, 20)] =
      some { FREE_LIST := [{ pid := 0, start := 80, end_ := 99 },
                           { pid := 0, start := 0, end_ := 49 }]
             ALLOC_LIST := [{ pid := 2, start := 50, end_ := 59 },
                            { pid := 5, start := 60, end_ := 79 }] } := by
  decide

/-- C22, the code breaks the claim: under policy 3, a partition of 100 is
filled by pids 1, 2, 3 (40, 10, 50 blocks), pids 1 and 3 are freed and the
free list is coalesced.  `coalese_memory` returns the free list in address
order, `[0-39] [50-99]`, not in descending size order.  The next request, 20
blocks for pid 5, takes the first block that fits, `[0-39]` of size 40, while
the largest free block is `[50-99]` of size 50.  Without the coalescing line
the free list is `[50-99] [0-39]` and the same request takes `[50-99]`. -/
theorem C22_worstfit_after_coalesce :
    mainLoop 3 (mainInit 100 0) worstfitLines =
      some { FREE_LIST := [{ pid := 0, start := 0, end_ := 39 },
                           { pid := 0, start := 50, end_ := 99 }]
             ALLOC_LIST := [{ pid := 2, start := 40, end_ := 49 }] } ∧
    allocate_memory [{ pid := 0, start := 0, end_ := 39 }, { pid := 0, start := 50, end_ := 99 }]
        [{ pid := 2, start := 40, end_ := 49 }] 5 20 3 =
      some { freelist := [{ pid := 0, start := 50, end_ := 99 },
                          { pid := 0, start := 20, end_ := 39 }]
             alloclist := [{ pid := 5, start := 0, end_ := 19 },
                           { pid := 2, start := 40, end_ := 49 }]
             error := none } ∧
    ({ pid := 0, start := 0, end_ := 39 } : Block).size = 40 ∧
    ({ pid := 0, start := 50, end_ := 99 } : Block).size = 50 ∧
    (40 : Int) < 50 ∧
    mainLoop 3 (mainInit 100 0) [(1, 40), (2, 10), (3, 50), (-1, 0), (-3, 0), (5, 20)] =
      some { FREE_LIST := [{ pid := 0, start := 0, end_ := 39 },
                           { pid := 0, start := 70, end_ := 99 }]
             ALLOC_LIST := [{ pid := 2, start := 40, end_ := 49 },
                            { pid := 5, start := 50, end_ := 69 }] } := by
  decide

end Mmu

namespace Lab4List

theorem walkInsert_eq (l : List Int) (steps : Nat) (value : Int) :
    walkInsert steps l value =
      if steps < l.length then l.take (steps + 1) ++ value :: l.drop (steps + 1) else l := by
  induction l generalizing steps with
  | nil => simp [walkInsert]
  | cons cur next ih =>
    cases steps with
    | zero => simp [walkInsert]
    | succ k =>
      simp only [walkInsert, ih k, List.length_cons, Nat.add_lt_add_iff_right, List.take_succ_cons,
        List.drop_succ_cons]
      split_ifs <;> simp

/-- C26 (insert at 1-based index).  For a list `l` of length `n` and a value
`v`: with `1 <= i <= n + 1`, `list_add_at_index` returns the first `i - 1`
elements of `l`, then `v`, then the remaining elements of `l`, so `v` stands at
position `i` and the result has `n + 1` elements (`i = 1` puts `v` in front,
`i = n + 1` appends it); with `i < 1` or `i > n + 1` it returns `l` as it
was. -/
theorem C26_add_at_index (l : List Int) (v : Int) (i : Int) :
    (1 ≤ i ∧ i ≤ l.length + 1 →
      list_add_at_index l v i = l.take (i - 1).toNat ++ v :: l.drop (i - 1).toNat ∧
      (list_add_at_index l v i)[(i - 1).toNat]? = some v ∧
      (list_add_at_index l v i).length = l.length + 1) ∧
    list_add_at_index l v 1 = v :: l ∧
    list_add_at_index l v (l.length + 1) = l ++ [v] ∧
    (i < 1 ∨ i > l.length + 1 → list_add_at_index l v i = l) := by
  have main : ∀ j : Int, 1 ≤ j → j ≤ l.length + 1 →
      list_add_at_index l v j = l.take (j - 1).toNat ++ v :: l.drop (j - 1).toNat := by
    intro j h1 h2
    by_cases hj : j = 1
    · subst hj
      simp [list_add_at_index, list_add_to_front]
    · have hlt : ¬ j < 1 := by omega
      cases l with
      | nil =>
        simp only [List.length_nil, Nat.cast_zero] at h2
        omega
      | cons head rest =>
        simp only [list_add_at_index, hlt, hj, if_false, walkInsert_eq]
        have hk : (j - 1 - 1).toNat < (head :: rest).length := by
          simp only [List.length_cons, Nat.cast_add, Nat.cast_one] at h2 ⊢
          omega
        have hk2 : (j - 1 - 1).toNat + 1 = (j - 1).toNat := by omega
        simp only [hk, if_true, hk2]
  refine ⟨?_, ?_, ?_, ?_⟩
  · rintro ⟨h1, h2⟩
    have hlen : (i - 1).toNat ≤ l.length := by omega
    rw [main i h1 h2]
    generalize (i - 1).toNat = k at hlen
    have htake : (l.take k).length = k := by
      rw [List.length_take]
      exact Nat.min_eq_left hlen
    refine ⟨rfl, ?_, ?_⟩
    · rw [List.getElem?_append_right (by rw [htake]), htake, Nat.sub_self]
      exact List.getElem?_cons_zero
    · simp only [List.length_append, htake, List.length_cons, List.length_drop]
      omega
  · simp [list_add_at_index, list_add_to_front]
  · rw [main (l.length + 1) (by omega) (le_refl _)]
    simp
  · intro h
    by_cases hlt : i < 1
    · simp [list_add_at_index, hlt]
    · have hgt : i > l.length + 1 := by
        rcases h with h | h
        · exact absurd h hlt
        · exact h
      have hne : ¬ i = 1 := by omega
      cases l with
      | nil => simp [list_add_at_index, hlt, hne]
      | cons head rest =>
        simp only [list_add_at_index, hlt, hne, if_false, walkInsert_eq]
        have hk : ¬ (i - 1 - 1).toNat < (head :: rest).length := by
          simp only [List.length_cons, Nat.cast_add, Nat.cast_one] at hgt ⊢
          omega
        simp only [hk, if_false]

/-- Witness for C26: inserting 7 into `[10, 20, 30]` at positions 1, 3 and 4,
and the refused positions 0 and 5. -/
theorem C26_add_at_index_witness :
    list_add_at_index [10, 20, 30] 7 1 = [7, 10, 20, 30] ∧
    list_add_at_index [10, 20, 30] 7 3 = [10, 20, 7, 30] ∧
    list_add_at_index [10, 20, 30] 7 4 = [10, 20, 30, 7] ∧
    list_add_at_index [10, 20, 30] 7 0 = [10, 20, 30] ∧
    list_add_at_index [10, 20, 30] 7 5 = [10, 20, 30] ∧
    list_add_at_index [] 7 2 = [] ∧
    (list_add_at_index [10, 20, 30] 7 3)[((3 : Int) - 1).toNat]? = some 7 :=
  ⟨by decide, by decide, by decide, by decide, by decide, by decide,
    ((C26_add_at_index [10, 20, 30] 7 3).1 (by decide)).2.1⟩

end Lab4List
